import Mathlib

/-!
Shallow embedding of the SQL tokenizer of `db2makedoc/sql/tokenizer.py`
(class `SQLTokenizerBase` and its dialect subclasses `DB2ZOSTokenizer`,
`DB2LUWTokenizer`), written for Python 2.

Python byte strings are modelled as `List Char`.  The tokenizer state
(`_source`, `_index`, `_markedindex`, `_line`, `_linestart`, `_tokenstart`,
`_tokenline`, `_tokencolumn`, `_tokens`) is the structure `TState`.
Python exceptions that can cross handler boundaries are represented by
`PyExc`; handlers return `Except (PyExc × TState) TState` so that an
`except ValueError` clause can resume from the state at the raise point,
exactly as the interpreter does.  The dispatch dictionary `_jump` is a
function from characters to handler tags, patched at the terminator's
first character as in `_set_terminator`.  The outer `while self.char != NUL`
loop of `parse` is given explicit fuel because the source can genuinely
fail to advance (the `_handle_terminator` fallback when `_savedhandler` is
`None` does nothing); the bounded interior `while` loops are given the
fuel `length - index + 1`, which is sufficient because each of their
iterations advances `_index` by at least one.
-/

namespace DbSuite

/-- The twelve token-type constants created by `new_tokens(12)` in
`tokenizer.py` (EOF, ERROR, WHITESPACE, COMMENT, KEYWORD, IDENTIFIER,
NUMBER, STRING, OPERATOR, LABEL, PARAMETER, TERMINATOR). -/
inductive TType where
  | eof
  | error
  | whitespace
  | comment
  | keyword
  | identifier
  | number
  | string
  | operator
  | label
  | parameter
  | terminator
deriving DecidableEq, Repr

/-- The value slot of a token tuple: `None`, a (byte) string, or a
`decimal.Decimal`.  A `Decimal` is represented by the literal text that was
accepted by the constructor (values are never compared arithmetically by
the tokenizer, only for equality against other literals). -/
inductive TValue where
  | vnone
  | vstr (s : List Char)
  | vnum (s : List Char)
deriving DecidableEq, Repr

/-- One 5-tuple `(type, value, source, line, column)` appended by
`SQLTokenizerBase._add_token`. -/
structure Token where
  ttype : TType
  value : TValue
  source : List Char
  line : Nat
  column : Nat
deriving DecidableEq, Repr

/-- Python exceptions that can escape a handler: `IndexError` (raised by
`_next` when it indexes past the end of `_source`), `ValueError` (raised by
`_extract_string` and friends, and caught by the `except ValueError`
clauses), and `decimal.InvalidOperation` (raised by the `Decimal`
constructor on a malformed literal; it derives from `ArithmeticError`, not
from `ValueError`, so the `except ValueError` clause in `_handle_digit`
does not catch it). -/
inductive PyExc where
  | indexError
  | valueError (msg : List Char)
  | invalidOperation
deriving DecidableEq, Repr

/-- The mutable scan state of a `SQLTokenizerBase` instance during one
`parse` call.  `markedindex` is initialised to `-1` in the source and is
always set by `_mark` before it is read; it is modelled as a `Nat`
starting at 0. -/
structure TState where
  src : List Char
  index : Nat
  markedindex : Nat
  line : Nat
  linestart : Nat
  tokenstart : Nat
  tokenline : Nat
  tokencolumn : Nat
  tokens : List Token
deriving DecidableEq, Repr

/-- Decidable equality for `Except` results (used to evaluate the model
on concrete inputs). -/
instance {ε α : Type} [DecidableEq ε] [DecidableEq α] : DecidableEq (Except ε α) := fun x y =>
  match x, y with
  | .ok a, .ok b =>
    if h : a = b then .isTrue (congrArg Except.ok h)
    else .isFalse (fun hc => h (Except.ok.inj hc))
  | .error a, .error b =>
    if h : a = b then .isTrue (congrArg Except.error h)
    else .isFalse (fun hc => h (Except.error.inj hc))
  | .ok _, .error _ => .isFalse (fun hc => Except.noConfusion hc)
  | .error _, .ok _ => .isFalse (fun hc => Except.noConfusion hc)

/-- The NUL character returned by the `char` property past end of input. -/
def NUL : Char := Char.ofNat 0

/-- A single-quote character (written via its code point to keep string
literals free of quote characters). -/
def squote : Char := Char.ofNat 39

/-- `self.spacechars`, set in `__init__` and never changed. -/
def spacechars : List Char := [' ', '\t', '\r', '\n']

/-- Line-break normalisation used by the `char` property: a CR reads as LF. -/
def nrm (c : Char) : Char := if c = '\r' then '\n' else c

/-- `_get_char` on an arbitrary position: the character at `i`, with CR
reported as plain LF, and NUL when the index is out of range. -/
def pyCharAt (src : List Char) (i : Nat) : Char := nrm (src.getD i NUL)

/-- `self.char` — the current character, line breaks normalised to LF. -/
def getChar (s : TState) : Char := pyCharAt s.src s.index

/-- `_get_next_char`: the character after the current one, with the same
normalisation, and NUL past the end.  The `try/except IndexError` of the
source is reproduced by `getD`: every out-of-range access yields NUL and
the branch conditions then agree with the Python control flow. -/
def pyNextChar (src : List Char) (i : Nat) : Char :=
  if src.getD i NUL = '\r' then
    if src.getD (i + 1) NUL = '\n' then
      if src.getD (i + 2) NUL = '\r' then '\n' else src.getD (i + 2) NUL
    else src.getD (i + 1) NUL
  else if src.getD (i + 1) NUL = '\r' then '\n'
  else src.getD (i + 1) NUL

/-- `self.nextchar`. -/
def getNextChar (s : TState) : Char := pyNextChar s.src s.index

/-- One iteration of the `while count > 0` loop in `_next`: consume a CRLF
pair or a single character, maintaining `_line` and `_linestart`.
`self._source[self._index]` raises `IndexError` when the index is out of
range (Python string indexing), and so does `self._source[self._index+1]`
when a CR is the final character. -/
def nextOne (s : TState) : Except (PyExc × TState) TState :=
  if h : s.index < s.src.length then
    if s.src.get ⟨s.index, h⟩ = '\r' then
      if h2 : s.index + 1 < s.src.length then
        if s.src.get ⟨s.index + 1, h2⟩ = '\n' then
          .ok { s with index := s.index + 2, line := s.line + 1, linestart := s.index + 2 }
        else
          .ok { s with index := s.index + 1, line := s.line + 1, linestart := s.index + 1 }
      else .error (.indexError, s)
    else if s.src.get ⟨s.index, h⟩ = '\n' then
      .ok { s with index := s.index + 1, line := s.line + 1, linestart := s.index + 1 }
    else .ok { s with index := s.index + 1 }
  else .error (.indexError, s)

/-- `_next(count)`. -/
def nextN : Nat → TState → Except (PyExc × TState) TState
  | 0, s => .ok s
  | c + 1, s =>
    match nextOne s with
    | .error e => .error e
    | .ok s1 => nextN c s1

/-- `_mark`. -/
def mark (s : TState) : TState := { s with markedindex := s.index }

/-- The line-break normalisation applied by `_get_marked_chars`:
`.replace(CRLF, LF).replace(CR, LF)` (the two sequential replaces are
equivalent to this single left-to-right scan). -/
def normBreaks : List Char → List Char
  | [] => []
  | '\r' :: '\n' :: rest => '\n' :: normBreaks rest
  | '\r' :: rest => '\n' :: normBreaks rest
  | c :: rest => c :: normBreaks rest

/-- Python slice `src[a:b]` for `a ≤ b` (empty when `a ≥ b`). -/
def slice (src : List Char) (a b : Nat) : List Char := (src.drop a).take (b - a)

/-- `self.markedchars` = `_source[_markedindex:_index]` with breaks
normalised. -/
def markedChars (s : TState) : List Char := normBreaks (slice s.src s.markedindex s.index)

/-- `_add_token(tokentype, tokenvalue)`: append the 5-tuple covering
`_source[_tokenstart:_index]` at the remembered line/column, then move the
token mark up to the current position. -/
def addToken (tt : TType) (v : TValue) (s : TState) : TState :=
  { s with
    tokens := s.tokens ++ [⟨tt, v, slice s.src s.tokenstart s.index, s.tokenline, s.tokencolumn⟩],
    tokenstart := s.index,
    tokenline := s.line,
    tokencolumn := s.index - s.linestart + 1 }

/-- `str.startswith(pat, i)`. -/
def startsAt (src pat : List Char) (i : Nat) : Bool := pat.isPrefixOf (src.drop i)

/-- Sequential composition with exception propagation: run the
continuation on a normal result, propagate a raised exception. -/
def pyBind {α : Type} (r : Except (PyExc × TState) TState)
    (f : TState → Except (PyExc × TState) α) : Except (PyExc × TState) α :=
  match r with
  | .error e => .error e
  | .ok s1 => f s1

/-- Sequencing for the string-extraction result (content, state). -/
def pyBindPair {α : Type} (r : Except (PyExc × TState) (List Char × TState))
    (f : List Char → TState → Except (PyExc × TState) α) : Except (PyExc × TState) α :=
  match r with
  | .error e => .error e
  | .ok (c, s1) => f c s1

/-- `try: ... except ValueError, e: handler(str(e))` — the handler resumes
from the state at the raise point; other exceptions propagate. -/
def pyCatchVE (r : Except (PyExc × TState) TState)
    (handler : List Char → TState → Except (PyExc × TState) TState) :
    Except (PyExc × TState) TState :=
  match r with
  | .error (.valueError m, se) => handler m se
  | other => other

/-- `qchar * 2` replaced by `qchar`: Python `str.replace`, leftmost
non-overlapping occurrences. -/
def replQQ (q : Char) : List Char → List Char
  | [] => []
  | [c] => [c]
  | c1 :: c2 :: rest =>
    if c1 = q ∧ c2 = q then q :: replQQ q rest
    else c1 :: replQQ q (c2 :: rest)

/-! ### The `decimal.Decimal` constructor (Python standard library)

`_handle_digit` builds its token value with `Decimal(self.markedchars)`.
`Decimal` accepts `sign? (digits+ (dot digits*)? | dot digits+)
([eE] sign? digits+)?` plus the special values `Infinity`/`NaN`/`sNaN`
(optionally signed), and raises `decimal.InvalidOperation` — not
`ValueError` — on anything else.  Leading/trailing whitespace, which
`Decimal` also tolerates, cannot occur in `markedchars` here because
`_handle_digit` only accumulates characters from `0123456789Ee.+-`. -/

/-- All characters are ASCII decimal digits. -/
def allDigits (l : List Char) : Bool := l.all (·.isDigit)

/-- Mantissa part of a `Decimal` literal: `digits+ (dot digits*)?` or
`dot digits+`. -/
def validMantissa (l : List Char) : Bool :=
  match l.span (·.isDigit) with
  | (ds, []) => !ds.isEmpty
  | (ds, '.' :: rest) => (!ds.isEmpty || !rest.isEmpty) && allDigits rest
  | _ => false

/-- Strip one optional leading sign. -/
def stripSign (l : List Char) : List Char :=
  match l with
  | '+' :: r => r
  | '-' :: r => r
  | _ => l

/-- Case-insensitive comparison against an ASCII word. -/
def eqCI (l : List Char) (w : List Char) : Bool := l.map Char.toUpper = w.map Char.toUpper

/-- Syntax accepted by the `Decimal` string constructor. -/
def validDecimal (l : List Char) : Bool :=
  let l := stripSign l
  (match l.span (fun c => !(c = 'e' ∨ c = 'E')) with
   | (mant, []) => validMantissa mant
   | (mant, _ :: ex) => validMantissa mant && !(stripSign ex).isEmpty && allDigits (stripSign ex))
  || eqCI l "INF".toList || eqCI l "INFINITY".toList
  || (match l.map Char.toUpper with
      | 'N' :: 'A' :: 'N' :: ds => allDigits ds
      | 'S' :: 'N' :: 'A' :: 'N' :: ds => allDigits ds
      | _ => false)

/-- `Decimal(l)`: the accepted literal, or `InvalidOperation`. -/
def pyDecimal (l : List Char) : Except PyExc (List Char) :=
  if validDecimal l then .ok l else .error .invalidOperation

/-! ### Error-message strings -/

/-- `'Unterminated string starting on line %d' % self._tokenline`. -/
def msgUntermStr (ln : Nat) : List Char :=
  "Unterminated string starting on line ".toList ++ Nat.toDigits 10 ln

/-- `'Illegal line break found in token'`. -/
def msgIllegalBreak : List Char := "Illegal line break found in token".toList

/-- `'Invalid operator |'`. -/
def msgInvalidBar : List Char := "Invalid operator |".toList

/-- `'Unexpected character %s' % (self.char)` — note the source formats the
character read after `_next()` has already advanced. -/
def msgUnexpected (c : Char) : List Char := "Unexpected character ".toList ++ [c]

/-- `'Unterminated comment starting on line %d' % self._tokenline`. -/
def msgUntermComment (ln : Nat) : List Char :=
  "Unterminated comment starting on line ".toList ++ Nat.toDigits 10 ln

/-- `"Expected >, <, or =, but found %s" % (self.char)`. -/
def msgExpectedCmp (c : Char) : List Char := "Expected >, <, or =, but found ".toList ++ [c]

/-- `'Hex-string must have an even length'`. -/
def msgHexEven : List Char := "Hex-string must have an even length".toList

/-- `'Unicode hex-string must have a length which is a multiple of 4'`. -/
def msgUniHexLen : List Char :=
  "Unicode hex-string must have a length which is a multiple of 4".toList

/-- `"Statement terminator string must contain at least one character"`. -/
def msgTermEmpty : List Char :=
  "Statement terminator string must contain at least one character".toList

/-- Message of the `ValueError` raised by `int(txt, 16)` on a bad literal. -/
def msgBadIntLit (txt : List Char) : List Char :=
  "invalid literal for int() with base 16: ".toList ++ [squote] ++ txt ++ [squote]

/-- `"Expecting '"` (from `_handle_utf8string`). -/
def msgExpectingQuote : List Char := "Expecting ".toList ++ [squote]

/-! ### Bounded interior loops

Every `while` loop inside a handler advances `_index` by at least one
character per iteration (or raises), so `length - index + 1` iterations
always suffice; the loops below take that number as structural fuel.
When the fuel is adequate — as it is at every call site — the fuel-zero
base case is unreachable. -/

/-- Fuel that bounds any interior loop started at state `s`. -/
def fuelFor (s : TState) : Nat := s.src.length + 1 - s.index

/-- The `while True` loop of `_extract_string`: raise on NUL, raise on a
line break unless `multiline`, count quote characters, and stop on an
unescaped closing quote (even count, not doubled). -/
def extractLoop (multiline : Bool) (qchar : Char) (tokenline : Nat) :
    Nat → Nat → TState → Except (PyExc × TState) TState
  | _, 0, s => .ok s
  | qcount, fuel + 1, s =>
    if getChar s = NUL then .error (.valueError (msgUntermStr tokenline), s)
    else if getChar s = '\n' ∧ multiline = false then .error (.valueError msgIllegalBreak, s)
    else
      if getChar s = qchar ∧ getNextChar s ≠ qchar ∧
          (if getChar s = qchar then qcount + 1 else qcount) % 2 = 0 then .ok s
      else
        match nextOne s with
        | .error e => .error e
        | .ok s1 =>
          extractLoop multiline qchar tokenline
            (if getChar s = qchar then qcount + 1 else qcount) fuel s1

/-- `_extract_string(multiline)`: consume a quoted string starting at the
opening quote, returning the unescaped content together with the state
positioned after the closing quote.  `ValueError`s carry the state at the
raise point so that the calling handler's `except ValueError` clause can
emit an ERROR token from there. -/
def extractString (multiline : Bool) (s : TState) :
    Except (PyExc × TState) (List Char × TState) :=
  pyBind (nextOne s) fun s1 =>
    pyBind (extractLoop multiline (getChar s) (mark s1).tokenline 1 (fuelFor (mark s1))
        (mark s1)) fun s3 =>
      pyBind (nextOne s3) fun s4 =>
        .ok (replQQ (getChar s) (markedChars s3), s4)

/-- `while self.char in self.identchars: self._next()`. -/
def identLoop (identchars : List Char) : Nat → TState → Except (PyExc × TState) TState
  | 0, s => .ok s
  | fuel + 1, s =>
    if getChar s ∈ identchars then
      match nextOne s with
      | .error e => .error e
      | .ok s1 => identLoop identchars fuel s1
    else .ok s

/-- The number-scanning loop of `_handle_digit`.  The mutable
`validchars` set (digits always; `E`/`e` until an exponent is seen; `.`
until either a point or an exponent is seen) is carried as two flags. -/
def digitLoop : Bool → Bool → Nat → TState → Except (PyExc × TState) TState
  | _, _, 0, s => .ok s
  | allowE, allowDot, fuel + 1, s =>
    if (getChar s).isDigit ∨ (allowE ∧ (getChar s = 'E' ∨ getChar s = 'e')) ∨
        (allowDot ∧ getChar s = '.') then
      if getChar s = '.' then
        match nextOne s with
        | .error e => .error e
        | .ok s1 => digitLoop allowE false fuel s1
      else if getChar s = 'E' ∨ getChar s = 'e' then
        match (if getNextChar s = '-' ∨ getNextChar s = '+' then nextOne s else .ok s) with
        | .error e => .error e
        | .ok s1 =>
          match nextOne s1 with
          | .error e => .error e
          | .ok s2 => digitLoop false false fuel s2
      else
        match nextOne s with
        | .error e => .error e
        | .ok s1 => digitLoop allowE allowDot fuel s1
    else .ok s

/-- The loop of `_handle_space`: consume space characters, stopping just
after the first (normalised) line break. -/
def spaceLoop : Nat → TState → Except (PyExc × TState) TState
  | 0, s => .ok s
  | fuel + 1, s =>
    if getChar s ∈ spacechars then
      if getChar s = '\n' then nextOne s
      else
        match nextOne s with
        | .error e => .error e
        | .ok s1 => spaceLoop fuel s1
    else .ok s

/-- `while not self.char in NUL-or-LF: self._next()` (used by the `--` and
`//` comment scanners). -/
def lineCommentLoop : Nat → TState → Except (PyExc × TState) TState
  | 0, s => .ok s
  | fuel + 1, s =>
    if getChar s = NUL ∨ getChar s = '\n' then .ok s
    else
      match nextOne s with
      | .error e => .error e
      | .ok s1 => lineCommentLoop fuel s1

/-- The `while True` loop of the C-comment branch of `_handle_slash`:
raise `ValueError` at end of input, and on the closing `*/` capture the
content, step over both characters and emit the COMMENT token. -/
def cCommentLoop : Nat → TState → Except (PyExc × TState) TState
  | 0, s => .ok s
  | fuel + 1, s =>
    if getChar s = NUL then .error (.valueError (msgUntermComment s.tokenline), s)
    else if getChar s = '*' ∧ getNextChar s = '/' then
      pyBind (nextN 2 s) fun s1 => .ok (addToken .comment (.vstr (markedChars s)) s1)
    else
      pyBind (nextOne s) fun s1 => cCommentLoop fuel s1

/-! ### Configuration and the base character handlers -/

/-- The per-instance options set in `SQLTokenizerBase.__init__` (and
overridden by the dialect subclasses): keyword set, identifier character
set, and the comment/string toggles. -/
structure Cfg where
  keywords : List (List Char)
  identchars : List Char
  sql_comments : Bool
  c_comments : Bool
  cpp_comments : Bool
  multiline_str : Bool

/-- `_handle_apos`: a string literal; a `ValueError` from the extraction
becomes an ERROR token at the state where it was raised. -/
def handleApos (cfg : Cfg) (s : TState) : Except (PyExc × TState) TState :=
  pyCatchVE
    (pyBindPair (extractString cfg.multiline_str s) fun content s1 =>
      .ok (addToken .string (.vstr content) s1))
    (fun m se => .ok (addToken .error (.vstr m) se))

/-- `_handle_asterisk`. -/
def handleAsterisk (s : TState) : Except (PyExc × TState) TState :=
  pyBind (nextOne s) fun s1 => .ok (addToken .operator (.vstr "*".toList) s1)

/-- `_handle_bar`: `||` is the concatenation operator; a lone `|` is an
ERROR token. -/
def handleBar (s : TState) : Except (PyExc × TState) TState :=
  pyBind (nextOne s) fun s1 =>
    if getChar s1 = '|' then
      pyBind (nextOne s1) fun s2 => .ok (addToken .operator (.vstr "||".toList) s2)
    else .ok (addToken .error (.vstr msgInvalidBar) s1)

/-- `_handle_close_parens`. -/
def handleCloseParens (s : TState) : Except (PyExc × TState) TState :=
  pyBind (nextOne s) fun s1 => .ok (addToken .operator (.vstr ")".toList) s1)

/-- `_handle_colon`: a quoted or unquoted parameter name (the unquoted
name is *not* upper-cased, unlike identifiers). -/
def handleColon (cfg : Cfg) (s : TState) : Except (PyExc × TState) TState :=
  pyBind (nextOne s) fun s1 =>
    if getChar s1 = '"' ∨ getChar s1 = squote then
      pyCatchVE
        (pyBindPair (extractString false s1) fun content s2 =>
          .ok (addToken .parameter (.vstr content) s2))
        (fun m se => .ok (addToken .error (.vstr m) se))
    else
      pyBind (identLoop cfg.identchars (fuelFor (mark s1)) (mark s1)) fun s3 =>
        .ok (addToken .parameter (.vstr (markedChars s3)) s3)

/-- `_handle_comma`. -/
def handleComma (s : TState) : Except (PyExc × TState) TState :=
  pyBind (nextOne s) fun s1 => .ok (addToken .operator (.vstr ",".toList) s1)

/-- `_handle_default`: an unrecognised character becomes a one-character
ERROR token (whose message formats the character *after* the advance). -/
def handleDefault (s : TState) : Except (PyExc × TState) TState :=
  pyBind (nextOne s) fun s1 => .ok (addToken .error (.vstr (msgUnexpected (getChar s1))) s1)

/-- `_handle_digit`: scan a numeric literal and construct its `Decimal`
value.  The `except ValueError` clause is modelled, but `Decimal` raises
`InvalidOperation`, which therefore escapes. -/
def handleDigit (s : TState) : Except (PyExc × TState) TState :=
  pyBind (nextOne (mark s)) fun s1 =>
    pyBind (digitLoop true true (fuelFor s1) s1) fun s2 =>
      match pyDecimal (markedChars s2) with
      | .ok d => .ok (addToken .number (.vnum d) s2)
      | .error (.valueError m) => .ok (addToken .error (.vstr m) s2)
      | .error e => .error (e, s2)

/-- `_handle_equal`. -/
def handleEqual (s : TState) : Except (PyExc × TState) TState :=
  pyBind (nextOne s) fun s1 => .ok (addToken .operator (.vstr "=".toList) s1)

/-- `_handle_greater`. -/
def handleGreater (s : TState) : Except (PyExc × TState) TState :=
  pyBind (nextOne s) fun s1 =>
    if getChar s1 = '=' then
      pyBind (nextOne s1) fun s2 => .ok (addToken .operator (.vstr ">=".toList) s2)
    else .ok (addToken .operator (.vstr ">".toList) s1)

/-- `_handle_ident` (base class): consume identifier characters, fold to
upper case, and classify as LABEL (when a colon follows), KEYWORD or
IDENTIFIER. -/
def handleIdent (cfg : Cfg) (s : TState) : Except (PyExc × TState) TState :=
  pyBind (nextOne (mark s)) fun s1 =>
    pyBind (identLoop cfg.identchars (fuelFor s1) s1) fun s2 =>
      if getChar s2 = ':' then
        pyBind (nextOne s2) fun s3 =>
          .ok (addToken .label (.vstr ((markedChars s2).map Char.toUpper)) s3)
      else if (markedChars s2).map Char.toUpper ∈ cfg.keywords then
        .ok (addToken .keyword (.vstr ((markedChars s2).map Char.toUpper)) s2)
      else .ok (addToken .identifier (.vstr ((markedChars s2).map Char.toUpper)) s2)

/-- `_handle_less`. -/
def handleLess (s : TState) : Except (PyExc × TState) TState :=
  pyBind (nextOne s) fun s1 =>
    if getChar s1 = '=' then
      pyBind (nextOne s1) fun s2 => .ok (addToken .operator (.vstr "<=".toList) s2)
    else if getChar s1 = '>' then
      pyBind (nextOne s1) fun s2 => .ok (addToken .operator (.vstr "<>".toList) s2)
    else .ok (addToken .operator (.vstr "<".toList) s1)

/-- `_handle_minus`: a `--` comment (when `sql_comments`) runs to end of
line; the final `self._next()` consumes the line break into the COMMENT
token's source — and raises `IndexError` when the comment instead stopped
at end of input. -/
def handleMinus (cfg : Cfg) (s : TState) : Except (PyExc × TState) TState :=
  pyBind (nextOne s) fun s1 =>
    if cfg.sql_comments ∧ getChar s1 = '-' then
      pyBind (nextOne s1) fun s2 =>
        pyBind (lineCommentLoop (fuelFor (mark s2)) (mark s2)) fun s4 =>
          pyBind (nextOne s4) fun s5 =>
            .ok (addToken .comment (.vstr (markedChars s4)) s5)
    else .ok (addToken .operator (.vstr "-".toList) s1)

/-- `_handle_open_parens`. -/
def handleOpenParens (s : TState) : Except (PyExc × TState) TState :=
  pyBind (nextOne s) fun s1 => .ok (addToken .operator (.vstr "(".toList) s1)

/-- `_handle_period` (base class): a leading-point number, or the `.`
operator. -/
def handlePeriod (s : TState) : Except (PyExc × TState) TState :=
  if (getNextChar s).isDigit then handleDigit s
  else pyBind (nextOne s) fun s1 => .ok (addToken .operator (.vstr ".".toList) s1)

/-- `_handle_plus`. -/
def handlePlus (s : TState) : Except (PyExc × TState) TState :=
  pyBind (nextOne s) fun s1 => .ok (addToken .operator (.vstr "+".toList) s1)

/-- `_handle_question`: an anonymous parameter, value `None`. -/
def handleQuestion (s : TState) : Except (PyExc × TState) TState :=
  pyBind (nextOne s) fun s1 => .ok (addToken .parameter .vnone s1)

/-- `_handle_quote`: a quoted identifier (case preserved), promoted to
LABEL when a colon follows. -/
def handleQuote (s : TState) : Except (PyExc × TState) TState :=
  pyCatchVE
    (pyBindPair (extractString false s) fun ident s1 =>
      if getChar s1 = ':' then
        pyBind (nextOne s1) fun s2 => .ok (addToken .label (.vstr ident) s2)
      else .ok (addToken .identifier (.vstr ident) s1))
    (fun m se => .ok (addToken .error (.vstr m) se))

/-- `_handle_semicolon`. -/
def handleSemicolon (s : TState) : Except (PyExc × TState) TState :=
  pyBind (nextOne s) fun s1 => .ok (addToken .terminator (.vstr ";".toList) s1)

/-- `_handle_slash`: `//` comment (when `cpp_comments`), `/*..*/` comment
(when `c_comments`, with `ValueError` on an unterminated comment turned
into an ERROR token), or the `/` operator. -/
def handleSlash (cfg : Cfg) (s : TState) : Except (PyExc × TState) TState :=
  pyBind (nextOne s) fun s1 =>
    if cfg.cpp_comments ∧ getChar s1 = '/' then
      pyBind (nextOne s1) fun s2 =>
        pyBind (lineCommentLoop (fuelFor (mark s2)) (mark s2)) fun s4 =>
          .ok (addToken .comment (.vstr (markedChars s4)) s4)
    else if cfg.c_comments ∧ getChar s1 = '*' then
      pyBind (nextOne s1) fun s2 =>
        pyCatchVE (cCommentLoop (fuelFor (mark s2)) (mark s2))
          (fun m se => .ok (addToken .error (.vstr m) se))
    else .ok (addToken .operator (.vstr "/".toList) s1)

/-- `_handle_space`: whitespace up to and including one line break. -/
def handleSpace (s : TState) : Except (PyExc × TState) TState :=
  pyBind (spaceLoop (fuelFor s) s) fun s1 => .ok (addToken .whitespace .vnone s1)

/-! ### Helpers for the dialect handlers (`int(x, 16)`, `chr`, `unichr`,
ASCII/UTF-8 decoding).  These model Python 2 standard-library behaviour;
Unicode code points are represented as Lean `Char` (UTF-16 surrogate
values, which Python 2 tolerates, fall back to `Char.ofNat`'s default). -/

/-- Hexadecimal digit value. -/
def hexVal (c : Char) : Option Nat :=
  if '0' ≤ c ∧ c ≤ '9' then some (c.toNat - '0'.toNat)
  else if 'a' ≤ c ∧ c ≤ 'f' then some (c.toNat - 'a'.toNat + 10)
  else if 'A' ≤ c ∧ c ≤ 'F' then some (c.toNat - 'A'.toNat + 10)
  else none

/-- Accumulate hex digits (the digits must be non-empty). -/
def hexNat : List Char → Option Nat
  | [] => none
  | l => l.foldlM (fun acc c => (hexVal c).map (acc * 16 + ·)) 0

/-- Python whitespace stripped by `int`. -/
def isPySpace (c : Char) : Bool :=
  c = ' ' ∨ c = '\t' ∨ c = '\n' ∨ c = '\r' ∨ c = Char.ofNat 11 ∨ c = Char.ofNat 12

/-- `int(txt, 16)`: optional surrounding whitespace, optional sign,
optional `0x`/`0X` prefix, then hex digits; `none` models the
`ValueError` it raises otherwise. -/
def pyIntHex (txt : List Char) : Option Int :=
  let t := (txt.dropWhile isPySpace).reverse.dropWhile isPySpace |>.reverse
  let (sign, t) : Int × List Char :=
    match t with
    | '-' :: r => (-1, r)
    | '+' :: r => (1, r)
    | _ => (1, t)
  let t := match t with
    | '0' :: 'x' :: r => r
    | '0' :: 'X' :: r => r
    | _ => t
  (hexNat t).map (fun v => sign * v)

/-- `chr(n)`-not-in-range message. -/
def msgChrRange : List Char := "chr() arg not in range(256)".toList

/-- `''.join(chr(int(s[i:i+2], 16)) ...)` over consecutive pairs: the
hex-string payload decoder of `_handle_hexstring`.  The first failing
`int` or `chr` raises its `ValueError`. -/
def hexStrDecode : List Char → Except PyExc (List Char)
  | [] => .ok []
  | [c] =>
    match pyIntHex [c] with
    | none => .error (.valueError (msgBadIntLit [c]))
    | some v =>
      if 0 ≤ v ∧ v < 256 then .ok [Char.ofNat v.toNat] else .error (.valueError msgChrRange)
  | c1 :: c2 :: rest =>
    match pyIntHex [c1, c2] with
    | none => .error (.valueError (msgBadIntLit [c1, c2]))
    | some v =>
      if 0 ≤ v ∧ v < 256 then (hexStrDecode rest).map (Char.ofNat v.toNat :: ·)
      else .error (.valueError msgChrRange)

/-- Bad-literal message for `int(txt, 16)` on a 4-character group. -/
def msgBadIntLit4 (txt : List Char) : List Char := msgBadIntLit txt

/-- `''.join(unichr(int(s[i:i+4], 16)) ...)` over consecutive 4-character
groups: the payload decoder of `_handle_unihexstring` (`unichr` of a
16-bit value never fails). -/
def uniHexDecode : List Char → Except PyExc (List Char)
  | c1 :: c2 :: c3 :: c4 :: rest =>
    match pyIntHex [c1, c2, c3, c4] with
    | none => .error (.valueError (msgBadIntLit [c1, c2, c3, c4]))
    | some v => (uniHexDecode rest).map (Char.ofNat v.toNat :: ·)
  | [] => .ok []
  | l =>
    match pyIntHex l with
    | none => .error (.valueError (msgBadIntLit l))
    | some v => .ok [Char.ofNat v.toNat]

/-- `unicode(s)` with the default ASCII codec: identity on 7-bit strings,
`UnicodeDecodeError` (a `ValueError` subclass, hence caught by the
handler) on anything else. -/
def asciiDecode (l : List Char) : Except PyExc (List Char) :=
  if l.all (fun c => c.toNat < 128) then .ok l
  else .error (.valueError ("ascii codec cannot decode".toList))

/-- `utf8decode`: UTF-8 decoding of a byte string (each list element is a
byte).  Failure models `UnicodeDecodeError`; it is raised outside any
`try` in `_handle_utf8string` and so escapes `parse`. -/
def utf8Decode : List Char → Except PyExc (List Char)
  | [] => .ok []
  | b :: rest =>
    let n := b.toNat
    if n < 0x80 then (utf8Decode rest).map (b :: ·)
    else if 0xC2 ≤ n ∧ n ≤ 0xDF then
      match rest with
      | b2 :: rest2 =>
        let n2 := b2.toNat
        if 0x80 ≤ n2 ∧ n2 ≤ 0xBF then
          (utf8Decode rest2).map (Char.ofNat ((n - 0xC0) * 64 + (n2 - 0x80)) :: ·)
        else .error (.valueError "utf8 codec cannot decode".toList)
      | _ => .error (.valueError "utf8 codec cannot decode".toList)
    else if 0xE0 ≤ n ∧ n ≤ 0xEF then
      match rest with
      | b2 :: b3 :: rest2 =>
        let n2 := b2.toNat
        let n3 := b3.toNat
        if 0x80 ≤ n2 ∧ n2 ≤ 0xBF ∧ 0x80 ≤ n3 ∧ n3 ≤ 0xBF ∧
            0x800 ≤ (n - 0xE0) * 4096 + (n2 - 0x80) * 64 + (n3 - 0x80) then
          (utf8Decode rest2).map
            (Char.ofNat ((n - 0xE0) * 4096 + (n2 - 0x80) * 64 + (n3 - 0x80)) :: ·)
        else .error (.valueError "utf8 codec cannot decode".toList)
      | _ => .error (.valueError "utf8 codec cannot decode".toList)
    else if 0xF0 ≤ n ∧ n ≤ 0xF4 then
      match rest with
      | b2 :: b3 :: b4 :: rest2 =>
        let n2 := b2.toNat
        let n3 := b3.toNat
        let n4 := b4.toNat
        let v := (n - 0xF0) * 262144 + (n2 - 0x80) * 4096 + (n3 - 0x80) * 64 + (n4 - 0x80)
        if 0x80 ≤ n2 ∧ n2 ≤ 0xBF ∧ 0x80 ≤ n3 ∧ n3 ≤ 0xBF ∧ 0x80 ≤ n4 ∧ n4 ≤ 0xBF ∧
            0x10000 ≤ v ∧ v ≤ 0x10FFFF then
          (utf8Decode rest2).map (Char.ofNat v :: ·)
        else .error (.valueError "utf8 codec cannot decode".toList)
      | _ => .error (.valueError "utf8 codec cannot decode".toList)
    else .error (.valueError "utf8 codec cannot decode".toList)

/-- `unichr()` out-of-range message. -/
def msgUnichrRange : List Char := "unichr() arg not in range(0x110000)".toList

/-- `utf8re.sub(utf8sub, text)`: rewrite each occurrence of
`\\`, `\xxxx` or `\+xxxxxx` (the regex alternatives, in that order); a
backslash that starts no match is kept and scanning resumes after it.
`unichr` of a value above `0x10FFFF` raises `ValueError`. -/
def utf8Sub : List Char → Except PyExc (List Char)
  | [] => .ok []
  | '\\' :: '\\' :: r => (utf8Sub r).map ('\\' :: ·)
  | '\\' :: '+' :: h1 :: h2 :: h3 :: h4 :: h5 :: h6 :: r =>
    match hexNat [h1, h2, h3, h4, h5, h6] with
    | some v =>
      if v ≤ 0x10FFFF then (utf8Sub r).map (Char.ofNat v :: ·)
      else .error (.valueError msgUnichrRange)
    | none => (utf8Sub ('+' :: h1 :: h2 :: h3 :: h4 :: h5 :: h6 :: r)).map ('\\' :: ·)
  | '\\' :: h1 :: h2 :: h3 :: h4 :: r =>
    match hexNat [h1, h2, h3, h4] with
    | some v => (utf8Sub r).map (Char.ofNat v :: ·)
    | none => (utf8Sub (h1 :: h2 :: h3 :: h4 :: r)).map ('\\' :: ·)
  | '\\' :: rest => (utf8Sub rest).map ('\\' :: ·)
  | c :: rest => (utf8Sub rest).map (c :: ·)
termination_by l => l.length
decreasing_by all_goals (simp only [List.length_cons]; omega)

/-! ### Dialects, dialect handlers and dispatch -/

/-- The tokenizer class hierarchy, collapsed to what changes behaviour:
`base` covers `SQLTokenizerBase`/`SQL92Tokenizer`/`SQL99Tokenizer`/
`SQL2003Tokenizer` (which differ only in `Cfg`), `zos` is
`DB2ZOSTokenizer`, `luw` is `DB2LUWTokenizer`. -/
inductive Dialect where
  | base
  | zos
  | luw
deriving DecidableEq, Repr

/-- The rewriting step appended by `DB2LUWTokenizer._handle_ident`: an
IDENTIFIER token for `INFINITY`/`NAN`/`SNAN` is replaced in place by a
NUMBER token with the corresponding special `Decimal`. -/
def luwNumRewrite (s : TState) : TState :=
  match s.tokens.getLast? with
  | none => s
  | some t =>
    if t.ttype = .identifier ∧ t.value = .vstr "INFINITY".toList then
      { s with tokens :=
        s.tokens.dropLast ++ [{ t with ttype := .number, value := .vnum "Infinity".toList }] }
    else if t.ttype = .identifier ∧ t.value = .vstr "NAN".toList then
      { s with tokens :=
        s.tokens.dropLast ++ [{ t with ttype := .number, value := .vnum "NaN".toList }] }
    else if t.ttype = .identifier ∧ t.value = .vstr "SNAN".toList then
      { s with tokens :=
        s.tokens.dropLast ++ [{ t with ttype := .number, value := .vnum "sNaN".toList }] }
    else s

/-- The identifier handler as dispatched for each dialect (the jump table
stores the bound method, so the LUW override applies wherever
`_handle_ident` is reached, including fallbacks in other handlers). -/
def handleIdentD (d : Dialect) (cfg : Cfg) (s : TState) : Except (PyExc × TState) TState :=
  match d with
  | .luw => (handleIdent cfg s).map luwNumRewrite
  | _ => handleIdent cfg s

/-- `DB2ZOSTokenizer._handle_not`: `!`/`^`/`¬` followed by a comparison. -/
def handleBangNot (s : TState) : Except (PyExc × TState) TState :=
  match nextOne s with
  | .error e => .error e
  | .ok s1 =>
    if getChar s1 = '=' then
      match nextOne s1 with
      | .error e => .error e
      | .ok s2 => .ok (addToken .operator (.vstr "<>".toList) s2)
    else if getChar s1 = '>' then
      match nextOne s1 with
      | .error e => .error e
      | .ok s2 => .ok (addToken .operator (.vstr "<=".toList) s2)
    else if getChar s1 = '<' then
      match nextOne s1 with
      | .error e => .error e
      | .ok s2 => .ok (addToken .operator (.vstr ">=".toList) s2)
    else .ok (addToken .error (.vstr (msgExpectedCmp (getChar s1))) s1)

/-- `DB2ZOSTokenizer._handle_hexstring`: `x'..'` decoded pairwise to
characters; without the quote, fall back to identifier lexing. -/
def handleHexstring (d : Dialect) (cfg : Cfg) (s : TState) : Except (PyExc × TState) TState :=
  if getNextChar s = squote then
    match nextOne s with
    | .error e => .error e
    | .ok s1 =>
      match extractString false s1 with
      | .error (.valueError m, se) => .ok (addToken .error (.vstr m) se)
      | .error e => .error e
      | .ok (content, s2) =>
        if content.length % 2 ≠ 0 then .ok (addToken .error (.vstr msgHexEven) s2)
        else
          match hexStrDecode content with
          | .ok decoded => .ok (addToken .string (.vstr decoded) s2)
          | .error (.valueError m) => .ok (addToken .error (.vstr m) s2)
          | .error e => .error (e, s2)
  else handleIdentD d cfg s

/-- `DB2ZOSTokenizer._handle_unihexstring`: `_X'..'` decoded in 4-digit
groups (reached one character into a `gx`/`ux` prefix). -/
def handleUnihexstring (d : Dialect) (cfg : Cfg) (s : TState) : Except (PyExc × TState) TState :=
  if (getNextChar s).toUpper = 'X' then
    match nextOne s with
    | .error e => .error e
    | .ok s1 =>
      if getNextChar s1 = squote then
        match nextOne s1 with
        | .error e => .error e
        | .ok s2 =>
          match extractString false s2 with
          | .error (.valueError m, se) => .ok (addToken .error (.vstr m) se)
          | .error e => .error e
          | .ok (content, s3) =>
            if content.length % 4 ≠ 0 then .ok (addToken .error (.vstr msgUniHexLen) s3)
            else
              match uniHexDecode content with
              | .ok decoded => .ok (addToken .string (.vstr decoded) s3)
              | .error (.valueError m) => .ok (addToken .error (.vstr m) s3)
              | .error e => .error (e, s3)
      else handleIdentD d cfg s1
  else handleIdentD d cfg s

/-- `DB2ZOSTokenizer._handle_unistring`: a graphic literal `n'..'`/`g'..'`
(whose `unicode()` call can raise the caught `UnicodeDecodeError`, a
`ValueError` subclass), a `gx'..'` unicode hex-string, or identifier
fallback. -/
def handleUnistring (d : Dialect) (cfg : Cfg) (s : TState) : Except (PyExc × TState) TState :=
  if getNextChar s = squote then
    match nextOne s with
    | .error e => .error e
    | .ok s1 =>
      match extractString cfg.multiline_str s1 with
      | .error (.valueError m, se) => .ok (addToken .error (.vstr m) se)
      | .error e => .error e
      | .ok (content, s2) =>
        match asciiDecode content with
        | .ok decoded => .ok (addToken .string (.vstr decoded) s2)
        | .error (.valueError m) => .ok (addToken .error (.vstr m) s2)
        | .error e => .error (e, s2)
  else if (getChar s).toUpper = 'G' ∧ (getNextChar s).toUpper = 'X' then
    handleUnihexstring d cfg s
  else handleIdentD d cfg s

/-- `DB2LUWTokenizer._handle_utf8string`: `u&'..'` with `\xxxx`/`\+xxxxxx`
escapes.  The UTF-8 decode and the substitution run outside the `try`
block, so their exceptions escape `parse`. -/
def handleUtf8string (d : Dialect) (cfg : Cfg) (s : TState) : Except (PyExc × TState) TState :=
  if getNextChar s = '&' then
    match nextN 2 s with
    | .error e => .error e
    | .ok s1 =>
      if ¬(getChar s1 = squote) then .ok (addToken .error (.vstr msgExpectingQuote) s1)
      else
        match extractString cfg.multiline_str s1 with
        | .error (.valueError m, se) => .ok (addToken .error (.vstr m) se)
        | .error e => .error e
        | .ok (content, s2) =>
          match utf8Decode content with
          | .error e => .error (e, s2)
          | .ok text =>
            match utf8Sub text with
            | .error e => .error (e, s2)
            | .ok finaltext => .ok (addToken .string (.vstr finaltext) s2)
  else if (getNextChar s).toUpper = 'X' then handleUnihexstring d cfg s
  else handleIdentD d cfg s

/-- `DB2LUWTokenizer._handle_period`: `..` is emitted as one OPERATOR
token *before* the cursor advances (so its `source` is empty and the two
dots land in the next token's source); otherwise the base handler runs. -/
def handlePeriodD (d : Dialect) (s : TState) : Except (PyExc × TState) TState :=
  match d with
  | .luw =>
    if getNextChar s = '.' then nextN 2 (addToken .operator (.vstr "..".toList) s)
    else handlePeriod s
  | _ => handlePeriod s

/-- `DB2LUWTokenizer._handle_open_bracket` and its three siblings. -/
def handleBracketOp (v : List Char) (s : TState) : Except (PyExc × TState) TState :=
  match nextOne s with
  | .error e => .error e
  | .ok s1 => .ok (addToken .operator (.vstr v) s1)

/-- Handler tags: the bound methods stored in the `_jump` dictionary. -/
inductive BH where
  | space
  | ident
  | digit
  | openParens
  | closeParens
  | plus
  | minus
  | asterisk
  | slash
  | period
  | comma
  | colon
  | question
  | less
  | equal
  | greater
  | apos
  | quote
  | bar
  | semicolon
  | bangNot
  | hexstring
  | unistring
  | utf8string
  | openBracket
  | closeBracket
  | openBrace
  | closeBrace
deriving DecidableEq, Repr

/-- Execute a (non-terminator) handler tag. -/
def execHandler (d : Dialect) (cfg : Cfg) : BH → TState → Except (PyExc × TState) TState
  | .space => handleSpace
  | .ident => handleIdentD d cfg
  | .digit => handleDigit
  | .openParens => handleOpenParens
  | .closeParens => handleCloseParens
  | .plus => handlePlus
  | .minus => handleMinus cfg
  | .asterisk => handleAsterisk
  | .slash => handleSlash cfg
  | .period => handlePeriodD d
  | .comma => handleComma
  | .colon => handleColon cfg
  | .question => handleQuestion
  | .less => handleLess
  | .equal => handleEqual
  | .greater => handleGreater
  | .apos => handleApos cfg
  | .quote => handleQuote
  | .bar => handleBar
  | .semicolon => handleSemicolon
  | .bangNot => handleBangNot
  | .hexstring => handleHexstring d cfg
  | .unistring => handleUnistring d cfg
  | .utf8string => handleUtf8string d cfg
  | .openBracket => handleBracketOp "[".toList
  | .closeBracket => handleBracketOp "]".toList
  | .openBrace => handleBracketOp [Char.ofNat 0x7b]
  | .closeBrace => handleBracketOp [Char.ofNat 0x7d]

/-- The symbol entries written by `SQLTokenizerBase._init_jump` (they
overwrite any space/identifier/digit entry for the same character). -/
def symJump (c : Char) : Option BH :=
  if c = '(' then some .openParens
  else if c = ')' then some .closeParens
  else if c = '+' then some .plus
  else if c = '-' then some .minus
  else if c = '*' then some .asterisk
  else if c = '/' then some .slash
  else if c = '.' then some .period
  else if c = ',' then some .comma
  else if c = ':' then some .colon
  else if c = '?' then some .question
  else if c = '<' then some .less
  else if c = '=' then some .equal
  else if c = '>' then some .greater
  else if c = squote then some .apos
  else if c = '"' then some .quote
  else if c = '|' then some .bar
  else if c = ';' then some .semicolon
  else none

/-- The digits bucket of `_init_jump`. -/
def digitChars : List Char := "0123456789".toList

/-- `SQLTokenizerBase._init_jump` as a lookup function: symbols override
digits override identifier characters override space characters
(dictionary insertion order in the source). -/
def baseJump (cfg : Cfg) (c : Char) : Option BH :=
  match symJump c with
  | some h => some h
  | none =>
    if c ∈ digitChars then some .digit
    else if c ∈ cfg.identchars then some .ident
    else if c ∈ spacechars then some .space
    else none

/-- `DB2ZOSTokenizer._init_jump`: the base table plus `!`, `^`, `¬`,
`x`/`X`, and `n`/`N`/`g`/`G` entries. -/
def zosJump (cfg : Cfg) (c : Char) : Option BH :=
  if c = '!' ∨ c = '^' ∨ c = Char.ofNat 0xac then some .bangNot
  else if c = 'x' ∨ c = 'X' then some .hexstring
  else if c = 'n' ∨ c = 'N' ∨ c = 'g' ∨ c = 'G' then some .unistring
  else baseJump cfg c

/-- `DB2LUWTokenizer._init_jump`: the z/OS table plus brackets, braces and
`u`/`U`. -/
def luwJump (cfg : Cfg) (c : Char) : Option BH :=
  if c = '[' then some .openBracket
  else if c = ']' then some .closeBracket
  else if c = Char.ofNat 0x7b then some .openBrace
  else if c = Char.ofNat 0x7d then some .closeBrace
  else if c = 'u' ∨ c = 'U' then some .utf8string
  else zosJump cfg c

/-- The dispatch table of a freshly initialised tokenizer of a dialect. -/
def jumpOf : Dialect → Cfg → Char → Option BH
  | .base => baseJump
  | .zos => zosJump
  | .luw => luwJump

/-! ### The terminator, the main loop and `parse` -/

/-- The terminator state installed by the `terminator` property setter:
the (normalised) terminator string and the handler previously registered
for its first character (`_savedhandler`). -/
structure TermCfg where
  term : List Char
  savedh : Option BH
deriving DecidableEq, Repr

/-- `_set_terminator` for the first assignment of a `parse` call (the
prior terminator is `None`, so no restore step runs): reject the empty
string, fold `CR`/`CRLF` to `LF`, and patch the table entry for the first
character, saving the previous one. -/
def setTerminator (d : Dialect) (cfg : Cfg) (value : List Char) : Except PyExc TermCfg :=
  if value = [] then .error (.valueError msgTermEmpty)
  else
    let v := if value = ['\r', '\n'] ∨ value = ['\r'] then ['\n'] else value
    .ok ⟨v, jumpOf d cfg (v.headD NUL)⟩

/-- `_handle_terminator`: match the full terminator at the cursor, else
fall back to the saved handler; with no saved handler it does nothing —
including not advancing the cursor. -/
def handleTerm (d : Dialect) (cfg : Cfg) (tc : TermCfg) (s : TState) :
    Except (PyExc × TState) TState :=
  if startsAt s.src tc.term s.index then
    pyBind (nextN tc.term.length s) fun s1 => .ok (addToken .terminator (.vstr tc.term) s1)
  else
    match tc.savedh with
    | some h => execHandler d cfg h s
    | none => .ok s

/-- One iteration of the main loop:
`self._jump.get(self.char, self._handle_default)()` with the patched
table. -/
def stepState (d : Dialect) (cfg : Cfg) (tc : TermCfg) (s : TState) :
    Except (PyExc × TState) TState :=
  if getChar s = tc.term.headD NUL then handleTerm d cfg tc s
  else
    match jumpOf d cfg (getChar s) with
    | some h => execHandler d cfg h s
    | none => handleDefault s

/-- The `while self.char != NUL` loop, with fuel: `none` means the fuel
ran out, which models non-termination when no fuel suffices. -/
def runLoop (d : Dialect) (cfg : Cfg) (tc : TermCfg) :
    Nat → TState → Option (Except (PyExc × TState) TState)
  | 0, _ => none
  | fuel + 1, s =>
    if getChar s = NUL then some (.ok s)
    else
      match stepState d cfg tc s with
      | .error e => some (.error e)
      | .ok s1 => runLoop d cfg tc fuel s1

/-- The per-call state reset at the top of `parse`. -/
def initState (sql : List Char) : TState :=
  { src := sql, index := 0, markedindex := 0, line := 1, linestart := 0,
    tokenstart := 0, tokenline := 1, tokencolumn := 1, tokens := [] }

/-- The token-splitting pass of `parse` for `line_split=True`, for one
token: split the source after each LF, splitting a string value along with
it when it contains an LF (the value is left untouched — and hence
duplicated — otherwise), renumbering continuation pieces to the next line
at column 1.  Fuel bounds the iterations of the `while LF in source`
loop; `source.length + 1` always suffices. -/
def splitTok : Nat → Token → List Token
  | 0, t => [t]
  | fuel + 1, t =>
    if '\n' ∈ t.source then
      let i := t.source.findIdx (fun c => c = '\n') + 1
      let nv : TValue × TValue :=
        match t.value with
        | .vstr v =>
          if '\n' ∈ v then
            let j := v.findIdx (fun c => c = '\n') + 1
            (.vstr (v.take j), .vstr (v.drop j))
          else (.vstr v, .vstr v)
        | w => (w, w)
      ⟨t.ttype, nv.1, t.source.take i, t.line, t.column⟩ ::
        splitTok fuel ⟨t.ttype, nv.2, t.source.drop i, t.line + 1, 1⟩
    else [t]

/-- The value-splitting step of the `line_split` loop, as a standalone
function (the string value is cut at its own first LF; other values are
duplicated onto both pieces). -/
def splitVals : TValue → TValue × TValue
  | .vstr v =>
    if '\n' ∈ v then
      (.vstr (v.take (v.findIdx (fun c => c = '\n') + 1)),
       .vstr (v.drop (v.findIdx (fun c => c = '\n') + 1)))
    else (.vstr v, .vstr v)
  | w => (w, w)

/-- The whole `line_split` pass over the token list. -/
def lineSplit (ts : List Token) : List Token :=
  (ts.map (fun t => splitTok (t.source.length + 1) t)).flatten

/-- `SQLTokenizerBase.parse(sql, terminator, line_split)`.  The result is
`none` when `fuel` outer-loop iterations were not enough (the loop is the
only part of the source that can fail to make progress), `some (.error e)`
when a Python exception escapes `parse`, and `some (.ok tokens)` for a
normal return. -/
def parse (d : Dialect) (cfg : Cfg) (sql term : List Char) (line_split : Bool) (fuel : Nat) :
    Option (Except PyExc (List Token)) :=
  match setTerminator d cfg term with
  | .error e => some (.error e)
  | .ok tc =>
    match runLoop d cfg tc fuel (initState sql) with
    | none => none
    | some (.error (e, _)) => some (.error e)
    | some (.ok s) =>
      let s1 := addToken .eof .vnone s
      some (.ok (if line_split then lineSplit s1.tokens else s1.tokens))

/-! ### Concrete dialect data

`tokenizer.py` imports its keyword and identifier-character sets
(`sql92_keywords`, `sql92_identchars`, `db2luw_keywords`, ...) from
`db2makedoc.sql.dialects`, a module that is not among the provided
sources, so concrete values are modelled from the spec. -/

/-- Modelled from the spec: `sql92_keywords` from the missing module
`db2makedoc/sql/dialects.py` — "a set of reserved keywords"; the spec's
examples require at least `SELECT` to be reserved.  A representative set
of SQL-92 reserved words (upper case, as required by the case-insensitive
match in `_handle_ident`). -/
def sql92Keywords : List (List Char) :=
  ["SELECT", "INSERT", "UPDATE", "DELETE", "FROM", "WHERE", "GROUP", "BY", "ORDER",
   "CREATE", "TABLE", "VIEW", "INDEX", "DROP", "ALTER", "AND", "OR", "NOT", "NULL",
   "IS", "IN", "AS", "ON", "JOIN", "INNER", "OUTER", "LEFT", "RIGHT", "UNION",
   "VALUES", "INTO", "SET", "DISTINCT", "HAVING", "BETWEEN", "LIKE",
   "EXISTS"].map String.toList

/-- Modelled from the spec: `sql92_identchars` from the missing module
`db2makedoc/sql/dialects.py` — "the set of characters that can appear in
an unquoted identifier": letters, digits and underscore. -/
def sql92Identchars : List Char :=
  "ABCDEFGHIJKLMNOPQRSTUVWXYZabcdefghijklmnopqrstuvwxyz0123456789_".toList

/-- The option values set by `SQLTokenizerBase.__init__` together with the
modelled SQL-92 keyword/identifier sets. -/
def cfg92 : Cfg := ⟨sql92Keywords, sql92Identchars, true, false, false, true⟩

/-- The configuration of `DB2LUWTokenizer`: keyword and identifier sets
again modelled from the spec (the real `db2luw_*` values live in the
missing dialects module), with `c_comments = True` as set in its
`__init__`. -/
def luwCfg : Cfg := ⟨sql92Keywords, sql92Identchars, true, true, false, true⟩

/-! ### Vocabulary used by the claim statements -/

/-- Concatenation of the `source` fields of a token sequence. -/
def joinSources (ts : List Token) : List Char := (ts.map Token.source).flatten

/-- `parse` exhausts every amount of fuel: the main loop never finishes. -/
def parseHangs (d : Dialect) (cfg : Cfg) (sql term : List Char) (ls : Bool) : Prop :=
  ∀ fuel, parse d cfg sql term ls fuel = none

/-- A source fragment whose only line break (LF, CRLF or lone CR), if
any, consists of its final characters: tested by scanning for a break
character anywhere before the end. -/
def noInternalBreakB : List Char → Bool
  | [] => true
  | ['\n'] => true
  | ['\r', '\n'] => true
  | c :: rest => !(c = '\n' ∨ c = '\r') && noInternalBreakB rest

/-- Every CR in the text is the first half of a CRLF pair (the text has
no lone-CR line breaks, and in particular does not end in CR). -/
def noLoneCR (l : List Char) : Prop :=
  ∀ j < l.length, l.getD j NUL = '\r' → j + 1 < l.length ∧ l.getD (j + 1) NUL = '\n'

instance (l : List Char) : Decidable (noLoneCR l) := by
  unfold noLoneCR
  infer_instance

/-- Advance a (line, column) position over a piece of raw source text,
counting LF, CRLF and lone CR as one line break each. -/
def advPos : List Char → Nat × Nat → Nat × Nat
  | [], p => p
  | '\r' :: '\n' :: r, p => advPos r (p.1 + 1, 1)
  | '\r' :: r, p => advPos r (p.1 + 1, 1)
  | '\n' :: r, p => advPos r (p.1 + 1, 1)
  | _ :: r, p => advPos r (p.1, p.2 + 1)

/-- The recorded positions of a token sequence are the true positions:
each token's (line, column) is the advance of (1, 1) over the
concatenated sources of the tokens before it. -/
def PosSeq (ts : List Token) : Prop :=
  ∀ k (h : k < ts.length), ((ts.get ⟨k, h⟩).line, (ts.get ⟨k, h⟩).column) =
    advPos (joinSources (ts.take k)) (1, 1)

/-- Shape of a WHITESPACE token's source: a run of non-breaking space
characters followed by at most one line break (LF, CR or CRLF) as its
final characters. -/
def wsShape (l : List Char) : Prop :=
  ∃ sp brk, l = sp ++ brk ∧ (∀ c ∈ sp, c = ' ' ∨ c = '\t') ∧
    (brk = [] ∨ brk = ['\n'] ∨ brk = ['\r'] ∨ brk = ['\r', '\n'])

/-- The recorded positions of a token list chain correctly from a start
position: each token carries the position reached by advancing over all
previous tokens' sources. -/
def PosChain : Nat × Nat → List Token → Prop
  | _, [] => True
  | p, t :: rest => (t.line, t.column) = p ∧ PosChain (advPos t.source p) rest

/-- Advance a position over the sources of a whole token list. -/
def advTokens (ts : List Token) (p : Nat × Nat) : Nat × Nat :=
  ts.foldl (fun q t => advPos t.source q) p

/-! ### Invariant vocabulary for the universal theorems (base dialect) -/

/-- Position `i` of `src` does not fall between the CR and the LF of a
CRLF pair (the cursor can never rest there, because `_next` steps over
CRLF atomically). -/
def BoundaryOk (src : List Char) (i : Nat) : Prop :=
  ∀ j, i = j + 1 → ¬(src.getD j NUL = '\r' ∧ src.getD i NUL = '\n')

/-- Position bookkeeping correctness of a scan state: `_line` and the
derived column agree with advancing a fresh position over the consumed
prefix, and the cursor does not sit inside a CRLF pair. -/
def PosCore (s : TState) : Prop :=
  s.linestart ≤ s.index ∧
  (s.line, s.index - s.linestart + 1) = advPos (s.src.take s.index) (1, 1) ∧
  BoundaryOk s.src s.index

/-- State facts holding at the top of the main `parse` loop: the token
mark coincides with the cursor, the cursor is in range, the remembered
token line/column equal the current ones, and positions are correct. -/
def StInv (s : TState) : Prop :=
  s.tokenstart = s.index ∧ s.index ≤ s.src.length ∧
  s.tokenline = s.line ∧ s.tokencolumn = s.index - s.linestart + 1 ∧
  PosCore s

/-- Relation established by any sequence of `nextOne`/`mark` scanning
steps: everything except the cursor block (`index`, `line`, `linestart`,
`markedindex`) is untouched, the cursor moves monotonically and stays in
range, and position correctness is preserved. -/
def Scan (s s1 : TState) : Prop :=
  s1.src = s.src ∧ s1.tokens = s.tokens ∧ s1.tokenstart = s.tokenstart ∧
  s1.tokenline = s.tokenline ∧ s1.tokencolumn = s.tokencolumn ∧
  s.index ≤ s1.index ∧ (s.index ≤ s.src.length → s1.index ≤ s.src.length) ∧
  (PosCore s → PosCore s1)

/-- Postcondition of one successful handler invocation started from a
loop-top state `s` satisfying `StInv`: the handler appended some new
non-EOF tokens whose sources tile exactly the consumed characters, with
correct chained positions, whitespace tokens well-shaped, and (for
lone-CR-free inputs) no token source ending inside a CRLF pair. -/
def HandlerPost (s s1 : TState) : Prop :=
  s1.src = s.src ∧ s.index ≤ s1.index ∧ StInv s1 ∧
  ∃ new, s1.tokens = s.tokens ++ new ∧
    joinSources new = slice s.src s.index s1.index ∧
    (∀ t ∈ new, t.ttype ≠ .eof) ∧
    (∀ t ∈ new, t.ttype = .whitespace → wsShape t.source) ∧
    (noLoneCR s.src → ∀ t ∈ new, noLoneCR t.source) ∧
    PosChain (s.tokenline, s.tokencolumn) new ∧
    advTokens new (s.tokenline, s.tokencolumn) = (s1.tokenline, s1.tokencolumn)

/-- The accumulated facts about the token list at the top of the main
loop. -/
def TokensInv (s : TState) : Prop :=
  joinSources s.tokens = s.src.take s.index ∧
  (∀ t ∈ s.tokens, t.ttype ≠ .eof) ∧
  (∀ t ∈ s.tokens, t.ttype = .whitespace → wsShape t.source) ∧
  (noLoneCR s.src → ∀ t ∈ s.tokens, noLoneCR t.source) ∧
  PosChain (1, 1) s.tokens ∧
  advTokens s.tokens (1, 1) = (s.tokenline, s.tokencolumn)

/-- The full main-loop invariant. -/
def FullInv (s : TState) : Prop := StInv s ∧ TokensInv s

/-- A handler-internal result is scan-reachable: the returned state — or,
for a raised exception, the state at the raise point — is related to the
starting state by `Scan`. -/
def ScanRes (s : TState) : Except (PyExc × TState) TState → Prop
  | .ok s1 => Scan s s1
  | .error (_, se) => Scan s se

/-- Handler tags that can appear in the base dialect's dispatch table. -/
def isBaseTag : BH → Prop
  | .space | .ident | .digit | .openParens | .closeParens | .plus | .minus
  | .asterisk | .slash | .period | .comma | .colon | .question | .less
  | .equal | .greater | .apos | .quote | .bar | .semicolon => True
  | _ => False

/-! ## Theorems -/

/-! ### Generic facts about slices, `advPos` and characters -/

theorem slice_self (src : List Char) (a : Nat) : slice src a a = [] := by
  simp [slice]

theorem take_append_slice (src : List Char) {a b : Nat} (hab : a ≤ b) :
    src.take b = src.take a ++ slice src a b := by
  unfold slice
  conv_lhs => rw [show b = a + (b - a) by omega]
  rw [List.take_add]

theorem slice_cons (src : List Char) {a b : Nat} (ha : a < src.length) (hab : a < b) :
    slice src a b = src.getD a NUL :: slice src (a + 1) b := by
  unfold slice
  rw [List.drop_eq_getElem_cons ha]
  have h1 : b - a = (b - (a + 1)) + 1 := by omega
  rw [h1, List.take_succ_cons, List.getD_eq_getElem?_getD, List.getElem?_eq_getElem ha]
  rfl

theorem slice_length {src : List Char} {a b : Nat} (hab : a ≤ b) (hb : b ≤ src.length) :
    (slice src a b).length = b - a := by
  unfold slice
  rw [List.length_take, List.length_drop]
  omega

theorem slice_getD {src : List Char} {a b j : Nat} (hj : a + j < b) (hb : b ≤ src.length) :
    (slice src a b).getD j NUL = src.getD (a + j) NUL := by
  unfold slice
  have hjl : j < b - a := by omega
  have hd : a + j < src.length := by omega
  rw [List.getD_eq_getElem?_getD, List.getElem?_take_of_lt hjl, List.getElem?_drop,
    List.getD_eq_getElem?_getD]

theorem nrm_eq_nul {c : Char} : nrm c = NUL ↔ c = NUL := by
  unfold nrm
  split
  · subst_vars
    constructor
    · intro h
      exact absurd h (by decide)
    · intro h
      exact absurd h (by decide)
  · exact Iff.rfl

theorem getChar_ne_nul {s : TState} (h : getChar s ≠ NUL) : s.index < s.src.length := by
  by_contra hlt
  apply h
  unfold getChar pyCharAt
  rw [List.getD_eq_getElem?_getD, List.getElem?_eq_none (by omega)]
  rfl

theorem getChar_eq_getD {s : TState} : getChar s = nrm (s.src.getD s.index NUL) := rfl

/-- Advancing over a break-free fragment only moves the column. -/
theorem advPos_clean : ∀ (l : List Char) (p : Nat × Nat),
    (∀ c ∈ l, c ≠ '\n' ∧ c ≠ '\r') → advPos l p = (p.1, p.2 + l.length)
  | [], p, _ => by simp [advPos]
  | c :: r, p, h => by
    have hc := h c (by simp)
    have hr : ∀ c ∈ r, c ≠ '\n' ∧ c ≠ '\r' := fun x hx => h x (by simp [hx])
    have step : advPos (c :: r) p = advPos r (p.1, p.2 + 1) := by
      simp [advPos, hc.1, hc.2]
    rw [step, advPos_clean r _ hr]
    simp [List.length_cons]
    omega

/-- The tail of a non-empty list has the same last element. -/
theorem getLast?_tail_eq {c : Char} {l : List Char} (hl : l ≠ []) :
    (c :: l).getLast? = l.getLast? := by
  match l, hl with
  | x :: xs, _ => rw [List.getLast?_cons_cons]

/-- Seam-safe decomposition of `advPos` over concatenation: valid as long
as the left part does not end with the CR of a CRLF pair that continues
into the right part. -/
theorem advPos_append : ∀ (n : Nat) (a b : List Char) (p : Nat × Nat), a.length ≤ n →
    ¬(a.getLast? = some '\r' ∧ b.head? = some '\n') →
    advPos (a ++ b) p = advPos b (advPos a p) := by
  intro n
  induction n with
  | zero =>
    intro a b p hn _
    have : a = [] := List.eq_nil_of_length_eq_zero (Nat.le_zero.mp hn)
    subst this
    simp [advPos]
  | succ n ih =>
    intro a b p hn hseam
    match a with
    | [] => simp [advPos]
    | c :: a2 =>
      have hseam2 : ∀ l2 : List Char, l2 ≠ [] → (c :: a2).getLast? = l2.getLast? →
          ¬(l2.getLast? = some '\r' ∧ b.head? = some '\n') := by
        intro l2 _ heq ⟨hl, hh⟩
        exact hseam ⟨heq ▸ hl, hh⟩
      by_cases hcr : c = '\r'
      · subst hcr
        match a2 with
        | [] =>
          have hb : ¬(b.head? = some '\n') := fun hc => hseam ⟨rfl, hc⟩
          match b with
          | [] => simp [advPos]
          | c2 :: b2 =>
            have hcne : ¬(c2 = '\n') := by
              intro hcc
              exact hb (by rw [hcc]; rfl)
            show advPos ('\r' :: c2 :: b2) p = advPos (c2 :: b2) (advPos ['\r'] p)
            have e0 : advPos ['\r'] p = (p.1 + 1, 1) := rfl
            rw [e0]
            simp [advPos, hcne]
        | c2 :: a3 =>
          by_cases hc2 : c2 = '\n'
          · subst hc2
            have hlen : a3.length ≤ n := by
              simp [List.length_cons] at hn
              omega
            have ha3 : ¬(a3.getLast? = some '\r' ∧ b.head? = some '\n') := by
              match a3 with
              | [] =>
                intro ⟨hl, _⟩
                simp at hl
              | x :: xs =>
                apply hseam2 (x :: xs) (by simp)
                rw [List.getLast?_cons_cons, List.getLast?_cons_cons]
            calc advPos (('\r' :: '\n' :: a3) ++ b) p
                = advPos (a3 ++ b) (p.1 + 1, 1) := rfl
              _ = advPos b (advPos a3 (p.1 + 1, 1)) := ih a3 b _ hlen ha3
              _ = advPos b (advPos ('\r' :: '\n' :: a3) p) := rfl
          · have hlen : (c2 :: a3).length ≤ n := by
              simp [List.length_cons] at hn ⊢
              omega
            have ha2 : ¬((c2 :: a3).getLast? = some '\r' ∧ b.head? = some '\n') :=
              hseam2 (c2 :: a3) (by simp) (List.getLast?_cons_cons)
            have e1 : advPos ('\r' :: c2 :: (a3 ++ b)) p =
                advPos (c2 :: (a3 ++ b)) (p.1 + 1, 1) := by
              simp [advPos, hc2]
            have e2 : advPos ('\r' :: c2 :: a3) p = advPos (c2 :: a3) (p.1 + 1, 1) := by
              simp [advPos, hc2]
            calc advPos (('\r' :: c2 :: a3) ++ b) p
                = advPos ((c2 :: a3) ++ b) (p.1 + 1, 1) := e1
              _ = advPos b (advPos (c2 :: a3) (p.1 + 1, 1)) := ih (c2 :: a3) b _ hlen ha2
              _ = advPos b (advPos ('\r' :: c2 :: a3) p) := by rw [e2]
      · have hlen : a2.length ≤ n := by
          simp [List.length_cons] at hn
          omega
        have ha2 : ¬(a2.getLast? = some '\r' ∧ b.head? = some '\n') := by
          match a2 with
          | [] =>
            intro ⟨hl, _⟩
            simp at hl
          | x :: xs => exact hseam2 (x :: xs) (by simp) (List.getLast?_cons_cons)
        by_cases hcn : c = '\n'
        · subst hcn
          calc advPos (('\n' :: a2) ++ b) p
              = advPos (a2 ++ b) (p.1 + 1, 1) := rfl
            _ = advPos b (advPos a2 (p.1 + 1, 1)) := ih a2 b _ hlen ha2
            _ = advPos b (advPos ('\n' :: a2) p) := rfl
        · have e1 : advPos (c :: (a2 ++ b)) p = advPos (a2 ++ b) (p.1, p.2 + 1) := by
            simp [advPos, hcr, hcn]
          have e2 : advPos (c :: a2) p = advPos a2 (p.1, p.2 + 1) := by
            simp [advPos, hcr, hcn]
          calc advPos ((c :: a2) ++ b) p
              = advPos (a2 ++ b) (p.1, p.2 + 1) := e1
            _ = advPos b (advPos a2 (p.1, p.2 + 1)) := ih a2 b _ hlen ha2
            _ = advPos b (advPos (c :: a2) p) := by rw [e2]

/-! ### Facts about the scanning primitives -/

theorem take_succ_getD {src : List Char} {i : Nat} (h : i < src.length) :
    src.take (i + 1) = src.take i ++ [src.getD i NUL] := by
  rw [List.take_succ]
  congr
  rw [List.getElem?_eq_getElem h, List.getD_eq_getElem?_getD, List.getElem?_eq_getElem h]
  rfl

theorem getLast?_take {src : List Char} {i : Nat} (h1 : 1 ≤ i) (h2 : i ≤ src.length) :
    (src.take i).getLast? = some (src.getD (i - 1) NUL) := by
  have hl : (src.take i).length = i := by
    rw [List.length_take]
    omega
  have hi : i - 1 < src.length := by omega
  rw [List.getLast?_eq_getElem?, hl, List.getElem?_take_of_lt (by omega),
    List.getElem?_eq_getElem hi, List.getD_eq_getElem?_getD, List.getElem?_eq_getElem hi]
  rfl

theorem nextOne_ok {s s1 : TState} (h : nextOne s = .ok s1) :
    s1.src = s.src ∧ s1.tokens = s.tokens ∧ s1.tokenstart = s.tokenstart ∧
    s1.tokenline = s.tokenline ∧ s1.tokencolumn = s.tokencolumn ∧
    s1.markedindex = s.markedindex ∧ s.index < s1.index ∧
    s1.index ≤ s.src.length ∧ s.index < s.src.length := by
  unfold nextOne at h
  split at h
  case isTrue hlt =>
    split at h
    · split at h
      case isTrue h2 =>
        split at h
        · injection h with h
          subst h
          exact ⟨rfl, rfl, rfl, rfl, rfl, rfl,
            show s.index < s.index + 2 by omega,
            show s.index + 2 ≤ s.src.length by omega, hlt⟩
        · injection h with h
          subst h
          exact ⟨rfl, rfl, rfl, rfl, rfl, rfl,
            show s.index < s.index + 1 by omega,
            show s.index + 1 ≤ s.src.length by omega, hlt⟩
      case isFalse h2 => exact Except.noConfusion h
    · split at h
      · injection h with h
        subst h
        exact ⟨rfl, rfl, rfl, rfl, rfl, rfl,
          show s.index < s.index + 1 by omega,
          show s.index + 1 ≤ s.src.length by omega, hlt⟩
      · injection h with h
        subst h
        exact ⟨rfl, rfl, rfl, rfl, rfl, rfl,
          show s.index < s.index + 1 by omega,
          show s.index + 1 ≤ s.src.length by omega, hlt⟩
  case isFalse => exact Except.noConfusion h

theorem nextOne_posCore {s s1 : TState} (h : nextOne s = .ok s1) (hp : PosCore s) :
    PosCore s1 := by
  obtain ⟨hls, hadv, hbd⟩ := hp
  unfold nextOne at h
  split at h
  case isTrue hlt =>
    have hget : s.src.getD s.index NUL = s.src.get ⟨s.index, hlt⟩ := by
      rw [List.getD_eq_getElem?_getD, List.getElem?_eq_getElem hlt]
      rfl
    split at h
    case isTrue hcr =>
      split at h
      case isTrue h2 =>
        have hget2 : s.src.getD (s.index + 1) NUL = s.src.get ⟨s.index + 1, h2⟩ := by
          rw [List.getD_eq_getElem?_getD, List.getElem?_eq_getElem h2]
          rfl
        split at h
        case isTrue hlf =>
          injection h with h
          subst h
          refine ⟨show s.index + 2 ≤ s.index + 2 by omega, ?_, ?_⟩
          · show (s.line + 1, s.index + 2 - (s.index + 2) + 1) =
              advPos (s.src.take (s.index + 2)) (1, 1)
            have harith : s.index + 2 - (s.index + 2) + 1 = 1 := by omega
            have hdecomp : s.src.take (s.index + 2) =
                s.src.take s.index ++ ['\r', '\n'] := by
              rw [take_succ_getD (by omega), take_succ_getD hlt, hget, hcr,
                hget2, hlf, List.append_assoc]
              rfl
            rw [harith, hdecomp, advPos_append (s.src.take s.index).length _ _ _ le_rfl
                (by intro ⟨_, hh⟩; simp at hh), ← hadv]
            rfl
          · intro j hj ⟨hjr, _⟩
            have hji : j = s.index + 1 := by
              have : s.index + 2 = j + 1 := hj
              omega
            subst hji
            rw [hget2, hlf] at hjr
            exact absurd hjr (by decide)
        case isFalse hlf =>
          injection h with h
          subst h
          refine ⟨show s.index + 1 ≤ s.index + 1 by omega, ?_, ?_⟩
          · show (s.line + 1, s.index + 1 - (s.index + 1) + 1) =
              advPos (s.src.take (s.index + 1)) (1, 1)
            have harith : s.index + 1 - (s.index + 1) + 1 = 1 := by omega
            have hdecomp : s.src.take (s.index + 1) = s.src.take s.index ++ ['\r'] := by
              rw [take_succ_getD hlt, hget, hcr]
            rw [harith, hdecomp, advPos_append (s.src.take s.index).length _ _ _ le_rfl
                (by intro ⟨_, hh⟩; simp at hh), ← hadv]
            rfl
          · intro j hj ⟨hjr, hjn⟩
            have hji : j = s.index := by
              have : s.index + 1 = j + 1 := hj
              omega
            subst hji
            rw [hget2] at hjn
            exact hlf hjn
      case isFalse => exact Except.noConfusion h
    case isFalse hcr =>
      split at h
      case isTrue hlf =>
        injection h with h
        subst h
        refine ⟨show s.index + 1 ≤ s.index + 1 by omega, ?_, ?_⟩
        · show (s.line + 1, s.index + 1 - (s.index + 1) + 1) =
            advPos (s.src.take (s.index + 1)) (1, 1)
          have harith : s.index + 1 - (s.index + 1) + 1 = 1 := by omega
          have hdecomp : s.src.take (s.index + 1) = s.src.take s.index ++ ['\n'] := by
            rw [take_succ_getD hlt, hget, hlf]
          have hseam : ¬((s.src.take s.index).getLast? = some '\r' ∧
              ([('\n' : Char)] : List Char).head? = some '\n') := by
            intro ⟨hl, _⟩
            by_cases hz : s.index = 0
            · rw [hz] at hl
              simp at hl
            · rw [getLast?_take (by omega) (by omega)] at hl
              injection hl with hl
              exact hbd (s.index - 1) (by omega) ⟨hl, by rw [hget, hlf]⟩
          rw [harith, hdecomp,
            advPos_append (s.src.take s.index).length _ _ _ le_rfl hseam, ← hadv]
          rfl
        · intro j hj ⟨hjr, _⟩
          have hji : j = s.index := by
            have : s.index + 1 = j + 1 := hj
            omega
          subst hji
          rw [hget, hlf] at hjr
          exact absurd hjr (by decide)
      case isFalse hlf =>
        injection h with h
        subst h
        refine ⟨show s.linestart ≤ s.index + 1 by omega, ?_, ?_⟩
        · show (s.line, s.index + 1 - s.linestart + 1) =
            advPos (s.src.take (s.index + 1)) (1, 1)
          have hdecomp : s.src.take (s.index + 1) =
              s.src.take s.index ++ [s.src.get ⟨s.index, hlt⟩] := by
            rw [take_succ_getD hlt, hget]
          have hseam : ¬((s.src.take s.index).getLast? = some '\r' ∧
              ([s.src.get ⟨s.index, hlt⟩] : List Char).head? = some '\n') := by
            intro ⟨_, hh⟩
            injection hh with hh
            exact hlf hh
          have hclean : ∀ c ∈ [s.src.get ⟨s.index, hlt⟩], c ≠ '\n' ∧ c ≠ '\r' := by
            intro c hc
            simp at hc
            subst hc
            exact ⟨hlf, hcr⟩
          have hstep : advPos [s.src.get ⟨s.index, hlt⟩]
              (s.line, s.index - s.linestart + 1) =
              (s.line, (s.index - s.linestart + 1) + 1) := by
            rw [advPos_clean _ _ hclean]
            rfl
          have harith : s.index + 1 - s.linestart + 1 = (s.index - s.linestart + 1) + 1 := by
            omega
          rw [harith, hdecomp,
            advPos_append (s.src.take s.index).length _ _ _ le_rfl hseam, ← hadv, hstep]
        · intro j hj ⟨hjr, _⟩
          have hji : j = s.index := by
            have : s.index + 1 = j + 1 := hj
            omega
          subst hji
          rw [hget] at hjr
          exact hcr hjr
  case isFalse => exact Except.noConfusion h

theorem scan_rfl {s : TState} : Scan s s :=
  ⟨rfl, rfl, rfl, rfl, rfl, le_rfl, id, id⟩

theorem scan_trans {s1 s2 s3 : TState} (h1 : Scan s1 s2) (h2 : Scan s2 s3) : Scan s1 s3 := by
  obtain ⟨a1, b1, c1, d1, e1, f1, g1, p1⟩ := h1
  obtain ⟨a2, b2, c2, d2, e2, f2, g2, p2⟩ := h2
  refine ⟨a2.trans a1, b2.trans b1, c2.trans c1, d2.trans d1, e2.trans e1,
    f1.trans f2, ?_, fun hp => p2 (p1 hp)⟩
  intro hle
  have h1b := g1 hle
  have h2b := g2 (by rw [a1]; exact h1b)
  rw [a1] at h2b
  exact h2b

theorem nextOne_scan {s s1 : TState} (h : nextOne s = .ok s1) : Scan s s1 := by
  obtain ⟨hsrc, htok, hts, htl, htc, _, hidx, hle, _⟩ := nextOne_ok h
  exact ⟨hsrc, htok, hts, htl, htc, le_of_lt hidx, fun _ => hle, nextOne_posCore h⟩

theorem mark_scan {s : TState} : Scan s (mark s) :=
  ⟨rfl, rfl, rfl, rfl, rfl, le_rfl, id, id⟩

theorem nextOne_scanRes (s : TState) : ScanRes s (nextOne s) := by
  cases h : nextOne s with
  | ok s1 => exact nextOne_scan h
  | error e =>
    unfold nextOne at h
    split at h
    · split at h
      · split at h
        · split at h <;> exact Except.noConfusion h
        · injection h with h
          subst h
          exact scan_rfl
      · split at h <;> exact Except.noConfusion h
    · injection h with h
      subst h
      exact scan_rfl

/-- Transfer a `ScanRes` along `Scan` on the left. -/
theorem scanRes_mono {s s1 : TState} {r : Except (PyExc × TState) TState}
    (hs : Scan s s1) (hr : ScanRes s1 r) : ScanRes s r := by
  cases r with
  | ok s2 => exact scan_trans hs hr
  | error e =>
    obtain ⟨_, se⟩ := e
    exact scan_trans hs hr

theorem pyBind_cases {α : Type} {r : Except (PyExc × TState) TState}
    {f : TState → Except (PyExc × TState) α} {x : Except (PyExc × TState) α}
    (h : pyBind r f = x) :
    (∃ e, r = .error e ∧ x = .error e) ∨ (∃ s1, r = .ok s1 ∧ f s1 = x) := by
  cases r with
  | error e => exact .inl ⟨e, rfl, h.symm⟩
  | ok s1 => exact .inr ⟨s1, rfl, h⟩

theorem pyBindPair_cases {α : Type} {r : Except (PyExc × TState) (List Char × TState)}
    {f : List Char → TState → Except (PyExc × TState) α} {x : Except (PyExc × TState) α}
    (h : pyBindPair r f = x) :
    (∃ e, r = .error e ∧ x = .error e) ∨ (∃ c s1, r = .ok (c, s1) ∧ f c s1 = x) := by
  cases r with
  | error e => exact .inl ⟨e, rfl, h.symm⟩
  | ok p => exact .inr ⟨p.1, p.2, rfl, h⟩

theorem pyCatchVE_cases {r : Except (PyExc × TState) TState}
    {g : List Char → TState → Except (PyExc × TState) TState}
    {x : Except (PyExc × TState) TState} (h : pyCatchVE r g = x) :
    (∃ m se, r = .error (.valueError m, se) ∧ g m se = x) ∨
    (r = x ∧ ∀ m se, r ≠ .error (.valueError m, se)) := by
  cases r with
  | ok s1 =>
    refine .inr ⟨h, fun m se hc => Except.noConfusion hc⟩
  | error e =>
    obtain ⟨pe, se⟩ := e
    cases pe with
    | valueError m => exact .inl ⟨m, se, rfl, h⟩
    | indexError =>
      refine .inr ⟨h, fun m se2 hc => ?_⟩
      injection hc with hc
      exact PyExc.noConfusion (congrArg Prod.fst hc)
    | invalidOperation =>
      refine .inr ⟨h, fun m se2 hc => ?_⟩
      injection hc with hc
      exact PyExc.noConfusion (congrArg Prod.fst hc)

theorem nextN_scanRes (n : Nat) (s : TState) : ScanRes s (nextN n s) := by
  induction n generalizing s with
  | zero => exact scan_rfl
  | succ m ih =>
    show ScanRes s (nextN (m + 1) s)
    unfold nextN
    cases h : nextOne s with
    | error e =>
      have := nextOne_scanRes s
      rw [h] at this
      exact this
    | ok s1 => exact scanRes_mono (nextOne_scan h) (ih s1)

theorem nextN_progress {n : Nat} {s s1 : TState} (hn : 1 ≤ n)
    (h : nextN n s = .ok s1) : s.index < s1.index := by
  match n, hn with
  | m + 1, _ =>
    unfold nextN at h
    cases ho : nextOne s with
    | error e =>
      rw [ho] at h
      exact Except.noConfusion h
    | ok s2 =>
      rw [ho] at h
      have hm : nextN m s2 = .ok s1 := h
      have h2 := (nextOne_ok ho).2.2.2.2.2.2.1
      have hrest : s2.index ≤ s1.index := by
        have hsr := nextN_scanRes m s2
        rw [hm] at hsr
        exact hsr.2.2.2.2.2.1
      omega

theorem identLoop_scanRes (ic : List Char) : ∀ (fuel : Nat) (s : TState),
    ScanRes s (identLoop ic fuel s) := by
  intro fuel
  induction fuel with
  | zero =>
    intro s
    exact scan_rfl
  | succ n ih =>
    intro s
    show ScanRes s (identLoop ic (n + 1) s)
    unfold identLoop
    split
    · cases h : nextOne s with
      | error e =>
        have := nextOne_scanRes s
        rw [h] at this
        exact this
      | ok s1 => exact scanRes_mono (nextOne_scan h) (ih s1)
    · exact scan_rfl

theorem digitLoop_scanRes : ∀ (fuel : Nat) (aE aD : Bool) (s : TState) r,
    digitLoop aE aD fuel s = r → ScanRes s r := by
  intro fuel
  induction fuel with
  | zero =>
    intro aE aD s r h
    have h0 : Except.ok s = r := h
    rw [← h0]
    exact scan_rfl
  | succ n ih =>
    intro aE aD s r h
    unfold digitLoop at h
    split at h
    · split at h
      · cases ho : nextOne s with
        | error e =>
          rw [ho] at h
          have h2 : Except.error e = r := h
          rw [← h2]
          have hsc := nextOne_scanRes s
          rw [ho] at hsc
          exact hsc
        | ok s1 =>
          rw [ho] at h
          have h2 : digitLoop aE false n s1 = r := h
          exact scanRes_mono (nextOne_scan ho) (ih aE false s1 r h2)
      · split at h
        · cases hsg : (if getNextChar s = '-' ∨ getNextChar s = '+' then nextOne s
              else (.ok s : Except (PyExc × TState) TState)) with
          | error e =>
            rw [hsg] at h
            have h2 : Except.error e = r := h
            rw [← h2]
            split at hsg
            · have hsc := nextOne_scanRes s
              rw [hsg] at hsc
              exact hsc
            · exact Except.noConfusion hsg
          | ok s1 =>
            rw [hsg] at h
            have hred : (match nextOne s1 with
                | Except.error e => (Except.error e : Except (PyExc × TState) TState)
                | Except.ok s2 => digitLoop false false n s2) = r := h
            have hs1 : Scan s s1 := by
              split at hsg
              · exact nextOne_scan hsg
              · injection hsg with hsg
                rw [← hsg]
                exact scan_rfl
            cases ho : nextOne s1 with
            | error e =>
              rw [ho] at hred
              have h2 : Except.error e = r := hred
              rw [← h2]
              have hsc := nextOne_scanRes s1
              rw [ho] at hsc
              exact scanRes_mono hs1 hsc
            | ok s2 =>
              rw [ho] at hred
              have h2 : digitLoop false false n s2 = r := hred
              exact scanRes_mono (scan_trans hs1 (nextOne_scan ho)) (ih false false s2 r h2)
        · cases ho : nextOne s with
          | error e =>
            rw [ho] at h
            have h2 : Except.error e = r := h
            rw [← h2]
            have hsc := nextOne_scanRes s
            rw [ho] at hsc
            exact hsc
          | ok s1 =>
            rw [ho] at h
            have h2 : digitLoop aE aD n s1 = r := h
            exact scanRes_mono (nextOne_scan ho) (ih aE aD s1 r h2)
    · have h0 : Except.ok s = r := h
      rw [← h0]
      exact scan_rfl

theorem spaceLoop_scanRes : ∀ (fuel : Nat) (s : TState), ScanRes s (spaceLoop fuel s) := by
  intro fuel
  induction fuel with
  | zero =>
    intro s
    exact scan_rfl
  | succ n ih =>
    intro s
    show ScanRes s (spaceLoop (n + 1) s)
    unfold spaceLoop
    split
    · split
      · exact nextOne_scanRes s
      · cases h : nextOne s with
        | error e =>
          have := nextOne_scanRes s
          rw [h] at this
          exact this
        | ok s1 => exact scanRes_mono (nextOne_scan h) (ih s1)
    · exact scan_rfl

theorem lineCommentLoop_scanRes : ∀ (fuel : Nat) (s : TState),
    ScanRes s (lineCommentLoop fuel s) := by
  intro fuel
  induction fuel with
  | zero =>
    intro s
    exact scan_rfl
  | succ n ih =>
    intro s
    show ScanRes s (lineCommentLoop (n + 1) s)
    unfold lineCommentLoop
    split
    · exact scan_rfl
    · cases h : nextOne s with
      | error e =>
        have := nextOne_scanRes s
        rw [h] at this
        exact this
      | ok s1 => exact scanRes_mono (nextOne_scan h) (ih s1)

theorem extractLoop_scanRes (multiline : Bool) (qchar : Char) (tl : Nat) :
    ∀ (fuel qcount : Nat) (s : TState) r,
    extractLoop multiline qchar tl qcount fuel s = r → ScanRes s r := by
  intro fuel
  induction fuel with
  | zero =>
    intro qcount s r h
    have h0 : Except.ok s = r := h
    rw [← h0]
    exact scan_rfl
  | succ n ih =>
    intro qcount s r h
    unfold extractLoop at h
    split at h
    · rw [← h]
      exact scan_rfl
    · split at h
      · rw [← h]
        exact scan_rfl
      · by_cases hq : getChar s = qchar
        · rw [if_pos hq] at h
          split at h
          · have h0 : Except.ok s = r := h
            rw [← h0]
            exact scan_rfl
          · cases ho : nextOne s with
            | error e =>
              rw [ho] at h
              have h0 : Except.error e = r := h
              rw [← h0]
              have hsc := nextOne_scanRes s
              rw [ho] at hsc
              exact hsc
            | ok s1 =>
              rw [ho] at h
              have h0 : extractLoop multiline qchar tl (qcount + 1) n s1 = r := h
              exact scanRes_mono (nextOne_scan ho) (ih _ s1 r h0)
        · rw [if_neg hq] at h
          split at h
          · have h0 : Except.ok s = r := h
            rw [← h0]
            exact scan_rfl
          · cases ho : nextOne s with
            | error e =>
              rw [ho] at h
              have h0 : Except.error e = r := h
              rw [← h0]
              have hsc := nextOne_scanRes s
              rw [ho] at hsc
              exact hsc
            | ok s1 =>
              rw [ho] at h
              have h0 : extractLoop multiline qchar tl qcount n s1 = r := h
              exact scanRes_mono (nextOne_scan ho) (ih _ s1 r h0)

/-- `extractString` only scans: both the normal return and the state at a
raised exception are scan-reachable from the start. -/
theorem extractString_scan {multiline : Bool} {s : TState} :
    (∀ c s1, extractString multiline s = .ok (c, s1) → Scan s s1) ∧
    (∀ e se, extractString multiline s = .error (e, se) → Scan s se) := by
  have core : ∀ x, extractString multiline s = x →
      (∀ c s1, x = .ok (c, s1) → Scan s s1) ∧
      (∀ e se, x = .error (e, se) → Scan s se) := by
    intro x h
    unfold extractString at h
    rcases pyBind_cases h with ⟨e0, he, hx⟩ | ⟨sa, ha, h⟩
    · refine ⟨fun c s1 hc => ?_, fun e2 se hc => ?_⟩
      · rw [hx] at hc
        exact Except.noConfusion hc
      · rw [hx] at hc
        have hee : ((e2, se) : PyExc × TState) = e0 := (Except.error.inj hc).symm
        have h0 := nextOne_scanRes s
        rw [he, ← hee] at h0
        exact h0
    · have hsa : Scan s (mark sa) := scan_trans (nextOne_scan ha) mark_scan
      rcases pyBind_cases h with ⟨e0, he, hx⟩ | ⟨sb, hb, h⟩
      · refine ⟨fun c s1 hc => ?_, fun e2 se hc => ?_⟩
        · rw [hx] at hc
          exact Except.noConfusion hc
        · rw [hx] at hc
          have hee : ((e2, se) : PyExc × TState) = e0 := (Except.error.inj hc).symm
          have h0 := extractLoop_scanRes multiline (getChar s) (mark sa).tokenline
            (fuelFor (mark sa)) 1 (mark sa) _ he
          rw [← hee] at h0
          exact scan_trans hsa h0
      · have hsb : Scan s sb :=
          scan_trans hsa (extractLoop_scanRes multiline (getChar s) (mark sa).tokenline
            (fuelFor (mark sa)) 1 (mark sa) _ hb)
        rcases pyBind_cases h with ⟨e0, he, hx⟩ | ⟨sc, hcn, h⟩
        · refine ⟨fun c s1 hc => ?_, fun e2 se hc => ?_⟩
          · rw [hx] at hc
            exact Except.noConfusion hc
          · rw [hx] at hc
            have hee : ((e2, se) : PyExc × TState) = e0 := (Except.error.inj hc).symm
            have h0 := nextOne_scanRes sb
            rw [he, ← hee] at h0
            exact scan_trans hsb h0
        · refine ⟨fun c s1 hc => ?_, fun e2 se hc => ?_⟩
          · rw [← h] at hc
            injection hc with hc
            have hs1 : sc = s1 := congrArg Prod.snd hc
            rw [← hs1]
            exact scan_trans hsb (nextOne_scan hcn)
          · rw [← h] at hc
            exact Except.noConfusion hc
  exact ⟨fun c s1 hc => (core _ hc).1 c s1 rfl, fun e se hc => (core _ hc).2 e se rfl⟩

/-! ### Slices of lone-CR-free text, and the `addToken` postcondition -/

theorem slice_head {src : List Char} {a b : Nat} (hab : a < b) (ha : a < src.length) :
    (slice src a b).head? = some (src.getD a NUL) := by
  rw [slice_cons src ha hab]
  rfl

/-- A slice whose end does not split a CRLF pair inherits lone-CR
freedom from the whole text. -/
theorem noLoneCR_slice {src : List Char} {a b : Nat}
    (hsrc : noLoneCR src) (hba : BoundaryOk src b) (hab : a ≤ b) (hb : b ≤ src.length) :
    noLoneCR (slice src a b) := by
  intro j hj hr
  have hlen : (slice src a b).length = b - a := slice_length hab hb
  rw [hlen] at hj
  have hj2 : a + j < b := by omega
  rw [slice_getD hj2 hb] at hr
  have hs := hsrc (a + j) (by omega) hr
  by_cases hin : a + j + 1 < b
  · refine ⟨by omega, ?_⟩
    rw [slice_getD (show a + (j + 1) < b by omega) hb,
      show a + (j + 1) = a + j + 1 by omega]
    exact hs.2
  · exfalso
    have hbb : b = (a + j) + 1 := by omega
    exact hba (a + j) hbb ⟨hr, by rw [hbb]; exact hs.2⟩

/-- Advancing over a consumed slice from the position of its start is
advancing over the longer prefix (the start is never mid-CRLF). -/
theorem advPos_take_slice {src : List Char} {a b : Nat}
    (hab : a ≤ b) (hb : b ≤ src.length) (hbd : BoundaryOk src a) :
    advPos (slice src a b) (advPos (src.take a) (1, 1)) = advPos (src.take b) (1, 1) := by
  conv_rhs => rw [take_append_slice src hab]
  rw [advPos_append (src.take a).length _ _ _ le_rfl ?seam]
  case seam =>
    intro ⟨hl, hh⟩
    by_cases haz : a = 0
    · rw [haz] at hl
      simp at hl
    · by_cases habe : a = b
      · rw [habe, slice_self] at hh
        exact Option.noConfusion hh
      · have hab2 : a < b := by omega
        have ha2 : a < src.length := by omega
        rw [slice_head hab2 ha2] at hh
        injection hh with hh
        rw [getLast?_take (by omega) (by omega)] at hl
        injection hl with hl
        exact hbd (a - 1) (by omega) ⟨hl, by rw [hh]⟩

/-- Appending one token at a scan-reached state yields the full handler
postcondition, provided the token is not EOF and (if WHITESPACE) its
source is well-shaped. -/
theorem handlerPost_add {s sM : TState} (tt : TType) (v : TValue)
    (hS : StInv s) (hsc : Scan s sM) (htt : tt ≠ TType.eof)
    (hws : tt = TType.whitespace → wsShape (slice s.src s.index sM.index)) :
    HandlerPost s (addToken tt v sM) := by
  obtain ⟨hts, hlen, htl, htc, hpc⟩ := hS
  obtain ⟨hsrc, htok, hts2, htl2, htc2, hidx, hlen2, hpc2⟩ := hsc
  have hpcM : PosCore sM := hpc2 hpc
  have hlenM : sM.index ≤ s.src.length := hlen2 hlen
  have hsource : slice sM.src sM.tokenstart sM.index = slice s.src s.index sM.index := by
    rw [hsrc, hts2, hts]
  refine ⟨hsrc, hidx, ?_, ?_⟩
  · refine ⟨rfl, ?_, rfl, rfl, ?_⟩
    · show sM.index ≤ sM.src.length
      rw [hsrc]
      exact hlenM
    · exact hpcM
  · refine ⟨[⟨tt, v, slice sM.src sM.tokenstart sM.index, sM.tokenline, sM.tokencolumn⟩],
      ?_, ?_, ?_, ?_, ?_, ?_, ?_⟩
    · show sM.tokens ++ _ = s.tokens ++ _
      rw [htok]
    · show slice sM.src sM.tokenstart sM.index ++ [] = slice s.src s.index sM.index
      rw [List.append_nil, hsource]
    · intro t ht
      rw [List.mem_singleton] at ht
      subst ht
      exact htt
    · intro t ht
      rw [List.mem_singleton] at ht
      subst ht
      intro hwt
      have := hws hwt
      show wsShape (slice sM.src sM.tokenstart sM.index)
      rw [hsource]
      exact this
    · intro hcr t ht
      rw [List.mem_singleton] at ht
      subst ht
      show noLoneCR (slice sM.src sM.tokenstart sM.index)
      rw [hsource]
      have hbd2 : BoundaryOk s.src sM.index := by
        have := hpcM.2.2
        rw [hsrc] at this
        exact this
      exact noLoneCR_slice hcr hbd2 hidx hlenM
    · exact ⟨by rw [htl2, htc2], trivial⟩
    · show advPos (slice sM.src sM.tokenstart sM.index) (s.tokenline, s.tokencolumn) =
        (sM.line, sM.index - sM.linestart + 1)
      rw [hsource, htl, htc, hpc.2.1,
        advPos_take_slice hidx hlenM hpc.2.2]
      have hpcM2 := hpcM.2.1
      rw [hsrc] at hpcM2
      exact hpcM2.symm

/-- The do-nothing case of `_handle_terminator` (no saved handler, no
match) trivially satisfies the postcondition. -/
theorem handlerPost_id {s : TState} (hS : StInv s) : HandlerPost s s := by
  refine ⟨rfl, le_rfl, hS, [], by simp, ?_, by simp, by simp, by simp, trivial, rfl⟩
  rw [slice_self]
  rfl

/-- The consumed characters of one successful `_next` step: either a
CRLF pair, or the single character at the cursor. -/
theorem nextOne_chars {s s1 : TState} (h : nextOne s = .ok s1) :
    (slice s.src s.index s1.index = ['\r', '\n'] ∧ s.src.getD s.index NUL = '\r') ∨
    (slice s.src s.index s1.index = [s.src.getD s.index NUL] ∧
      s.src.getD s.index NUL ≠ '\r' ∨
     slice s.src s.index s1.index = ['\r'] ∧ s.src.getD s.index NUL = '\r') := by
  have hok := nextOne_ok h
  have hlt : s.index < s.src.length := hok.2.2.2.2.2.2.2.2
  have hget : s.src.getD s.index NUL = s.src.get ⟨s.index, hlt⟩ := by
    rw [List.getD_eq_getElem?_getD, List.getElem?_eq_getElem hlt]
    rfl
  unfold nextOne at h
  rw [dif_pos hlt] at h
  split at h
  case isTrue hcr =>
    split at h
    case isTrue h2 =>
      have hget2 : s.src.getD (s.index + 1) NUL = s.src.get ⟨s.index + 1, h2⟩ := by
        rw [List.getD_eq_getElem?_getD, List.getElem?_eq_getElem h2]
        rfl
      split at h
      case isTrue hlf =>
        injection h with h
        subst h
        left
        refine ⟨?_, by rw [hget, hcr]⟩
        show slice s.src s.index (s.index + 2) = ['\r', '\n']
        rw [slice_cons _ hlt (by omega), slice_cons _ h2 (by omega), slice_self,
          hget, hcr, hget2, hlf]
      case isFalse hlf =>
        injection h with h
        subst h
        right
        right
        refine ⟨?_, by rw [hget, hcr]⟩
        show slice s.src s.index (s.index + 1) = ['\r']
        rw [slice_cons _ hlt (by omega), slice_self, hget, hcr]
    case isFalse => exact Except.noConfusion h
  case isFalse hcr =>
    have hslice : slice s.src s.index (s.index + 1) = [s.src.getD s.index NUL] := by
      rw [slice_cons _ hlt (by omega), slice_self]
    split at h
    · injection h with h
      subst h
      right
      left
      exact ⟨hslice, by rw [hget]; exact hcr⟩
    · injection h with h
      subst h
      right
      left
      exact ⟨hslice, by rw [hget]; exact hcr⟩

theorem slice_append {src : List Char} {a b c : Nat} (h1 : a ≤ b) (h2 : b ≤ c) :
    slice src a c = slice src a b ++ slice src b c := by
  unfold slice
  rw [show c - a = (b - a) + (c - b) by omega, List.take_add, List.drop_drop,
    show a + (b - a) = b by omega]

/-- The characters consumed by one run of the `_handle_space` loop form a
well-shaped whitespace source. -/
theorem spaceLoop_shape : ∀ (fuel : Nat) (s s1 : TState), spaceLoop fuel s = .ok s1 →
    wsShape (slice s.src s.index s1.index) := by
  intro fuel
  induction fuel with
  | zero =>
    intro s s1 h
    have h0 : Except.ok s = .ok s1 := h
    injection h0 with h0
    rw [← h0, slice_self]
    exact ⟨[], [], rfl, by simp, Or.inl rfl⟩
  | succ n ih =>
    intro s s1 h
    unfold spaceLoop at h
    split at h
    case isTrue hmem =>
      split at h
      case isTrue hlf =>
        rcases nextOne_chars h with ⟨hsl, _⟩ | ⟨hsl, hcr⟩ | ⟨hsl, _⟩
        · rw [hsl]
          exact ⟨[], ['\r', '\n'], rfl, by simp, by simp⟩
        · have hc : s.src.getD s.index NUL = '\n' := by
            have hnrm : nrm (s.src.getD s.index NUL) = '\n' := hlf
            unfold nrm at hnrm
            split at hnrm
            case isTrue hcr2 => exact absurd hcr2 hcr
            case isFalse => exact hnrm
          rw [hsl, hc]
          exact ⟨[], ['\n'], rfl, by simp, by simp⟩
        · rw [hsl]
          exact ⟨[], ['\r'], rfl, by simp, by simp⟩
      case isFalse hlf =>
        cases ho : nextOne s with
        | error e =>
          rw [ho] at h
          exact Except.noConfusion h
        | ok s2 =>
          rw [ho] at h
          have h2 : spaceLoop n s2 = .ok s1 := h
          have hok := nextOne_ok ho
          have hs1 := spaceLoop_scanRes n s2
          rw [h2] at hs1
          have hcr0 : s.src.getD s.index NUL ≠ '\r' := by
            intro hcr
            apply hlf
            show nrm (s.src.getD s.index NUL) = '\n'
            rw [hcr]
            rfl
          have hraw : s.src.getD s.index NUL = getChar s := by
            show s.src.getD s.index NUL = nrm (s.src.getD s.index NUL)
            unfold nrm
            rw [if_neg hcr0]
          have hsp : getChar s = ' ' ∨ getChar s = '\t' := by
            have hmem2 : getChar s = ' ' ∨ getChar s = '\t' ∨ getChar s = '\r' ∨
                getChar s = '\n' := by
              simpa [spacechars] using hmem
            rcases hmem2 with h1 | h1 | h1 | h1
            · exact Or.inl h1
            · exact Or.inr h1
            · exact absurd (hraw.trans h1) hcr0
            · exact absurd h1 hlf
          have hs2i : s2.index = s.index + 1 := by
            rcases nextOne_chars ho with ⟨hsl, hcr⟩ | ⟨hsl, hcr⟩ | ⟨hsl, hcr⟩
            · exact absurd hcr hcr0
            · have hlc := slice_length (le_of_lt hok.2.2.2.2.2.2.1) hok.2.2.2.2.2.2.2.1
              rw [hsl] at hlc
              simp at hlc
              omega
            · exact absurd hcr hcr0
          have hdec : slice s.src s.index s1.index =
              slice s.src s.index (s.index + 1) ++ slice s.src (s.index + 1) s1.index := by
            apply slice_append (by omega)
            rw [← hs2i]
            exact hs1.2.2.2.2.2.1
          have hone : slice s.src s.index (s.index + 1) = [getChar s] := by
            rw [slice_cons _ hok.2.2.2.2.2.2.2.2 (by omega), slice_self, hraw]
          obtain ⟨sp, brk, hsb, hspc, hbrk⟩ := ih s2 s1 h2
          rw [hok.1, hs2i] at hsb
          rw [hdec, hone, hsb]
          refine ⟨getChar s :: sp, brk, by simp, ?_, hbrk⟩
          intro c hc
          rcases List.mem_cons.mp hc with hc | hc
          · rw [hc]
            exact hsp
          · exact hspc c hc
    case isFalse =>
      have h0 : Except.ok s = .ok s1 := h
      injection h0 with h0
      rw [← h0, slice_self]
      exact ⟨[], [], rfl, by simp, Or.inl rfl⟩

/-! ### Per-handler postconditions -/

theorem pyBind_eq_ok {α : Type} {r : Except (PyExc × TState) TState}
    {f : TState → Except (PyExc × TState) α} {x : α} (h : pyBind r f = .ok x) :
    ∃ s2, r = .ok s2 ∧ f s2 = .ok x := by
  rcases pyBind_cases h with ⟨e, _, hx⟩ | hok
  · exact Except.noConfusion hx
  · exact hok

theorem pyBindPair_eq_ok {α : Type} {r : Except (PyExc × TState) (List Char × TState)}
    {f : List Char → TState → Except (PyExc × TState) α} {x : α}
    (h : pyBindPair r f = .ok x) : ∃ c s2, r = .ok (c, s2) ∧ f c s2 = .ok x := by
  rcases pyBindPair_cases h with ⟨e, _, hx⟩ | hok
  · exact Except.noConfusion hx
  · exact hok

theorem pyCatchVE_eq_ok {r : Except (PyExc × TState) TState}
    {g : List Char → TState → Except (PyExc × TState) TState} {s1 : TState}
    (h : pyCatchVE r g = .ok s1) :
    (∃ m se, r = .error (.valueError m, se) ∧ g m se = .ok s1) ∨ r = .ok s1 := by
  rcases pyCatchVE_cases h with hve | ⟨hp, _⟩
  · exact .inl hve
  · exact .inr hp

/-- `Decimal` either accepts the literal or raises `InvalidOperation`. -/
theorem pyDecimal_alt (l : List Char) :
    pyDecimal l = .ok l ∨ pyDecimal l = .error .invalidOperation := by
  unfold pyDecimal
  split
  · exact .inl rfl
  · exact .inr rfl

/-- Errors raised inside the C-comment loop are scan-reachable. -/
theorem cCommentLoop_scanErr : ∀ (fuel : Nat) (s se : TState) (e : PyExc),
    cCommentLoop fuel s = .error (e, se) → Scan s se := by
  intro fuel
  induction fuel with
  | zero =>
    intro s se e h
    exact Except.noConfusion h
  | succ n ih =>
    intro s se e h
    unfold cCommentLoop at h
    split at h
    · have h0 : ((PyExc.valueError (msgUntermComment s.tokenline), s) : PyExc × TState) =
          (e, se) := Except.error.inj h
      have : s = se := congrArg Prod.snd h0
      rw [← this]
      exact scan_rfl
    · split at h
      · rcases pyBind_cases h with ⟨e0, he, hx⟩ | ⟨s2, _, hx⟩
        · have he0 : e0 = (e, se) := (Except.error.inj hx).symm
          have h0 := nextN_scanRes 2 s
          rw [he, he0] at h0
          exact h0
        · exact Except.noConfusion hx
      · rcases pyBind_cases h with ⟨e0, he, hx⟩ | ⟨s2, hok, hx⟩
        · have he0 : e0 = (e, se) := (Except.error.inj hx).symm
          have h0 := nextOne_scanRes s
          rw [he, he0] at h0
          exact h0
        · exact scan_trans (nextOne_scan hok) (ih s2 se e hx)

/-- A successful C-comment loop run scans to the closing `*/`, steps over
it, and appends the COMMENT token — provided the fuel covers the
remaining characters (as it does at the call site). -/
theorem cCommentLoop_ok : ∀ (fuel : Nat) (s s1 : TState),
    s.index ≤ s.src.length → s.src.length + 1 - s.index ≤ fuel →
    cCommentLoop fuel s = .ok s1 →
    ∃ sM sM2, Scan s sM ∧ nextN 2 sM = .ok sM2 ∧
      s1 = addToken .comment (.vstr (markedChars sM)) sM2 := by
  intro fuel
  induction fuel with
  | zero =>
    intro s s1 hle hfuel h
    omega
  | succ n ih =>
    intro s s1 hle hfuel h
    unfold cCommentLoop at h
    split at h
    · exact Except.noConfusion h
    · split at h
      · obtain ⟨s2, hn2, hx⟩ := pyBind_eq_ok h
        exact ⟨s, s2, scan_rfl, hn2, (Except.ok.inj hx).symm⟩
      · obtain ⟨s2, hn1, hx⟩ := pyBind_eq_ok h
        have hok := nextOne_ok hn1
        obtain ⟨sM, sM2, hsc, hn2, hadd⟩ := ih s2 s1
          (by rw [hok.1]; exact hok.2.2.2.2.2.2.2.1)
          (by
            have h1 := hok.2.2.2.2.2.2.1
            have h2 := hok.2.2.2.2.2.2.2.1
            rw [hok.1]
            omega) hx
        exact ⟨sM, sM2, scan_trans (nextOne_scan hn1) hsc, hn2, hadd⟩

/-- `_next` can only raise `IndexError`, and it leaves the state as it
found it when the very first step fails; the raise state is the state
reached so far. -/
theorem nextOne_err {s : TState} {e : PyExc × TState} (h : nextOne s = .error e) :
    e.1 = .indexError := by
  unfold nextOne at h
  split at h
  · split at h
    · split at h
      · split at h <;> exact Except.noConfusion h
      · have h0 : ((PyExc.indexError, s) : PyExc × TState) = e := Except.error.inj h
        rw [← h0]
    · split at h <;> exact Except.noConfusion h
  · have h0 : ((PyExc.indexError, s) : PyExc × TState) = e := Except.error.inj h
    rw [← h0]

theorem handleApos_post {cfg : Cfg} {s s1 : TState} (hS : StInv s)
    (h : handleApos cfg s = .ok s1) : HandlerPost s s1 := by
  unfold handleApos at h
  rcases pyCatchVE_eq_ok h with ⟨m, se, hve, hg⟩ | hok
  · rw [← Except.ok.inj hg]
    rcases pyBindPair_cases hve with ⟨e0, hex, hxx⟩ | ⟨c, s2, hex, hxx⟩
    · have he0 : e0 = (.valueError m, se) := (Except.error.inj hxx).symm
      rw [he0] at hex
      exact handlerPost_add _ _ hS (extractString_scan.2 _ se hex) (by decide)
        (fun hh => absurd hh (by decide))
    · exact Except.noConfusion hxx
  · obtain ⟨content, s2, hex, hadd⟩ := pyBindPair_eq_ok hok
    rw [← Except.ok.inj hadd]
    exact handlerPost_add _ _ hS (extractString_scan.1 content s2 hex) (by decide)
      (fun hh => absurd hh (by decide))

theorem handleAsterisk_post {s s1 : TState} (hS : StInv s) (h : handleAsterisk s = .ok s1) :
    HandlerPost s s1 := by
  unfold handleAsterisk at h
  obtain ⟨s2, hn, h⟩ := pyBind_eq_ok h
  rw [← Except.ok.inj h]
  exact handlerPost_add _ _ hS (nextOne_scan hn) (by decide) (fun hh => absurd hh (by decide))

theorem handleBar_post {s s1 : TState} (hS : StInv s) (h : handleBar s = .ok s1) :
    HandlerPost s s1 := by
  unfold handleBar at h
  obtain ⟨s2, hn, h⟩ := pyBind_eq_ok h
  split at h
  · obtain ⟨s3, hn2, h⟩ := pyBind_eq_ok h
    rw [← Except.ok.inj h]
    exact handlerPost_add _ _ hS (scan_trans (nextOne_scan hn) (nextOne_scan hn2))
      (by decide) (fun hh => absurd hh (by decide))
  · rw [← Except.ok.inj h]
    exact handlerPost_add _ _ hS (nextOne_scan hn) (by decide) (fun hh => absurd hh (by decide))

theorem handleCloseParens_post {s s1 : TState} (hS : StInv s)
    (h : handleCloseParens s = .ok s1) : HandlerPost s s1 := by
  unfold handleCloseParens at h
  obtain ⟨s2, hn, h⟩ := pyBind_eq_ok h
  rw [← Except.ok.inj h]
  exact handlerPost_add _ _ hS (nextOne_scan hn) (by decide) (fun hh => absurd hh (by decide))

theorem handleColon_post {cfg : Cfg} {s s1 : TState} (hS : StInv s)
    (h : handleColon cfg s = .ok s1) : HandlerPost s s1 := by
  unfold handleColon at h
  obtain ⟨s2, hn, h⟩ := pyBind_eq_ok h
  have hsc2 : Scan s s2 := nextOne_scan hn
  split at h
  · rcases pyCatchVE_eq_ok h with ⟨m, se, hve, hg⟩ | hok
    · rw [← Except.ok.inj hg]
      rcases pyBindPair_cases hve with ⟨e0, hex, hxx⟩ | ⟨c, s3, hex, hxx⟩
      · have he0 : e0 = (.valueError m, se) := (Except.error.inj hxx).symm
        rw [he0] at hex
        exact handlerPost_add _ _ hS (scan_trans hsc2 (extractString_scan.2 _ se hex))
          (by decide) (fun hh => absurd hh (by decide))
      · exact Except.noConfusion hxx
    · obtain ⟨content, s3, hex, hadd⟩ := pyBindPair_eq_ok hok
      rw [← Except.ok.inj hadd]
      exact handlerPost_add _ _ hS (scan_trans hsc2 (extractString_scan.1 content s3 hex))
        (by decide) (fun hh => absurd hh (by decide))
  · obtain ⟨s3, hloop, h⟩ := pyBind_eq_ok h
    rw [← Except.ok.inj h]
    have hsl := identLoop_scanRes cfg.identchars (fuelFor (mark s2)) (mark s2)
    rw [hloop] at hsl
    exact handlerPost_add _ _ hS (scan_trans hsc2 (scan_trans mark_scan hsl))
      (by decide) (fun hh => absurd hh (by decide))

theorem handleComma_post {s s1 : TState} (hS : StInv s) (h : handleComma s = .ok s1) :
    HandlerPost s s1 := by
  unfold handleComma at h
  obtain ⟨s2, hn, h⟩ := pyBind_eq_ok h
  rw [← Except.ok.inj h]
  exact handlerPost_add _ _ hS (nextOne_scan hn) (by decide) (fun hh => absurd hh (by decide))

theorem handleDefault_post {s s1 : TState} (hS : StInv s) (h : handleDefault s = .ok s1) :
    HandlerPost s s1 := by
  unfold handleDefault at h
  obtain ⟨s2, hn, h⟩ := pyBind_eq_ok h
  rw [← Except.ok.inj h]
  exact handlerPost_add _ _ hS (nextOne_scan hn) (by decide) (fun hh => absurd hh (by decide))

theorem handleDigit_post {s s1 : TState} (hS : StInv s) (h : handleDigit s = .ok s1) :
    HandlerPost s s1 := by
  unfold handleDigit at h
  obtain ⟨s2, hn, h⟩ := pyBind_eq_ok h
  obtain ⟨s3, hloop, h⟩ := pyBind_eq_ok h
  have hsc3 : Scan s s3 := scan_trans (scan_trans mark_scan (nextOne_scan hn))
    (digitLoop_scanRes (fuelFor s2) true true s2 _ hloop)
  rcases pyDecimal_alt (markedChars s3) with hd | hd
  · rw [hd] at h
    rw [← Except.ok.inj h]
    exact handlerPost_add _ _ hS hsc3 (by decide) (fun hh => absurd hh (by decide))
  · rw [hd] at h
    exact Except.noConfusion h

theorem handleEqual_post {s s1 : TState} (hS : StInv s) (h : handleEqual s = .ok s1) :
    HandlerPost s s1 := by
  unfold handleEqual at h
  obtain ⟨s2, hn, h⟩ := pyBind_eq_ok h
  rw [← Except.ok.inj h]
  exact handlerPost_add _ _ hS (nextOne_scan hn) (by decide) (fun hh => absurd hh (by decide))

theorem handleGreater_post {s s1 : TState} (hS : StInv s) (h : handleGreater s = .ok s1) :
    HandlerPost s s1 := by
  unfold handleGreater at h
  obtain ⟨s2, hn, h⟩ := pyBind_eq_ok h
  split at h
  · obtain ⟨s3, hn2, h⟩ := pyBind_eq_ok h
    rw [← Except.ok.inj h]
    exact handlerPost_add _ _ hS (scan_trans (nextOne_scan hn) (nextOne_scan hn2))
      (by decide) (fun hh => absurd hh (by decide))
  · rw [← Except.ok.inj h]
    exact handlerPost_add _ _ hS (nextOne_scan hn) (by decide) (fun hh => absurd hh (by decide))

theorem handleIdent_post {cfg : Cfg} {s s1 : TState} (hS : StInv s)
    (h : handleIdent cfg s = .ok s1) : HandlerPost s s1 := by
  unfold handleIdent at h
  obtain ⟨s2, hn, h⟩ := pyBind_eq_ok h
  obtain ⟨s3, hloop, h⟩ := pyBind_eq_ok h
  have hsl := identLoop_scanRes cfg.identchars (fuelFor s2) s2
  rw [hloop] at hsl
  have hsc3 : Scan s s3 := scan_trans (scan_trans mark_scan (nextOne_scan hn)) hsl
  split at h
  · obtain ⟨s4, hn2, h⟩ := pyBind_eq_ok h
    rw [← Except.ok.inj h]
    exact handlerPost_add _ _ hS (scan_trans hsc3 (nextOne_scan hn2)) (by decide)
      (fun hh => absurd hh (by decide))
  · split at h
    · rw [← Except.ok.inj h]
      exact handlerPost_add _ _ hS hsc3 (by decide) (fun hh => absurd hh (by decide))
    · rw [← Except.ok.inj h]
      exact handlerPost_add _ _ hS hsc3 (by decide) (fun hh => absurd hh (by decide))

theorem handleLess_post {s s1 : TState} (hS : StInv s) (h : handleLess s = .ok s1) :
    HandlerPost s s1 := by
  unfold handleLess at h
  obtain ⟨s2, hn, h⟩ := pyBind_eq_ok h
  split at h
  · obtain ⟨s3, hn2, h⟩ := pyBind_eq_ok h
    rw [← Except.ok.inj h]
    exact handlerPost_add _ _ hS (scan_trans (nextOne_scan hn) (nextOne_scan hn2))
      (by decide) (fun hh => absurd hh (by decide))
  · split at h
    · obtain ⟨s3, hn2, h⟩ := pyBind_eq_ok h
      rw [← Except.ok.inj h]
      exact handlerPost_add _ _ hS (scan_trans (nextOne_scan hn) (nextOne_scan hn2))
        (by decide) (fun hh => absurd hh (by decide))
    · rw [← Except.ok.inj h]
      exact handlerPost_add _ _ hS (nextOne_scan hn) (by decide)
        (fun hh => absurd hh (by decide))

theorem handleMinus_post {cfg : Cfg} {s s1 : TState} (hS : StInv s)
    (h : handleMinus cfg s = .ok s1) : HandlerPost s s1 := by
  unfold handleMinus at h
  obtain ⟨s2, hn, h⟩ := pyBind_eq_ok h
  split at h
  · obtain ⟨s3, hn2, h⟩ := pyBind_eq_ok h
    obtain ⟨s4, hloop, h⟩ := pyBind_eq_ok h
    obtain ⟨s5, hn3, h⟩ := pyBind_eq_ok h
    have hl := lineCommentLoop_scanRes (fuelFor (mark s3)) (mark s3)
    rw [hloop] at hl
    rw [← Except.ok.inj h]
    exact handlerPost_add _ _ hS
      (scan_trans (nextOne_scan hn) (scan_trans (nextOne_scan hn2)
        (scan_trans mark_scan (scan_trans hl (nextOne_scan hn3)))))
      (by decide) (fun hh => absurd hh (by decide))
  · rw [← Except.ok.inj h]
    exact handlerPost_add _ _ hS (nextOne_scan hn) (by decide) (fun hh => absurd hh (by decide))

theorem handleOpenParens_post {s s1 : TState} (hS : StInv s)
    (h : handleOpenParens s = .ok s1) : HandlerPost s s1 := by
  unfold handleOpenParens at h
  obtain ⟨s2, hn, h⟩ := pyBind_eq_ok h
  rw [← Except.ok.inj h]
  exact handlerPost_add _ _ hS (nextOne_scan hn) (by decide) (fun hh => absurd hh (by decide))

theorem handlePeriod_post {s s1 : TState} (hS : StInv s) (h : handlePeriod s = .ok s1) :
    HandlerPost s s1 := by
  unfold handlePeriod at h
  split at h
  · exact handleDigit_post hS h
  · obtain ⟨s2, hn, h⟩ := pyBind_eq_ok h
    rw [← Except.ok.inj h]
    exact handlerPost_add _ _ hS (nextOne_scan hn) (by decide) (fun hh => absurd hh (by decide))

theorem handlePlus_post {s s1 : TState} (hS : StInv s) (h : handlePlus s = .ok s1) :
    HandlerPost s s1 := by
  unfold handlePlus at h
  obtain ⟨s2, hn, h⟩ := pyBind_eq_ok h
  rw [← Except.ok.inj h]
  exact handlerPost_add _ _ hS (nextOne_scan hn) (by decide) (fun hh => absurd hh (by decide))

theorem handleQuestion_post {s s1 : TState} (hS : StInv s) (h : handleQuestion s = .ok s1) :
    HandlerPost s s1 := by
  unfold handleQuestion at h
  obtain ⟨s2, hn, h⟩ := pyBind_eq_ok h
  rw [← Except.ok.inj h]
  exact handlerPost_add _ _ hS (nextOne_scan hn) (by decide) (fun hh => absurd hh (by decide))

theorem handleQuote_post {s s1 : TState} (hS : StInv s) (h : handleQuote s = .ok s1) :
    HandlerPost s s1 := by
  unfold handleQuote at h
  rcases pyCatchVE_eq_ok h with ⟨m, se, hve, hg⟩ | hok
  · rw [← Except.ok.inj hg]
    rcases pyBindPair_cases hve with ⟨e0, hex, hxx⟩ | ⟨c, s3, hex, hxx⟩
    · have he0 : e0 = (.valueError m, se) := (Except.error.inj hxx).symm
      rw [he0] at hex
      exact handlerPost_add _ _ hS (extractString_scan.2 _ se hex) (by decide)
        (fun hh => absurd hh (by decide))
    · exfalso
      split at hxx
      · rcases pyBind_cases hxx with ⟨e2, hne, hee⟩ | ⟨s4, _, hoo⟩
        · have he2 : e2 = (.valueError m, se) := (Except.error.inj hee).symm
          have := nextOne_err hne
          rw [he2] at this
          exact PyExc.noConfusion this
        · exact Except.noConfusion hoo
      · exact Except.noConfusion hxx
  · obtain ⟨ident, s2, hex, h2⟩ := pyBindPair_eq_ok hok
    have hsc2 : Scan s s2 := extractString_scan.1 ident s2 hex
    split at h2
    · obtain ⟨s3, hn2, h3⟩ := pyBind_eq_ok h2
      rw [← Except.ok.inj h3]
      exact handlerPost_add _ _ hS (scan_trans hsc2 (nextOne_scan hn2)) (by decide)
        (fun hh => absurd hh (by decide))
    · rw [← Except.ok.inj h2]
      exact handlerPost_add _ _ hS hsc2 (by decide) (fun hh => absurd hh (by decide))

theorem handleSemicolon_post {s s1 : TState} (hS : StInv s) (h : handleSemicolon s = .ok s1) :
    HandlerPost s s1 := by
  unfold handleSemicolon at h
  obtain ⟨s2, hn, h⟩ := pyBind_eq_ok h
  rw [← Except.ok.inj h]
  exact handlerPost_add _ _ hS (nextOne_scan hn) (by decide) (fun hh => absurd hh (by decide))

theorem handleSlash_post {cfg : Cfg} {s s1 : TState} (hS : StInv s)
    (h : handleSlash cfg s = .ok s1) : HandlerPost s s1 := by
  unfold handleSlash at h
  obtain ⟨s2, hn, h⟩ := pyBind_eq_ok h
  split at h
  · obtain ⟨s3, hn2, h⟩ := pyBind_eq_ok h
    obtain ⟨s4, hloop, h⟩ := pyBind_eq_ok h
    have hl := lineCommentLoop_scanRes (fuelFor (mark s3)) (mark s3)
    rw [hloop] at hl
    rw [← Except.ok.inj h]
    exact handlerPost_add _ _ hS
      (scan_trans (nextOne_scan hn) (scan_trans (nextOne_scan hn2)
        (scan_trans mark_scan hl)))
      (by decide) (fun hh => absurd hh (by decide))
  · split at h
    · obtain ⟨s3, hn2, h⟩ := pyBind_eq_ok h
      have hsc3 : Scan s (mark s3) :=
        scan_trans (nextOne_scan hn) (scan_trans (nextOne_scan hn2) mark_scan)
      rcases pyCatchVE_eq_ok h with ⟨m, se, hve, hg⟩ | hok
      · rw [← Except.ok.inj hg]
        exact handlerPost_add _ _ hS
          (scan_trans hsc3 (cCommentLoop_scanErr (fuelFor (mark s3)) (mark s3) se _ hve))
          (by decide) (fun hh => absurd hh (by decide))
      · have hle3 : (mark s3).index ≤ (mark s3).src.length := by
          have h1 := hsc3.2.2.2.2.2.2.1 hS.2.1
          have h2 := hsc3.1
          show s3.index ≤ s3.src.length
          rw [show s3.src = s.src from h2]
          exact h1
        obtain ⟨sM, sM2, hscM, hn2b, hadd⟩ :=
          cCommentLoop_ok (fuelFor (mark s3)) (mark s3) s1 hle3 le_rfl hok
        have hscM2 : Scan s sM2 := by
          have hnn := nextN_scanRes 2 sM
          rw [hn2b] at hnn
          exact scan_trans hsc3 (scan_trans hscM hnn)
        rw [hadd]
        exact handlerPost_add _ _ hS hscM2 (by decide) (fun hh => absurd hh (by decide))
    · rw [← Except.ok.inj h]
      exact handlerPost_add _ _ hS (nextOne_scan hn) (by decide)
        (fun hh => absurd hh (by decide))

theorem handleSpace_post {s s1 : TState} (hS : StInv s) (h : handleSpace s = .ok s1) :
    HandlerPost s s1 := by
  unfold handleSpace at h
  obtain ⟨s2, hloop, h⟩ := pyBind_eq_ok h
  have hsl := spaceLoop_scanRes (fuelFor s) s
  rw [hloop] at hsl
  rw [← Except.ok.inj h]
  exact handlerPost_add _ _ hS hsl (by decide) (fun _ => spaceLoop_shape (fuelFor s) s s2 hloop)

theorem symJump_isBase {c : Char} {h : BH} (hj : symJump c = some h) : isBaseTag h := by
  unfold symJump at hj
  by_cases h1 : c = '('
  · rw [if_pos h1] at hj
    injection hj with hj
    rw [← hj]
    trivial
  · rw [if_neg h1] at hj
    by_cases h2 : c = ')'
    · rw [if_pos h2] at hj
      injection hj with hj
      rw [← hj]
      trivial
    · rw [if_neg h2] at hj
      by_cases h3 : c = '+'
      · rw [if_pos h3] at hj
        injection hj with hj
        rw [← hj]
        trivial
      · rw [if_neg h3] at hj
        by_cases h4 : c = '-'
        · rw [if_pos h4] at hj
          injection hj with hj
          rw [← hj]
          trivial
        · rw [if_neg h4] at hj
          by_cases h5 : c = '*'
          · rw [if_pos h5] at hj
            injection hj with hj
            rw [← hj]
            trivial
          · rw [if_neg h5] at hj
            by_cases h6 : c = '/'
            · rw [if_pos h6] at hj
              injection hj with hj
              rw [← hj]
              trivial
            · rw [if_neg h6] at hj
              by_cases h7 : c = '.'
              · rw [if_pos h7] at hj
                injection hj with hj
                rw [← hj]
                trivial
              · rw [if_neg h7] at hj
                by_cases h8 : c = ','
                · rw [if_pos h8] at hj
                  injection hj with hj
                  rw [← hj]
                  trivial
                · rw [if_neg h8] at hj
                  by_cases h9 : c = ':'
                  · rw [if_pos h9] at hj
                    injection hj with hj
                    rw [← hj]
                    trivial
                  · rw [if_neg h9] at hj
                    by_cases h10 : c = '?'
                    · rw [if_pos h10] at hj
                      injection hj with hj
                      rw [← hj]
                      trivial
                    · rw [if_neg h10] at hj
                      by_cases h11 : c = '<'
                      · rw [if_pos h11] at hj
                        injection hj with hj
                        rw [← hj]
                        trivial
                      · rw [if_neg h11] at hj
                        by_cases h12 : c = '='
                        · rw [if_pos h12] at hj
                          injection hj with hj
                          rw [← hj]
                          trivial
                        · rw [if_neg h12] at hj
                          by_cases h13 : c = '>'
                          · rw [if_pos h13] at hj
                            injection hj with hj
                            rw [← hj]
                            trivial
                          · rw [if_neg h13] at hj
                            by_cases h14 : c = squote
                            · rw [if_pos h14] at hj
                              injection hj with hj
                              rw [← hj]
                              trivial
                            · rw [if_neg h14] at hj
                              by_cases h15 : c = '"'
                              · rw [if_pos h15] at hj
                                injection hj with hj
                                rw [← hj]
                                trivial
                              · rw [if_neg h15] at hj
                                by_cases h16 : c = '|'
                                · rw [if_pos h16] at hj
                                  injection hj with hj
                                  rw [← hj]
                                  trivial
                                · rw [if_neg h16] at hj
                                  by_cases h17 : c = ';'
                                  · rw [if_pos h17] at hj
                                    injection hj with hj
                                    rw [← hj]
                                    trivial
                                  · rw [if_neg h17] at hj
                                    exact Option.noConfusion hj

theorem baseJump_isBase {cfg : Cfg} {c : Char} {h : BH} (hj : baseJump cfg c = some h) :
    isBaseTag h := by
  unfold baseJump at hj
  cases hsym : symJump c with
  | some h2 =>
    rw [hsym] at hj
    injection hj with hj
    rw [← hj]
    exact symJump_isBase hsym
  | none =>
    rw [hsym] at hj
    split at hj
    · injection hj with hj
      rw [← hj]
      trivial
    · split at hj
      · injection hj with hj
        rw [← hj]
        trivial
      · split at hj
        · injection hj with hj
          rw [← hj]
          trivial
        · split at hj
          · injection hj with hj
            rw [← hj]
            trivial
          · exact Option.noConfusion hj

theorem execHandler_post {cfg : Cfg} {h : BH} {s s1 : TState} (hb : isBaseTag h)
    (hS : StInv s) (hx : execHandler .base cfg h s = .ok s1) : HandlerPost s s1 := by
  cases h with
  | space => exact handleSpace_post hS hx
  | ident => exact handleIdent_post hS hx
  | digit => exact handleDigit_post hS hx
  | openParens => exact handleOpenParens_post hS hx
  | closeParens => exact handleCloseParens_post hS hx
  | plus => exact handlePlus_post hS hx
  | minus => exact handleMinus_post hS hx
  | asterisk => exact handleAsterisk_post hS hx
  | slash => exact handleSlash_post hS hx
  | period => exact handlePeriod_post hS hx
  | comma => exact handleComma_post hS hx
  | colon => exact handleColon_post hS hx
  | question => exact handleQuestion_post hS hx
  | less => exact handleLess_post hS hx
  | equal => exact handleEqual_post hS hx
  | greater => exact handleGreater_post hS hx
  | apos => exact handleApos_post hS hx
  | quote => exact handleQuote_post hS hx
  | bar => exact handleBar_post hS hx
  | semicolon => exact handleSemicolon_post hS hx
  | bangNot => exact hb.elim
  | hexstring => exact hb.elim
  | unistring => exact hb.elim
  | utf8string => exact hb.elim
  | openBracket => exact hb.elim
  | closeBracket => exact hb.elim
  | openBrace => exact hb.elim
  | closeBrace => exact hb.elim

theorem handleTerm_post {cfg : Cfg} {tc : TermCfg} {s s1 : TState}
    (hsv : ∀ hh, tc.savedh = some hh → isBaseTag hh) (hS : StInv s)
    (h : handleTerm .base cfg tc s = .ok s1) : HandlerPost s s1 := by
  unfold handleTerm at h
  split at h
  · obtain ⟨s2, hn, h⟩ := pyBind_eq_ok h
    rw [← Except.ok.inj h]
    refine handlerPost_add _ _ hS ?_ (by decide) (fun hh => absurd hh (by decide))
    have hnn := nextN_scanRes tc.term.length s
    rw [hn] at hnn
    exact hnn
  · cases hsc : tc.savedh with
    | some hh =>
      rw [hsc] at h
      exact execHandler_post (hsv hh hsc) hS h
    | none =>
      rw [hsc] at h
      rw [← Except.ok.inj h]
      exact handlerPost_id hS

/-- One successful iteration of the main loop satisfies the handler
postcondition (base dialect, terminator installed by `setTerminator`). -/
theorem stepState_post {cfg : Cfg} {tc : TermCfg} {s s1 : TState}
    (hsv : ∀ hh, tc.savedh = some hh → isBaseTag hh) (hS : StInv s)
    (h : stepState .base cfg tc s = .ok s1) : HandlerPost s s1 := by
  unfold stepState at h
  split at h
  · exact handleTerm_post hsv hS h
  · cases hj : jumpOf .base cfg (getChar s) with
    | some hh =>
      rw [hj] at h
      exact execHandler_post (baseJump_isBase hj) hS h
    | none =>
      rw [hj] at h
      exact handleDefault_post hS h

theorem symJump_ne_space {c : Char} {h : BH} (hj : symJump c = some h) : h ≠ BH.space := by
  unfold symJump at hj
  by_cases h1 : c = '('
  · rw [if_pos h1] at hj
    injection hj with hj
    exact fun hcon => BH.noConfusion (hj.trans hcon)
  · rw [if_neg h1] at hj
    by_cases h2 : c = ')'
    · rw [if_pos h2] at hj
      injection hj with hj
      exact fun hcon => BH.noConfusion (hj.trans hcon)
    · rw [if_neg h2] at hj
      by_cases h3 : c = '+'
      · rw [if_pos h3] at hj
        injection hj with hj
        exact fun hcon => BH.noConfusion (hj.trans hcon)
      · rw [if_neg h3] at hj
        by_cases h4 : c = '-'
        · rw [if_pos h4] at hj
          injection hj with hj
          exact fun hcon => BH.noConfusion (hj.trans hcon)
        · rw [if_neg h4] at hj
          by_cases h5 : c = '*'
          · rw [if_pos h5] at hj
            injection hj with hj
            exact fun hcon => BH.noConfusion (hj.trans hcon)
          · rw [if_neg h5] at hj
            by_cases h6 : c = '/'
            · rw [if_pos h6] at hj
              injection hj with hj
              exact fun hcon => BH.noConfusion (hj.trans hcon)
            · rw [if_neg h6] at hj
              by_cases h7 : c = '.'
              · rw [if_pos h7] at hj
                injection hj with hj
                exact fun hcon => BH.noConfusion (hj.trans hcon)
              · rw [if_neg h7] at hj
                by_cases h8 : c = ','
                · rw [if_pos h8] at hj
                  injection hj with hj
                  exact fun hcon => BH.noConfusion (hj.trans hcon)
                · rw [if_neg h8] at hj
                  by_cases h9 : c = ':'
                  · rw [if_pos h9] at hj
                    injection hj with hj
                    exact fun hcon => BH.noConfusion (hj.trans hcon)
                  · rw [if_neg h9] at hj
                    by_cases h10 : c = '?'
                    · rw [if_pos h10] at hj
                      injection hj with hj
                      exact fun hcon => BH.noConfusion (hj.trans hcon)
                    · rw [if_neg h10] at hj
                      by_cases h11 : c = '<'
                      · rw [if_pos h11] at hj
                        injection hj with hj
                        exact fun hcon => BH.noConfusion (hj.trans hcon)
                      · rw [if_neg h11] at hj
                        by_cases h12 : c = '='
                        · rw [if_pos h12] at hj
                          injection hj with hj
                          exact fun hcon => BH.noConfusion (hj.trans hcon)
                        · rw [if_neg h12] at hj
                          by_cases h13 : c = '>'
                          · rw [if_pos h13] at hj
                            injection hj with hj
                            exact fun hcon => BH.noConfusion (hj.trans hcon)
                          · rw [if_neg h13] at hj
                            by_cases h14 : c = squote
                            · rw [if_pos h14] at hj
                              injection hj with hj
                              exact fun hcon => BH.noConfusion (hj.trans hcon)
                            · rw [if_neg h14] at hj
                              by_cases h15 : c = '"'
                              · rw [if_pos h15] at hj
                                injection hj with hj
                                exact fun hcon => BH.noConfusion (hj.trans hcon)
                              · rw [if_neg h15] at hj
                                by_cases h16 : c = '|'
                                · rw [if_pos h16] at hj
                                  injection hj with hj
                                  exact fun hcon => BH.noConfusion (hj.trans hcon)
                                · rw [if_neg h16] at hj
                                  by_cases h17 : c = ';'
                                  · rw [if_pos h17] at hj
                                    injection hj with hj
                                    exact fun hcon => BH.noConfusion (hj.trans hcon)
                                  · rw [if_neg h17] at hj
                                    exact Option.noConfusion hj

theorem baseJump_space {cfg : Cfg} {c : Char} (hj : baseJump cfg c = some BH.space) :
    c ∈ spacechars := by
  unfold baseJump at hj
  cases hsym : symJump c with
  | some h2 =>
    rw [hsym] at hj
    injection hj with hj
    exact absurd hj (symJump_ne_space hsym)
  | none =>
    rw [hsym] at hj
    have hj2 : (if c ∈ digitChars then some BH.digit
        else if c ∈ cfg.identchars then some BH.ident
        else if c ∈ spacechars then some BH.space else none) = some BH.space := hj
    by_cases hd : c ∈ digitChars
    · rw [if_pos hd] at hj2
      exact absurd (Option.some.inj hj2) (by decide)
    · rw [if_neg hd] at hj2
      by_cases hi : c ∈ cfg.identchars
      · rw [if_pos hi] at hj2
        exact absurd (Option.some.inj hj2) (by decide)
      · rw [if_neg hi] at hj2
        by_cases hs : c ∈ spacechars
        · exact hs
        · rw [if_neg hs] at hj2
          exact Option.noConfusion hj2

theorem cCommentLoop_le : ∀ (fuel : Nat) (s s1 : TState),
    cCommentLoop fuel s = .ok s1 → s.index ≤ s1.index := by
  intro fuel
  induction fuel with
  | zero =>
    intro s s1 h
    rw [Except.ok.inj h]
  | succ f ih =>
    intro s s1 h
    unfold cCommentLoop at h
    split at h
    · exact Except.noConfusion h
    · split at h
      · obtain ⟨s2, hn, h⟩ := pyBind_eq_ok h
        rw [← Except.ok.inj h]
        show s.index ≤ s2.index
        have hnn := nextN_scanRes 2 s
        rw [hn] at hnn
        exact hnn.2.2.2.2.2.1
      · obtain ⟨s2, hn, h⟩ := pyBind_eq_ok h
        have h12 := (nextOne_ok hn).2.2.2.2.2.2.1
        have h2 := ih s2 s1 h
        omega

theorem extractString_lt {multiline : Bool} {s : TState} {c : List Char} {s1 : TState}
    (h : extractString multiline s = .ok (c, s1)) : s.index < s1.index := by
  unfold extractString at h
  obtain ⟨s2, hn, h⟩ := pyBind_eq_ok h
  obtain ⟨s3, hl, h⟩ := pyBind_eq_ok h
  obtain ⟨s4, hn2, h⟩ := pyBind_eq_ok h
  have h4 : s4.index = s1.index := congrArg TState.index (congrArg Prod.snd (Except.ok.inj h))
  have hsl := extractLoop_scanRes multiline (getChar s) ((mark s2).tokenline)
    (fuelFor (mark s2)) 1 (mark s2) _ hl
  have h23 : s2.index ≤ s3.index := hsl.2.2.2.2.2.1
  have h12 := (nextOne_ok hn).2.2.2.2.2.2.1
  have h34 := (nextOne_ok hn2).2.2.2.2.2.2.1
  omega

theorem extractString_velt {multiline : Bool} {s se : TState} {m : List Char}
    (h : extractString multiline s = .error (.valueError m, se)) : s.index < se.index := by
  unfold extractString at h
  rcases pyBind_cases h with ⟨e0, hne, hee⟩ | ⟨s2, hn, h⟩
  · have he0 : e0 = (.valueError m, se) := (Except.error.inj hee).symm
    rw [he0] at hne
    exact PyExc.noConfusion (nextOne_err hne)
  · rcases pyBind_cases h with ⟨e0, hle, hee⟩ | ⟨s3, hl, h⟩
    · have he0 : e0 = (.valueError m, se) := (Except.error.inj hee).symm
      rw [he0] at hle
      have hsl := extractLoop_scanRes multiline (getChar s) ((mark s2).tokenline)
        (fuelFor (mark s2)) 1 (mark s2) _ hle
      have hse : s2.index ≤ se.index := hsl.2.2.2.2.2.1
      have h12 := (nextOne_ok hn).2.2.2.2.2.2.1
      omega
    · rcases pyBind_cases h with ⟨e0, hne2, hee⟩ | ⟨s4, _, hoo⟩
      · have he0 : e0 = (.valueError m, se) := (Except.error.inj hee).symm
        rw [he0] at hne2
        exact PyExc.noConfusion (nextOne_err hne2)
      · exact Except.noConfusion hoo

theorem spaceLoop_lt : ∀ (fuel : Nat) (s s1 : TState), 1 ≤ fuel →
    getChar s ∈ spacechars → spaceLoop fuel s = .ok s1 → s.index < s1.index := by
  intro fuel s s1 hf hc h
  match fuel, hf with
  | f + 1, _ =>
    unfold spaceLoop at h
    rw [if_pos hc] at h
    split at h
    · exact (nextOne_ok h).2.2.2.2.2.2.1
    · cases hn : nextOne s with
      | error e =>
        rw [hn] at h
        exact Except.noConfusion h
      | ok s2 =>
        rw [hn] at h
        have h2 : spaceLoop f s2 = .ok s1 := h
        have hsl := spaceLoop_scanRes f s2
        rw [h2] at hsl
        have hm : s2.index ≤ s1.index := hsl.2.2.2.2.2.1
        have h12 := (nextOne_ok hn).2.2.2.2.2.2.1
        omega

theorem handleAsterisk_lt {s s1 : TState} (h : handleAsterisk s = .ok s1) :
    s.index < s1.index := by
  unfold handleAsterisk at h
  obtain ⟨s2, hn, h⟩ := pyBind_eq_ok h
  rw [← Except.ok.inj h]
  exact (nextOne_ok hn).2.2.2.2.2.2.1

theorem handleCloseParens_lt {s s1 : TState} (h : handleCloseParens s = .ok s1) :
    s.index < s1.index := by
  unfold handleCloseParens at h
  obtain ⟨s2, hn, h⟩ := pyBind_eq_ok h
  rw [← Except.ok.inj h]
  exact (nextOne_ok hn).2.2.2.2.2.2.1

theorem handleComma_lt {s s1 : TState} (h : handleComma s = .ok s1) :
    s.index < s1.index := by
  unfold handleComma at h
  obtain ⟨s2, hn, h⟩ := pyBind_eq_ok h
  rw [← Except.ok.inj h]
  exact (nextOne_ok hn).2.2.2.2.2.2.1

theorem handleDefault_lt {s s1 : TState} (h : handleDefault s = .ok s1) :
    s.index < s1.index := by
  unfold handleDefault at h
  obtain ⟨s2, hn, h⟩ := pyBind_eq_ok h
  rw [← Except.ok.inj h]
  exact (nextOne_ok hn).2.2.2.2.2.2.1

theorem handleEqual_lt {s s1 : TState} (h : handleEqual s = .ok s1) :
    s.index < s1.index := by
  unfold handleEqual at h
  obtain ⟨s2, hn, h⟩ := pyBind_eq_ok h
  rw [← Except.ok.inj h]
  exact (nextOne_ok hn).2.2.2.2.2.2.1

theorem handleOpenParens_lt {s s1 : TState} (h : handleOpenParens s = .ok s1) :
    s.index < s1.index := by
  unfold handleOpenParens at h
  obtain ⟨s2, hn, h⟩ := pyBind_eq_ok h
  rw [← Except.ok.inj h]
  exact (nextOne_ok hn).2.2.2.2.2.2.1

theorem handlePlus_lt {s s1 : TState} (h : handlePlus s = .ok s1) :
    s.index < s1.index := by
  unfold handlePlus at h
  obtain ⟨s2, hn, h⟩ := pyBind_eq_ok h
  rw [← Except.ok.inj h]
  exact (nextOne_ok hn).2.2.2.2.2.2.1

theorem handleQuestion_lt {s s1 : TState} (h : handleQuestion s = .ok s1) :
    s.index < s1.index := by
  unfold handleQuestion at h
  obtain ⟨s2, hn, h⟩ := pyBind_eq_ok h
  rw [← Except.ok.inj h]
  exact (nextOne_ok hn).2.2.2.2.2.2.1

theorem handleSemicolon_lt {s s1 : TState} (h : handleSemicolon s = .ok s1) :
    s.index < s1.index := by
  unfold handleSemicolon at h
  obtain ⟨s2, hn, h⟩ := pyBind_eq_ok h
  rw [← Except.ok.inj h]
  exact (nextOne_ok hn).2.2.2.2.2.2.1

theorem handleApos_lt {cfg : Cfg} {s s1 : TState} (h : handleApos cfg s = .ok s1) :
    s.index < s1.index := by
  unfold handleApos at h
  rcases pyCatchVE_eq_ok h with ⟨m, se, hve, hg⟩ | hok
  · rw [← Except.ok.inj hg]
    rcases pyBindPair_cases hve with ⟨e0, hex, hxx⟩ | ⟨c, s2, hex, hxx⟩
    · have he0 : e0 = (.valueError m, se) := (Except.error.inj hxx).symm
      rw [he0] at hex
      show s.index < se.index
      exact extractString_velt hex
    · exact Except.noConfusion hxx
  · obtain ⟨content, s2, hex, hadd⟩ := pyBindPair_eq_ok hok
    rw [← Except.ok.inj hadd]
    show s.index < s2.index
    exact extractString_lt hex

theorem handleBar_lt {s s1 : TState} (h : handleBar s = .ok s1) : s.index < s1.index := by
  unfold handleBar at h
  obtain ⟨s2, hn, h⟩ := pyBind_eq_ok h
  have h12 := (nextOne_ok hn).2.2.2.2.2.2.1
  split at h
  · obtain ⟨s3, hn2, h⟩ := pyBind_eq_ok h
    have h23 := (nextOne_ok hn2).2.2.2.2.2.2.1
    rw [← Except.ok.inj h]
    show s.index < s3.index
    omega
  · rw [← Except.ok.inj h]
    exact h12

theorem handleColon_lt {cfg : Cfg} {s s1 : TState} (h : handleColon cfg s = .ok s1) :
    s.index < s1.index := by
  unfold handleColon at h
  obtain ⟨s2, hn, h⟩ := pyBind_eq_ok h
  have h12 := (nextOne_ok hn).2.2.2.2.2.2.1
  split at h
  · rcases pyCatchVE_eq_ok h with ⟨m, se, hve, hg⟩ | hok
    · rw [← Except.ok.inj hg]
      rcases pyBindPair_cases hve with ⟨e0, hex, hxx⟩ | ⟨c, s3, hex, hxx⟩
      · have he0 : e0 = (.valueError m, se) := (Except.error.inj hxx).symm
        rw [he0] at hex
        have h2e : s2.index ≤ se.index := ((extractString_scan).2 _ se hex).2.2.2.2.2.1
        show s.index < se.index
        omega
      · exact Except.noConfusion hxx
    · obtain ⟨content, s3, hex, hadd⟩ := pyBindPair_eq_ok hok
      rw [← Except.ok.inj hadd]
      have h23 : s2.index ≤ s3.index := ((extractString_scan).1 content s3 hex).2.2.2.2.2.1
      show s.index < s3.index
      omega
  · obtain ⟨s3, hloop, h⟩ := pyBind_eq_ok h
    rw [← Except.ok.inj h]
    have hsl := identLoop_scanRes cfg.identchars (fuelFor (mark s2)) (mark s2)
    rw [hloop] at hsl
    have h23 : s2.index ≤ s3.index := hsl.2.2.2.2.2.1
    show s.index < s3.index
    omega

theorem handleDigit_lt {s s1 : TState} (h : handleDigit s = .ok s1) :
    s.index < s1.index := by
  unfold handleDigit at h
  obtain ⟨s2, hn, h⟩ := pyBind_eq_ok h
  obtain ⟨s3, hloop, h⟩ := pyBind_eq_ok h
  have h12 : s.index < s2.index := (nextOne_ok hn).2.2.2.2.2.2.1
  have h23 : s2.index ≤ s3.index :=
    (digitLoop_scanRes (fuelFor s2) true true s2 _ hloop).2.2.2.2.2.1
  rcases pyDecimal_alt (markedChars s3) with hd | hd
  · rw [hd] at h
    rw [← Except.ok.inj h]
    show s.index < s3.index
    omega
  · rw [hd] at h
    exact Except.noConfusion h

theorem handleGreater_lt {s s1 : TState} (h : handleGreater s = .ok s1) :
    s.index < s1.index := by
  unfold handleGreater at h
  obtain ⟨s2, hn, h⟩ := pyBind_eq_ok h
  have h12 := (nextOne_ok hn).2.2.2.2.2.2.1
  split at h
  · obtain ⟨s3, hn2, h⟩ := pyBind_eq_ok h
    have h23 := (nextOne_ok hn2).2.2.2.2.2.2.1
    rw [← Except.ok.inj h]
    show s.index < s3.index
    omega
  · rw [← Except.ok.inj h]
    exact h12

theorem handleIdent_lt {cfg : Cfg} {s s1 : TState} (h : handleIdent cfg s = .ok s1) :
    s.index < s1.index := by
  unfold handleIdent at h
  obtain ⟨s2, hn, h⟩ := pyBind_eq_ok h
  obtain ⟨s3, hloop, h⟩ := pyBind_eq_ok h
  have h12 : s.index < s2.index := (nextOne_ok hn).2.2.2.2.2.2.1
  have hsl := identLoop_scanRes cfg.identchars (fuelFor s2) s2
  rw [hloop] at hsl
  have h23 : s2.index ≤ s3.index := hsl.2.2.2.2.2.1
  split at h
  · obtain ⟨s4, hn2, h⟩ := pyBind_eq_ok h
    have h34 := (nextOne_ok hn2).2.2.2.2.2.2.1
    rw [← Except.ok.inj h]
    show s.index < s4.index
    omega
  · split at h
    · rw [← Except.ok.inj h]
      show s.index < s3.index
      omega
    · rw [← Except.ok.inj h]
      show s.index < s3.index
      omega

theorem handleLess_lt {s s1 : TState} (h : handleLess s = .ok s1) : s.index < s1.index := by
  unfold handleLess at h
  obtain ⟨s2, hn, h⟩ := pyBind_eq_ok h
  have h12 := (nextOne_ok hn).2.2.2.2.2.2.1
  split at h
  · obtain ⟨s3, hn2, h⟩ := pyBind_eq_ok h
    have h23 := (nextOne_ok hn2).2.2.2.2.2.2.1
    rw [← Except.ok.inj h]
    show s.index < s3.index
    omega
  · split at h
    · obtain ⟨s3, hn2, h⟩ := pyBind_eq_ok h
      have h23 := (nextOne_ok hn2).2.2.2.2.2.2.1
      rw [← Except.ok.inj h]
      show s.index < s3.index
      omega
    · rw [← Except.ok.inj h]
      exact h12

theorem handleMinus_lt {cfg : Cfg} {s s1 : TState} (h : handleMinus cfg s = .ok s1) :
    s.index < s1.index := by
  unfold handleMinus at h
  obtain ⟨s2, hn, h⟩ := pyBind_eq_ok h
  have h12 := (nextOne_ok hn).2.2.2.2.2.2.1
  split at h
  · obtain ⟨s3, hn2, h⟩ := pyBind_eq_ok h
    obtain ⟨s4, hloop, h⟩ := pyBind_eq_ok h
    obtain ⟨s5, hn3, h⟩ := pyBind_eq_ok h
    have h23 := (nextOne_ok hn2).2.2.2.2.2.2.1
    have hl := lineCommentLoop_scanRes (fuelFor (mark s3)) (mark s3)
    rw [hloop] at hl
    have h34 : s3.index ≤ s4.index := hl.2.2.2.2.2.1
    have h45 := (nextOne_ok hn3).2.2.2.2.2.2.1
    rw [← Except.ok.inj h]
    show s.index < s5.index
    omega
  · rw [← Except.ok.inj h]
    exact h12

theorem handlePeriod_lt {s s1 : TState} (h : handlePeriod s = .ok s1) :
    s.index < s1.index := by
  unfold handlePeriod at h
  split at h
  · exact handleDigit_lt h
  · obtain ⟨s2, hn, h⟩ := pyBind_eq_ok h
    rw [← Except.ok.inj h]
    exact (nextOne_ok hn).2.2.2.2.2.2.1

theorem handleQuote_lt {s s1 : TState} (h : handleQuote s = .ok s1) : s.index < s1.index := by
  unfold handleQuote at h
  rcases pyCatchVE_eq_ok h with ⟨m, se, hve, hg⟩ | hok
  · rw [← Except.ok.inj hg]
    rcases pyBindPair_cases hve with ⟨e0, hex, hxx⟩ | ⟨c, s3, hex, hxx⟩
    · have he0 : e0 = (.valueError m, se) := (Except.error.inj hxx).symm
      rw [he0] at hex
      show s.index < se.index
      exact extractString_velt hex
    · exfalso
      split at hxx
      · rcases pyBind_cases hxx with ⟨e2, hne, hee⟩ | ⟨s4, _, hoo⟩
        · have he2 : e2 = (.valueError m, se) := (Except.error.inj hee).symm
          have hx2 := nextOne_err hne
          rw [he2] at hx2
          exact PyExc.noConfusion hx2
        · exact Except.noConfusion hoo
      · exact Except.noConfusion hxx
  · obtain ⟨ident, s2, hex, h2⟩ := pyBindPair_eq_ok hok
    have h12 : s.index < s2.index := extractString_lt hex
    split at h2
    · obtain ⟨s3, hn2, h3⟩ := pyBind_eq_ok h2
      have h23 := (nextOne_ok hn2).2.2.2.2.2.2.1
      rw [← Except.ok.inj h3]
      show s.index < s3.index
      omega
    · rw [← Except.ok.inj h2]
      exact h12

theorem handleSlash_lt {cfg : Cfg} {s s1 : TState} (h : handleSlash cfg s = .ok s1) :
    s.index < s1.index := by
  unfold handleSlash at h
  obtain ⟨s2, hn, h⟩ := pyBind_eq_ok h
  have h12 := (nextOne_ok hn).2.2.2.2.2.2.1
  split at h
  · obtain ⟨s3, hn2, h⟩ := pyBind_eq_ok h
    obtain ⟨s4, hloop, h⟩ := pyBind_eq_ok h
    have h23 := (nextOne_ok hn2).2.2.2.2.2.2.1
    have hl := lineCommentLoop_scanRes (fuelFor (mark s3)) (mark s3)
    rw [hloop] at hl
    have h34 : s3.index ≤ s4.index := hl.2.2.2.2.2.1
    rw [← Except.ok.inj h]
    show s.index < s4.index
    omega
  · split at h
    · obtain ⟨s3, hn2, h⟩ := pyBind_eq_ok h
      have h23 := (nextOne_ok hn2).2.2.2.2.2.2.1
      rcases pyCatchVE_eq_ok h with ⟨m, se, hve, hg⟩ | hok
      · rw [← Except.ok.inj hg]
        have hse : s3.index ≤ se.index :=
          (cCommentLoop_scanErr (fuelFor (mark s3)) (mark s3) se _ hve).2.2.2.2.2.1
        show s.index < se.index
        omega
      · have h34 : s3.index ≤ s1.index := cCommentLoop_le (fuelFor (mark s3)) (mark s3) s1 hok
        omega
    · rw [← Except.ok.inj h]
      exact h12

theorem handleSpace_lt {s s1 : TState} (hc : getChar s ∈ spacechars)
    (h : handleSpace s = .ok s1) : s.index < s1.index := by
  unfold handleSpace at h
  obtain ⟨s2, hloop, h⟩ := pyBind_eq_ok h
  have hnul : getChar s ≠ NUL := by
    intro he
    rw [he] at hc
    exact absurd hc (by decide)
  have hlt := getChar_ne_nul hnul
  have hfuel : 1 ≤ fuelFor s := by
    show 1 ≤ s.src.length + 1 - s.index
    omega
  have h12 := spaceLoop_lt (fuelFor s) s s2 hfuel hc hloop
  rw [← Except.ok.inj h]
  exact h12

theorem execHandler_lt {cfg : Cfg} {h : BH} {s s1 : TState} (hb : isBaseTag h)
    (hsp : h = .space → getChar s ∈ spacechars)
    (hx : execHandler .base cfg h s = .ok s1) : s.index < s1.index := by
  cases h with
  | space => exact handleSpace_lt (hsp rfl) hx
  | ident => exact handleIdent_lt hx
  | digit => exact handleDigit_lt hx
  | openParens => exact handleOpenParens_lt hx
  | closeParens => exact handleCloseParens_lt hx
  | plus => exact handlePlus_lt hx
  | minus => exact handleMinus_lt hx
  | asterisk => exact handleAsterisk_lt hx
  | slash => exact handleSlash_lt hx
  | period => exact handlePeriod_lt hx
  | comma => exact handleComma_lt hx
  | colon => exact handleColon_lt hx
  | question => exact handleQuestion_lt hx
  | less => exact handleLess_lt hx
  | equal => exact handleEqual_lt hx
  | greater => exact handleGreater_lt hx
  | apos => exact handleApos_lt hx
  | quote => exact handleQuote_lt hx
  | bar => exact handleBar_lt hx
  | semicolon => exact handleSemicolon_lt hx
  | bangNot => exact hb.elim
  | hexstring => exact hb.elim
  | unistring => exact hb.elim
  | utf8string => exact hb.elim
  | openBracket => exact hb.elim
  | closeBracket => exact hb.elim
  | openBrace => exact hb.elim
  | closeBrace => exact hb.elim

/-- One successful main-loop iteration advances the cursor, provided the
terminator is non-empty and its first character has a dispatch handler
(so the `_handle_terminator` fallback is never the silent no-op). -/
theorem stepState_lt {cfg : Cfg} {tc : TermCfg} {s s1 : TState}
    (hsv : tc.savedh = baseJump cfg (tc.term.headD NUL))
    (hsome : tc.savedh ≠ none) (hlen : 1 ≤ tc.term.length)
    (h : stepState .base cfg tc s = .ok s1) : s.index < s1.index := by
  unfold stepState at h
  split at h
  case isTrue hterm =>
    unfold handleTerm at h
    split at h
    · obtain ⟨s2, hn, h⟩ := pyBind_eq_ok h
      rw [← Except.ok.inj h]
      show s.index < s2.index
      exact nextN_progress hlen hn
    · cases hs : tc.savedh with
      | none => exact absurd hs hsome
      | some hh =>
        rw [hs] at h
        have hbj : baseJump cfg (tc.term.headD NUL) = some hh := hsv.symm.trans hs
        have hb : isBaseTag hh := baseJump_isBase hbj
        refine execHandler_lt hb (fun he => ?_) h
        rw [hterm]
        exact baseJump_space (he ▸ hbj)
  case isFalse =>
    cases hj : jumpOf .base cfg (getChar s) with
    | some hh =>
      rw [hj] at h
      exact execHandler_lt (baseJump_isBase hj) (fun he => baseJump_space (he ▸ hj)) h
    | none =>
      rw [hj] at h
      exact handleDefault_lt h

theorem joinSources_append (a b : List Token) :
    joinSources (a ++ b) = joinSources a ++ joinSources b := by
  unfold joinSources
  rw [List.map_append, List.flatten_append]

theorem advTokens_append (a b : List Token) (p : Nat × Nat) :
    advTokens (a ++ b) p = advTokens b (advTokens a p) := by
  unfold advTokens
  rw [List.foldl_append]

theorem posChain_append : ∀ (a b : List Token) (p : Nat × Nat), PosChain p a →
    PosChain (advTokens a p) b → PosChain p (a ++ b) := by
  intro a
  induction a with
  | nil => intro b p _ hb; exact hb
  | cons t rest ih =>
    intro b p ha hb
    obtain ⟨h1, h2⟩ := ha
    exact ⟨h1, ih b (advPos t.source p) h2 hb⟩

/-- One successful main-loop iteration preserves the full invariant. -/
theorem fullInv_step {cfg : Cfg} {tc : TermCfg} {s s1 : TState}
    (hsv : ∀ hh, tc.savedh = some hh → isBaseTag hh)
    (hF : FullInv s) (h : stepState .base cfg tc s = .ok s1) : FullInv s1 := by
  obtain ⟨hS, hT⟩ := hF
  obtain ⟨hsrc, hidx, hS1, new, htoks, hjoin, heof, hws, hcr, hchain, hadv⟩ :=
    stepState_post hsv hS h
  obtain ⟨hTj, hTe, hTw, hTc, hTp, hTa⟩ := hT
  refine ⟨hS1, ?_, ?_, ?_, ?_, ?_, ?_⟩
  · rw [htoks, joinSources_append, hTj, hjoin, hsrc]
    exact (take_append_slice s.src hidx).symm
  · intro t ht
    rcases List.mem_append.mp (htoks ▸ ht) with h1 | h2
    · exact hTe t h1
    · exact heof t h2
  · intro t ht hw
    rcases List.mem_append.mp (htoks ▸ ht) with h1 | h2
    · exact hTw t h1 hw
    · exact hws t h2 hw
  · intro hnl t ht
    rw [hsrc] at hnl
    rcases List.mem_append.mp (htoks ▸ ht) with h1 | h2
    · exact hTc hnl t h1
    · exact hcr hnl t h2
  · rw [htoks]
    refine posChain_append _ _ _ hTp ?_
    rw [hTa]
    exact hchain
  · rw [htoks, advTokens_append, hTa, hadv]

/-- A normal return of the main loop preserves the invariant, the source,
and stops exactly at a NUL reading position. -/
theorem runLoop_ok {cfg : Cfg} {tc : TermCfg}
    (hsv : ∀ hh, tc.savedh = some hh → isBaseTag hh) :
    ∀ (fuel : Nat) (s sf : TState), FullInv s →
    runLoop .base cfg tc fuel s = some (.ok sf) →
    FullInv sf ∧ sf.src = s.src ∧ getChar sf = NUL := by
  intro fuel
  induction fuel with
  | zero =>
    intro s sf _ h
    exact Option.noConfusion h
  | succ f ih =>
    intro s sf hF h
    unfold runLoop at h
    split at h
    case isTrue hg =>
      have h2 : s = sf := Except.ok.inj (Option.some.inj h)
      cases h2
      exact ⟨hF, rfl, hg⟩
    case isFalse hg =>
      cases hs : stepState .base cfg tc s with
      | error e =>
        rw [hs] at h
        exact Except.noConfusion (Option.some.inj h)
      | ok s2 =>
        rw [hs] at h
        have h2 : runLoop .base cfg tc f s2 = some (.ok sf) := h
        obtain ⟨hf3, hsrc3, hnul⟩ := ih s2 sf (fullInv_step hsv hF hs) h2
        have hsrc12 : s2.src = s.src := (stepState_post hsv hF.1 hs).1
        exact ⟨hf3, hsrc3.trans hsrc12, hnul⟩

/-- With a non-empty terminator whose first character has a dispatch
handler, `len(source) + 1 - index` iterations of fuel are always enough:
the loop cannot hang. -/
theorem runLoop_total {cfg : Cfg} {tc : TermCfg}
    (hsveq : tc.savedh = baseJump cfg (tc.term.headD NUL))
    (hsome : tc.savedh ≠ none) (hlen : 1 ≤ tc.term.length) :
    ∀ (fuel : Nat) (s : TState), StInv s → fuelFor s ≤ fuel →
    runLoop .base cfg tc fuel s ≠ none := by
  have hsv : ∀ hh, tc.savedh = some hh → isBaseTag hh :=
    fun hh hhh => baseJump_isBase (hsveq.symm.trans hhh)
  intro fuel
  induction fuel with
  | zero =>
    intro s hS hf hcon
    have hidx : s.index ≤ s.src.length := hS.2.1
    have hf2 : s.src.length + 1 - s.index ≤ 0 := hf
    omega
  | succ f ih =>
    intro s hS hf hcon
    unfold runLoop at hcon
    split at hcon
    · exact Option.noConfusion hcon
    case isFalse hg =>
      cases hs : stepState .base cfg tc s with
      | error e =>
        rw [hs] at hcon
        exact Option.noConfusion hcon
      | ok s2 =>
        rw [hs] at hcon
        have hcon2 : runLoop .base cfg tc f s2 = none := hcon
        have hP := stepState_post hsv hS hs
        refine ih s2 hP.2.2.1 ?_ hcon2
        have hlt := stepState_lt hsveq hsome hlen hs
        have hsrc : s2.src = s.src := hP.1
        have h1 : s.index < s.src.length := getChar_ne_nul hg
        have hff : s.src.length + 1 - s.index ≤ f + 1 := hf
        show s2.src.length + 1 - s2.index ≤ f
        rw [hsrc]
        omega

/-- The reset state at the top of `parse` satisfies the invariant. -/
theorem initState_fullInv (sql : List Char) : FullInv (initState sql) := by
  refine ⟨⟨rfl, Nat.zero_le _, rfl, rfl, Nat.le_refl 0, rfl, ?_⟩,
    rfl, ?_, ?_, ?_, trivial, rfl⟩
  · exact fun j hj => absurd (show (0 : Nat) = j + 1 from hj) (by omega)
  · exact fun t ht => absurd ht (List.not_mem_nil t)
  · exact fun t ht _ => absurd ht (List.not_mem_nil t)
  · exact fun _ t ht => absurd ht (List.not_mem_nil t)

/-- The saved handler installed by `_set_terminator` is the base table
entry for the (folded) terminator's first character. -/
theorem setTerminator_savedh {cfg : Cfg} {term : List Char} {tc : TermCfg}
    (hst : setTerminator .base cfg term = .ok tc) :
    tc.savedh = baseJump cfg (tc.term.headD NUL) := by
  unfold setTerminator at hst
  split at hst
  · exact Except.noConfusion hst
  · have h2 := Except.ok.inj hst
    rw [← h2]
    rfl

/-- The terminator accepted by `_set_terminator` is never empty. -/
theorem setTerminator_len {cfg : Cfg} {term : List Char} {tc : TermCfg}
    (hst : setTerminator .base cfg term = .ok tc) : 1 ≤ tc.term.length := by
  unfold setTerminator at hst
  split at hst
  case isTrue => exact Except.noConfusion hst
  case isFalse hne =>
    have h2 := Except.ok.inj hst
    rw [← h2]
    show 1 ≤ (if term = ['\r', '\n'] ∨ term = ['\r'] then ['\n'] else term).length
    split
    · exact Nat.le_refl 1
    · cases hterm : term with
      | nil => exact absurd hterm hne
      | cons c r =>
        show 1 ≤ r.length + 1
        omega

/-- Anatomy of a normal `parse` return: a final loop state satisfying the
full invariant, read off at a NUL position, with the EOF token appended
and the optional line-splitting pass applied. -/
theorem parse_ok_final {cfg : Cfg} {sql term : List Char} {ls : Bool} {fuel : Nat}
    {ts : List Token} (h : parse .base cfg sql term ls fuel = some (.ok ts)) :
    ∃ sf : TState, FullInv sf ∧ sf.src = sql ∧ getChar sf = NUL ∧
      ts = (if ls then lineSplit (addToken .eof .vnone sf).tokens
            else (addToken .eof .vnone sf).tokens) := by
  unfold parse at h
  cases hst : setTerminator .base cfg term with
  | error e =>
    rw [hst] at h
    exact Except.noConfusion (Option.some.inj h)
  | ok tc =>
    rw [hst] at h
    have hsv : ∀ hh, tc.savedh = some hh → isBaseTag hh :=
      fun hh hhh => baseJump_isBase ((setTerminator_savedh hst).symm.trans hhh)
    have h3 : (match runLoop .base cfg tc fuel (initState sql) with
        | none => (none : Option (Except PyExc (List Token)))
        | some (.error (e, _)) => some (.error e)
        | some (.ok s) => some (.ok (if ls then lineSplit (addToken .eof .vnone s).tokens
            else (addToken .eof .vnone s).tokens))) = some (.ok ts) := h
    cases hrl : runLoop .base cfg tc fuel (initState sql) with
    | none =>
      rw [hrl] at h3
      exact Option.noConfusion h3
    | some r =>
      rw [hrl] at h3
      match r, h3 with
      | .error (e, se), h3 => exact Except.noConfusion (Option.some.inj h3)
      | .ok sf, h3 =>
        obtain ⟨hF, hsrc, hnul⟩ :=
          runLoop_ok hsv fuel (initState sql) sf (initState_fullInv sql) hrl
        have h2 : (some (Except.ok
            (if ls then lineSplit (addToken .eof .vnone sf).tokens
             else (addToken .eof .vnone sf).tokens)) :
            Option (Except PyExc (List Token))) = some (.ok ts) := h3
        exact ⟨sf, hF, hsrc, hnul, (Except.ok.inj (Option.some.inj h2)).symm⟩

/-! ### The line-splitting pass: generic facts -/

theorem joinSources_cons (t : Token) (l : List Token) :
    joinSources (t :: l) = t.source ++ joinSources l := by
  unfold joinSources
  rw [List.map_cons, List.flatten_cons]

theorem joinSources_single (t : Token) : joinSources [t] = t.source := by
  rw [joinSources_cons]
  show t.source ++ [] = t.source
  rw [List.append_nil]

/-- Splitting one token never changes the concatenated source, whatever
the fuel. -/
theorem splitTok_join : ∀ (fuel : Nat) (t : Token),
    joinSources (splitTok fuel t) = t.source := by
  intro fuel
  induction fuel with
  | zero => intro t; exact joinSources_single t
  | succ f ih =>
    intro t
    unfold splitTok
    split
    case isTrue hlf =>
      simp only [joinSources_cons, ih]
      exact List.take_append_drop _ _
    case isFalse => exact joinSources_single t

theorem splitTok_ttype : ∀ (fuel : Nat) (t u : Token), u ∈ splitTok fuel t →
    u.ttype = t.ttype := by
  intro fuel
  induction fuel with
  | zero =>
    intro t u hu
    rw [List.mem_singleton.mp hu]
  | succ f ih =>
    intro t u hu
    unfold splitTok at hu
    split at hu
    case isTrue hlf =>
      rcases List.mem_cons.mp hu with h1 | h2
      · rw [h1]
      · exact (ih _ u h2 : u.ttype = _)
    case isFalse => rw [List.mem_singleton.mp hu]

theorem splitTok_no_lf {t : Token} {fuel : Nat} (h : '\n' ∉ t.source) :
    splitTok fuel t = [t] := by
  cases fuel with
  | zero => rfl
  | succ f =>
    unfold splitTok
    rw [if_neg h]

theorem lineSplit_append (a b : List Token) :
    lineSplit (a ++ b) = lineSplit a ++ lineSplit b := by
  unfold lineSplit
  rw [List.map_append, List.flatten_append]

theorem lineSplit_cons (t : Token) (l : List Token) :
    lineSplit (t :: l) = splitTok (t.source.length + 1) t ++ lineSplit l := by
  unfold lineSplit
  rw [List.map_cons, List.flatten_cons]

theorem lineSplit_mem {u : Token} {l : List Token} (h : u ∈ lineSplit l) :
    ∃ t, t ∈ l ∧ u ∈ splitTok (t.source.length + 1) t := by
  unfold lineSplit at h
  rw [List.mem_flatten] at h
  obtain ⟨x, hx, hu⟩ := h
  rw [List.mem_map] at hx
  obtain ⟨t, ht, hfx⟩ := hx
  exact ⟨t, ht, hfx ▸ hu⟩

/-- The whole splitting pass preserves the concatenated source. -/
theorem lineSplit_join : ∀ (l : List Token), joinSources (lineSplit l) = joinSources l := by
  intro l
  induction l with
  | nil => rfl
  | cons t rest ih =>
    rw [lineSplit_cons, joinSources_append, splitTok_join, joinSources_cons, ih]

/-- C3 (code_bug evidence): for the claim's own example input `1E`,
`parse` does not return normally with an Error token — the
`decimal.InvalidOperation` raised by `Decimal('1E')` is not a
`ValueError`, so the `except ValueError` clause of `_handle_digit` misses
it and the exception escapes `parse`. -/
theorem c3_malformed_number_raises :
    parse .base cfg92 "1E".toList [';'] false 10 = some (.error .invalidOperation) ∧
    pyDecimal "1E".toList = .error .invalidOperation := by decide

/-- C5 counterexample: `parse(":myparam")` yields a Parameter token whose
value is the original-case `myparam`, not `MYPARAM` — `_handle_colon`
stores `self.markedchars` without the `.upper()` used by
`_handle_ident`. -/
theorem c5_counterexample :
    parse .base cfg92 ":myparam".toList [';'] false 20 =
      some (.ok [⟨.parameter, .vstr "myparam".toList, ":myparam".toList, 1, 1⟩,
                 ⟨.eof, .vnone, [], 1, 9⟩]) ∧
    TValue.vstr "myparam".toList ≠ TValue.vstr "MYPARAM".toList := by decide

/-- C5 (amended): `parse(":myparam")` yields a Parameter token with value
`myparam` (case preserved from the source), and `parse("?")` yields a
Parameter token with value `None`. -/
theorem c5_amended_parameters :
    parse .base cfg92 ":myparam".toList [';'] false 20 =
      some (.ok [⟨.parameter, .vstr "myparam".toList, ":myparam".toList, 1, 1⟩,
                 ⟨.eof, .vnone, [], 1, 9⟩]) ∧
    parse .base cfg92 "?".toList [';'] false 5 =
      some (.ok [⟨.parameter, .vnone, "?".toList, 1, 1⟩,
                 ⟨.eof, .vnone, [], 1, 2⟩]) := by decide

/-- C6 counterexample: with `sql_comments` enabled,
`parse("-- comment\nSELECT")` does *not* produce
Comment("comment"), Whitespace, Keyword, EndOfInput: the comment value
keeps the leading space (only the `--` delimiter is stripped) and the
handler's final `_next()` folds the line break into the COMMENT token's
source, so no Whitespace token exists at all. -/
theorem c6_counterexample :
    parse .base cfg92 "-- comment\nSELECT".toList [';'] false 30 =
      some (.ok [⟨.comment, .vstr " comment".toList, "-- comment\n".toList, 1, 1⟩,
                 ⟨.keyword, .vstr "SELECT".toList, "SELECT".toList, 2, 1⟩,
                 ⟨.eof, .vnone, [], 2, 7⟩]) ∧
    TValue.vstr " comment".toList ≠ TValue.vstr "comment".toList ∧
    ([TType.comment, TType.keyword, TType.eof] ≠
      [TType.comment, TType.whitespace, TType.keyword, TType.eof]) := by decide

/-- C6 (amended): with `sql_comments` enabled,
`parse("-- comment\nSELECT")` yields exactly Comment with value
`" comment"` (the text after `--`, with the trailing line break consumed
into the comment's source), then Keyword("SELECT"), then EndOfInput; no
Whitespace token is emitted. -/
theorem c6_amended_comment :
    parse .base cfg92 "-- comment\nSELECT".toList [';'] false 30 =
      some (.ok [⟨.comment, .vstr " comment".toList, "-- comment\n".toList, 1, 1⟩,
                 ⟨.keyword, .vstr "SELECT".toList, "SELECT".toList, 2, 1⟩,
                 ⟨.eof, .vnone, [], 2, 7⟩]) := by decide

/-- C9: under the DB2-LUW dialect, `parse` on `x` `'48656C6C6F'` yields a
single String token whose value is `Hello` (the hex digits decoded
pairwise), followed only by the EndOfInput token. -/
theorem c9_luw_hexstring :
    parse .luw luwCfg ("x".toList ++ [squote] ++ "48656C6C6F".toList ++ [squote])
        [';'] false 30 =
      some (.ok
        [⟨.string, .vstr "Hello".toList,
          "x".toList ++ [squote] ++ "48656C6C6F".toList ++ [squote], 1, 1⟩,
         ⟨.eof, .vnone, [], 1, 14⟩]) := by decide

/-- C1 counterexample: the round-trip fails as universally stated — on
the one-character input NUL, `parse` returns normally with only the
EndOfInput token, whose empty source does not concatenate back to the
input (the main loop stops at the first NUL character). -/
theorem c1_counterexample :
    parse .base cfg92 [NUL] [';'] false 5 = some (.ok [⟨.eof, .vnone, [], 1, 1⟩]) ∧
    joinSources [⟨.eof, .vnone, [], 1, 1⟩] ≠ [NUL] := by decide

/-- C4 counterexample: with the terminator `@@` — whose first character
has no base dispatch entry, so `_savedhandler` is `None` — the input `@`
makes `_handle_terminator` return without advancing, and `parse` loops
forever: no amount of fuel makes it return. -/
theorem c4_counterexample :
    parseHangs .base cfg92 "@".toList "@@".toList false := by
  intro fuel
  have hterm : setTerminator .base cfg92 "@@".toList = .ok ⟨"@@".toList, none⟩ := by decide
  have hloop : ∀ f, runLoop .base cfg92 ⟨"@@".toList, none⟩ f (initState "@".toList) = none := by
    intro f
    induction f with
    | zero => rfl
    | succ n ih =>
      have hchar : ¬(getChar (initState "@".toList) = NUL) := by decide
      have hstep : stepState .base cfg92 ⟨"@@".toList, none⟩ (initState "@".toList) =
          .ok (initState "@".toList) := by decide
      simp only [runLoop, hchar, if_false, hstep, ih]
  simp only [parse, hterm, hloop]

/-- C8: an empty terminator is rejected with the configuration
`ValueError` by the `terminator` property setter, synchronously — `parse`
fails for every input, split mode and fuel (including fuel 0, i.e.
before the scanning loop could run at all) — while every non-empty
terminator is accepted by the setter. -/
theorem c8_empty_terminator :
    (∀ d cfg sql ls fuel,
      parse d cfg sql [] ls fuel = some (.error (.valueError msgTermEmpty))) ∧
    (∀ d cfg t, t ≠ [] → ∃ tc, setTerminator d cfg t = .ok tc) := by
  refine ⟨fun d cfg sql ls fuel => ?_, fun d cfg t ht => ?_⟩
  · simp [parse, setTerminator]
  · simp only [setTerminator, if_neg ht]
    exact ⟨_, rfl⟩

/-- C8 witness: the theorem applied at an empty terminator with fuel 0
and at the default terminator. -/
theorem c8_witness :
    parse .base cfg92 "x".toList [] false 0 = some (.error (.valueError msgTermEmpty)) ∧
    ∃ tc, setTerminator .base cfg92 [';'] = .ok tc :=
  ⟨c8_empty_terminator.1 .base cfg92 "x".toList false 0,
   c8_empty_terminator.2 .base cfg92 [';'] (by decide)⟩

/-- C7 counterexample: on the multiline string literal `'a` CR `b'` the
`line_split=True` output keeps a single String token whose source
contains an *internal* lone-CR line break (the splitting loop only looks
for LF), and the second line of the input begins no token at column 1. -/
theorem c7_counterexample :
    parse .base cfg92 ([squote] ++ "a\rb".toList ++ [squote]) [';'] true 20 =
      some (.ok
        [⟨.string, .vstr "a\nb".toList, [squote] ++ "a\rb".toList ++ [squote], 1, 1⟩,
         ⟨.eof, .vnone, [], 2, 3⟩]) ∧
    noInternalBreakB ([squote] ++ "a\rb".toList ++ [squote]) = false ∧
    ¬(∃ t ∈ [(⟨.string, .vstr "a\nb".toList, [squote] ++ "a\rb".toList ++ [squote], 1, 1⟩ : Token),
              ⟨.eof, .vnone, [], 2, 3⟩], t.line = 2 ∧ t.column = 1) := by decide

/-- C1: for every NUL-free input and in both line-split modes, whenever
`parse` returns normally, concatenating the `source` of every returned
token reproduces the input exactly. -/
theorem c1_roundtrip {cfg : Cfg} {sql term : List Char} {ls : Bool} {fuel : Nat}
    {ts : List Token} (hnul : NUL ∉ sql)
    (h : parse .base cfg sql term ls fuel = some (.ok ts)) :
    joinSources ts = sql := by
  obtain ⟨sf, ⟨hS, hT⟩, hsrc, hchar, hts⟩ := parse_ok_final h
  have hle : sf.index ≤ sql.length := by
    have h0 := hS.2.1
    rw [hsrc] at h0
    exact h0
  have hidx : sf.index = sql.length := by
    rcases Nat.lt_or_ge sf.index sql.length with hlt | hge
    · exfalso
      apply hnul
      have hg : sf.src.getD sf.index NUL = NUL :=
        nrm_eq_nul.mp (getChar_eq_getD ▸ hchar)
      have hlt2 : sf.index < sf.src.length := by
        rw [hsrc]
        exact hlt
      have hm : sf.src.getD sf.index NUL ∈ sf.src := by
        rw [List.getD_eq_getElem?_getD, List.getElem?_eq_getElem hlt2]
        exact List.getElem_mem hlt2
      rw [hg, hsrc] at hm
      exact hm
    · omega
  have hjoin : joinSources (addToken .eof .vnone sf).tokens = sql := by
    have heq : (addToken .eof .vnone sf).tokens = sf.tokens ++
        [⟨.eof, .vnone, slice sf.src sf.tokenstart sf.index, sf.tokenline,
          sf.tokencolumn⟩] := rfl
    rw [heq, joinSources_append, joinSources_single]
    show _ ++ slice sf.src sf.tokenstart sf.index = sql
    rw [hS.1, slice_self]
    have hj1 := hT.1
    rw [hsrc] at hj1
    rw [hj1, hidx, List.take_length, List.append_nil]
  rw [hts]
  split
  · rw [lineSplit_join]
    exact hjoin
  · exact hjoin

/-- C1 witness: the round-trip theorem applied to the one-character input
`(` with the default terminator. -/
theorem c1_roundtrip_witness :
    NUL ∉ "(".toList ∧
    parse .base cfg92 "(".toList ";".toList false 5 =
      some (.ok [⟨.operator, .vstr ['('], ['('], 1, 1⟩, ⟨.eof, .vnone, [], 1, 2⟩]) ∧
    joinSources [(⟨.operator, .vstr ['('], ['('], 1, 1⟩ : Token), ⟨.eof, .vnone, [], 1, 2⟩] =
      "(".toList :=
  ⟨by decide, by decide,
   @c1_roundtrip cfg92 ("(".toList) (";".toList) false 5
     [⟨.operator, .vstr ['('], ['('], 1, 1⟩, ⟨.eof, .vnone, [], 1, 2⟩]
     (by decide) (by decide)⟩

/-- C2: whenever `parse` returns a token sequence (either line-split
mode), the sequence is non-empty, its last token is the EndOfInput token,
and no other EndOfInput token occurs in it. -/
theorem c2_eof_invariant {cfg : Cfg} {sql term : List Char} {ls : Bool} {fuel : Nat}
    {ts : List Token} (h : parse .base cfg sql term ls fuel = some (.ok ts)) :
    ts ≠ [] ∧ ts.getLast?.map Token.ttype = some .eof ∧
      (ts.map Token.ttype).count .eof = 1 := by
  obtain ⟨sf, ⟨hS, hT⟩, hsrc, hchar, hts⟩ := parse_ok_final h
  have htok : (addToken .eof .vnone sf).tokens = sf.tokens ++
      [⟨.eof, .vnone, slice sf.src sf.tokenstart sf.index, sf.tokenline,
        sf.tokencolumn⟩] := rfl
  have hshape : ∃ ts0 tl, ts = ts0 ++ [tl] ∧ tl.ttype = .eof ∧
      ∀ t ∈ ts0, t.ttype ≠ .eof := by
    rw [htok] at hts
    cases ls with
    | false =>
      have hts2 : ts = sf.tokens ++
          [⟨.eof, .vnone, slice sf.src sf.tokenstart sf.index, sf.tokenline,
            sf.tokencolumn⟩] := hts
      exact ⟨sf.tokens, _, hts2, rfl, hT.2.1⟩
    | true =>
      have hts2 : ts = lineSplit (sf.tokens ++
          [⟨.eof, .vnone, slice sf.src sf.tokenstart sf.index, sf.tokenline,
            sf.tokencolumn⟩]) := hts
      rw [lineSplit_append] at hts2
      have hE : ('\n' : Char) ∉ (⟨.eof, .vnone, slice sf.src sf.tokenstart sf.index,
          sf.tokenline, sf.tokencolumn⟩ : Token).source := by
        show ('\n' : Char) ∉ slice sf.src sf.tokenstart sf.index
        rw [hS.1, slice_self]
        exact List.not_mem_nil _
      have hsingle : lineSplit [(⟨.eof, .vnone, slice sf.src sf.tokenstart sf.index,
          sf.tokenline, sf.tokencolumn⟩ : Token)] =
          [⟨.eof, .vnone, slice sf.src sf.tokenstart sf.index, sf.tokenline,
            sf.tokencolumn⟩] := by
        rw [lineSplit_cons, splitTok_no_lf hE]
        rfl
      rw [hsingle] at hts2
      refine ⟨lineSplit sf.tokens, _, hts2, rfl, ?_⟩
      intro t ht
      obtain ⟨t0, ht0, hmem⟩ := lineSplit_mem ht
      have h3 := splitTok_ttype _ _ t hmem
      rw [h3]
      exact hT.2.1 t0 ht0
  obtain ⟨ts0, tl, hts0, htl, hne⟩ := hshape
  refine ⟨?_, ?_, ?_⟩
  · rw [hts0]
    intro hcon
    exact List.noConfusion (List.append_eq_nil.mp hcon).2
  · rw [hts0, List.getLast?_concat]
    show some tl.ttype = some TType.eof
    rw [htl]
  · rw [hts0, List.map_append, List.count_append]
    have h0 : (ts0.map Token.ttype).count TType.eof = 0 := by
      rw [List.count_eq_zero]
      intro hcon
      obtain ⟨t, ht, htt⟩ := List.mem_map.mp hcon
      exact hne t ht htt
    rw [h0, List.map_singleton]
    rw [htl]
    rfl

/-- C2 witness: the EOF invariant applied to the empty input with
`line_split=True`. -/
theorem c2_eof_invariant_witness :
    ([(⟨.eof, .vnone, [], 1, 1⟩ : Token)] ≠ []) ∧
    ([(⟨.eof, .vnone, [], 1, 1⟩ : Token)].getLast?.map Token.ttype = some .eof) ∧
    (([(⟨.eof, .vnone, [], 1, 1⟩ : Token)].map Token.ttype).count .eof = 1) :=
  @c2_eof_invariant cfg92 [] (";".toList) true 1 [⟨.eof, .vnone, [], 1, 1⟩] (by decide)

/-- C10: every WHITESPACE token emitted by a normal non-splitting `parse`
run has a source that is a run of blanks followed by at most one final
line break. -/
theorem c10_whitespace_shape {cfg : Cfg} {sql term : List Char} {fuel : Nat}
    {ts : List Token} (h : parse .base cfg sql term false fuel = some (.ok ts)) :
    ∀ t ∈ ts, t.ttype = .whitespace → wsShape t.source := by
  obtain ⟨sf, ⟨hS, hT⟩, hsrc, hchar, hts⟩ := parse_ok_final h
  intro t ht hw
  have hts2 : ts = sf.tokens ++
      [⟨.eof, .vnone, slice sf.src sf.tokenstart sf.index, sf.tokenline,
        sf.tokencolumn⟩] := hts
  rw [hts2] at ht
  rcases List.mem_append.mp ht with h1 | h2
  · exact hT.2.2.1 t h1 hw
  · rw [List.mem_singleton.mp h2] at hw
    exact absurd (show TType.eof = TType.whitespace from hw) (by decide)

/-- C10 witness: the whitespace-shape theorem applied to the first of the
two adjacent WHITESPACE tokens produced by the input of two LFs. -/
theorem c10_whitespace_shape_witness :
    parse .base cfg92 ['\n', '\n'] (";".toList) false 9 =
      some (.ok [⟨.whitespace, .vnone, ['\n'], 1, 1⟩,
                 ⟨.whitespace, .vnone, ['\n'], 2, 1⟩,
                 ⟨.eof, .vnone, [], 3, 1⟩]) ∧
    wsShape ['\n'] :=
  ⟨by decide,
   @c10_whitespace_shape cfg92 ['\n', '\n'] (";".toList) 9
     [⟨.whitespace, .vnone, ['\n'], 1, 1⟩, ⟨.whitespace, .vnone, ['\n'], 2, 1⟩,
      ⟨.eof, .vnone, [], 3, 1⟩]
     (by decide) ⟨.whitespace, .vnone, ['\n'], 1, 1⟩ (by decide) rfl⟩

/-- C4 (amended): with a non-empty terminator whose (folded) first
character has a base dispatch handler — equivalently, `_set_terminator`
saved a handler, so the `_handle_terminator` fallback is never the silent
no-op — `parse` finishes within `len(sql) + 1` iterations of its main
loop on every input, in every mode. -/
theorem c4_termination {cfg : Cfg} {sql term : List Char} {ls : Bool} {fuel : Nat}
    {tc : TermCfg} (hst : setTerminator .base cfg term = .ok tc)
    (hsome : tc.savedh ≠ none) (hfuel : sql.length + 1 ≤ fuel) :
    parse .base cfg sql term ls fuel ≠ none := by
  intro hcon
  unfold parse at hcon
  rw [hst] at hcon
  have h3 : (match runLoop .base cfg tc fuel (initState sql) with
      | none => (none : Option (Except PyExc (List Token)))
      | some (.error (e, _)) => some (.error e)
      | some (.ok s) => some (.ok (if ls then lineSplit (addToken .eof .vnone s).tokens
          else (addToken .eof .vnone s).tokens))) = none := hcon
  cases hrl : runLoop .base cfg tc fuel (initState sql) with
  | none =>
    refine runLoop_total (setTerminator_savedh hst) hsome (setTerminator_len hst)
      fuel (initState sql) (initState_fullInv sql).1 ?_ hrl
    show sql.length + 1 - 0 ≤ fuel
    omega
  | some r =>
    rw [hrl] at h3
    match r, h3 with
    | .error (e, se), h3 => exact Option.noConfusion h3
    | .ok sf, h3 => exact Option.noConfusion h3

/-- C4 witness: termination applied to the input `A` with the default
terminator `;` (whose saved handler is the semicolon handler) and fuel
`len + 1 = 2`. -/
theorem c4_termination_witness :
    setTerminator .base cfg92 [';'] = .ok ⟨[';'], some BH.semicolon⟩ ∧
    ("A".toList.length + 1 ≤ 2) ∧
    parse .base cfg92 "A".toList [';'] false 2 ≠ none :=
  ⟨by decide, by decide,
   @c4_termination cfg92 ("A".toList) [';'] false 2 ⟨[';'], some BH.semicolon⟩
     (by decide) (by decide) (by decide)⟩

theorem nib_cons_of_ne {c : Char} {r : List Char} (h1 : c ≠ '\n') (h2 : c ≠ '\r') :
    noInternalBreakB (c :: r) = noInternalBreakB r := by
  cases r with
  | nil => simp [noInternalBreakB, h1, h2]
  | cons c2 r2 =>
    cases r2 with
    | nil => simp [noInternalBreakB, h1, h2]
    | cons c3 r3 => simp [noInternalBreakB, h1, h2]

theorem nib_lf_cons {c2 : Char} {r2 : List Char} :
    noInternalBreakB ('\n' :: c2 :: r2) = false := by
  simp [noInternalBreakB]

theorem nib_cr_eq {r : List Char} (h : noInternalBreakB ('\r' :: r) = true) :
    r = ['\n'] := by
  cases r with
  | nil => simp [noInternalBreakB] at h
  | cons c2 r2 =>
    cases r2 with
    | nil =>
      by_cases hc : c2 = '\n'
      · rw [hc]
      · simp [noInternalBreakB, hc] at h
    | cons c3 r3 => simp [noInternalBreakB] at h

theorem getD_drop (l : List Char) (i j : Nat) :
    (l.drop i).getD j NUL = l.getD (i + j) NUL := by
  rw [List.getD_eq_getElem?_getD, List.getD_eq_getElem?_getD, List.getElem?_drop]

theorem noLoneCR_nil : noLoneCR [] :=
  fun j hj _ => absurd hj (by simp)

theorem noLoneCR_drop {l : List Char} (i : Nat) (h : noLoneCR l) : noLoneCR (l.drop i) := by
  intro j hj hc
  rw [List.length_drop] at hj
  rw [getD_drop] at hc
  have h2 := h (i + j) (by omega) hc
  refine ⟨by rw [List.length_drop]; omega, ?_⟩
  rw [getD_drop]
  rw [show i + (j + 1) = i + j + 1 by omega]
  exact h2.2

theorem noLoneCR_tail {c : Char} {r : List Char} (h : noLoneCR (c :: r)) : noLoneCR r :=
  noLoneCR_drop 1 h

/-- A lone-CR-free fragment containing no LF contains no break at all. -/
theorem nib_of_no_lf : ∀ {l : List Char}, noLoneCR l → '\n' ∉ l →
    noInternalBreakB l = true := by
  intro l
  induction l with
  | nil => intro _ _; rfl
  | cons c r ih =>
    intro hcr h
    have hc1 : c ≠ '\n' := fun he => h (he ▸ List.mem_cons_self c r)
    have hc2 : c ≠ '\r' := by
      intro he
      have h0 := hcr 0 (by simp) (by rw [List.getD_cons_zero]; exact he)
      apply h
      have hlen : 0 < r.length := by
        have := h0.1
        simp at this
        omega
      have hg := h0.2
      rw [List.getD_cons_succ, List.getD_eq_getElem?_getD,
        List.getElem?_eq_getElem hlen] at hg
      have hm : ('\n' : Char) ∈ r := by
        rw [← hg]
        exact List.getElem_mem hlen
      exact List.mem_cons_of_mem c hm
    rw [nib_cons_of_ne hc1 hc2]
    exact ih (noLoneCR_tail hcr) (fun hm => h (List.mem_cons_of_mem c hm))

/-- Advancing a position over an internal-break-free fragment either
stays on the same line (no break at all) or moves to the start of the
next line. -/
theorem nib_advPos : ∀ (l : List Char), noInternalBreakB l = true → ∀ (p : Nat × Nat),
    ('\n' ∉ l ∧ advPos l p = (p.1, p.2 + l.length)) ∨ advPos l p = (p.1 + 1, 1) := by
  intro l
  induction l with
  | nil =>
    intro _ p
    left
    exact ⟨List.not_mem_nil _, by simp [advPos]⟩
  | cons c r ih =>
    intro h p
    by_cases hlf : c = '\n'
    · subst hlf
      cases r with
      | nil => exact Or.inr rfl
      | cons c2 r2 =>
        rw [nib_lf_cons] at h
        exact absurd h (by decide)
    · by_cases hcr : c = '\r'
      · subst hcr
        rw [nib_cr_eq h]
        exact Or.inr rfl
      · rw [nib_cons_of_ne hlf hcr] at h
        have step : advPos (c :: r) p = advPos r (p.1, p.2 + 1) := by
          simp [advPos, hlf, hcr]
        rcases ih h (p.1, p.2 + 1) with ⟨h1, h3⟩ | h3
        · left
          refine ⟨?_, ?_⟩
          · intro hm
            rcases List.mem_cons.mp hm with he | hm2
            · exact hlf he.symm
            · exact h1 hm2
          · rw [step, h3]
            show ((p.1 : Nat), p.2 + 1 + r.length) = (p.1, p.2 + (r.length + 1))
            rw [show p.2 + 1 + r.length = p.2 + (r.length + 1) by omega]
        · exact Or.inr (by rw [step, h3])

theorem findIdx_lf_lt {l : List Char} (hlf : '\n' ∈ l) :
    l.findIdx (fun c => c = '\n') < l.length :=
  List.findIdx_lt_length_of_exists ⟨'\n', hlf, by simp⟩

theorem getD_findIdx_lf {l : List Char} (hlf : '\n' ∈ l) :
    l.getD (l.findIdx (fun c => c = '\n')) NUL = '\n' := by
  have hfi := findIdx_lf_lt hlf
  rw [List.getD_eq_getElem?_getD, List.getElem?_eq_getElem hfi]
  have := @List.findIdx_getElem _ (fun c => decide (c = '\n')) l hfi
  simpa using this

/-- The LF scanned for is inside the piece cut off before it. -/
theorem mem_take_lf {l : List Char} (hlf : '\n' ∈ l) :
    '\n' ∈ l.take (l.findIdx (fun c => c = '\n') + 1) := by
  have hfi := findIdx_lf_lt hlf
  have hlt : l.findIdx (fun c => c = '\n') <
      (l.take (l.findIdx (fun c => c = '\n') + 1)).length := by
    rw [List.length_take]
    omega
  have hg : (l.take (l.findIdx (fun c => c = '\n') + 1))[l.findIdx (fun c => c = '\n')] =
      l[l.findIdx (fun c => c = '\n')] := List.getElem_take _
  have hv : l[l.findIdx (fun c => c = '\n')] = '\n' := by
    have := getD_findIdx_lf hlf
    rw [List.getD_eq_getElem?_getD, List.getElem?_eq_getElem hfi] at this
    exact this
  have hm := List.getElem_mem hlt
  rw [hg, hv] at hm
  exact hm

/-- Cutting just after the first LF of a lone-CR-free fragment leaves no
internal break: any CR before the LF must itself be followed by LF, which
can only be the final one. -/
theorem take_lf_nib : ∀ {l : List Char}, noLoneCR l → '\n' ∈ l →
    noInternalBreakB (l.take (l.findIdx (fun c => c = '\n') + 1)) = true := by
  intro l
  induction l with
  | nil => intro _ hlf; exact absurd hlf (List.not_mem_nil _)
  | cons c r ih =>
    intro hcr hlf
    by_cases hc : c = '\n'
    · subst hc
      rw [List.findIdx_cons]
      simp only [decide_True, cond_true]
      rfl
    · have hlfr : '\n' ∈ r := by
        rcases List.mem_cons.mp hlf with he | hm
        · exact absurd he.symm hc
        · exact hm
      rw [List.findIdx_cons]
      simp only [hc, decide_False, cond_false]
      rw [List.take_succ_cons]
      by_cases hcrc : c = '\r'
      · subst hcrc
        cases r with
        | nil => exact absurd hlfr (List.not_mem_nil _)
        | cons c2 r2 =>
          have h0 := hcr 0 (by simp) (by rw [List.getD_cons_zero])
          have hg := h0.2
          rw [List.getD_cons_succ, List.getD_cons_zero] at hg
          subst hg
          rw [List.findIdx_cons]
          simp only [decide_True, cond_true]
          rfl
      · rw [nib_cons_of_ne hc hcrc]
        exact ih (noLoneCR_tail hcr) hlfr


theorem advPos_take_lf {l : List Char} {p : Nat × Nat} (hcr : noLoneCR l) (hlf : '\n' ∈ l) :
    advPos (l.take (l.findIdx (fun c => c = '\n') + 1)) p = (p.1 + 1, 1) := by
  rcases nib_advPos _ (take_lf_nib hcr hlf) p with ⟨h1, _⟩ | h3
  · exact absurd (mem_take_lf hlf) h1
  · exact h3

/-- Position advance decomposes at the cut just after the first LF (the
left piece ends in LF, never in CR, so the seam is sound). -/
theorem advPos_split_at_lf {l : List Char} (p : Nat × Nat) (hlf : '\n' ∈ l) :
    advPos l p = advPos (l.drop (l.findIdx (fun c => c = '\n') + 1))
      (advPos (l.take (l.findIdx (fun c => c = '\n') + 1)) p) := by
  have hfi := findIdx_lf_lt hlf
  have hla : (l.take (l.findIdx (fun c => c = '\n') + 1)).getLast? = some '\n' := by
    rw [getLast?_take (by omega) (by omega)]
    rw [show l.findIdx (fun c => c = '\n') + 1 - 1 = l.findIdx (fun c => c = '\n') from by omega]
    rw [getD_findIdx_lf hlf]
  conv_lhs => rw [← List.take_append_drop (l.findIdx (fun c => c = '\n') + 1) l]
  refine advPos_append (l.take (l.findIdx (fun c => c = '\n') + 1)).length _ _ p le_rfl ?_
  rintro ⟨hc, _⟩
  rw [hla] at hc
  exact absurd (Option.some.inj hc) (by decide)

theorem advTokens_cons (t : Token) (l : List Token) (p : Nat × Nat) :
    advTokens (t :: l) p = advTokens l (advPos t.source p) := rfl

theorem splitTok_succ_lf : ∀ (fuel : Nat) (t : Token), '\n' ∈ t.source →
    ∃ v1 v2, splitTok (fuel + 1) t =
      ⟨t.ttype, v1,
        t.source.take (t.source.findIdx (fun c => c = '\n') + 1), t.line, t.column⟩ ::
      splitTok fuel ⟨t.ttype, v2,
        t.source.drop (t.source.findIdx (fun c => c = '\n') + 1), t.line + 1, 1⟩ := by
  intro fuel t h
  rw [splitTok]
  rw [if_pos h]
  exact ⟨_, _, rfl⟩

/-- Splitting one token (with adequate fuel) yields only break-free
pieces, correctly positioned, and advances the position exactly as the
unsplit source does. -/
theorem splitTok_props : ∀ (fuel : Nat) (t : Token), t.source.length < fuel →
    noLoneCR t.source →
    (∀ u ∈ splitTok fuel t, noInternalBreakB u.source = true) ∧
    PosChain (t.line, t.column) (splitTok fuel t) ∧
    advTokens (splitTok fuel t) (t.line, t.column) =
      advPos t.source (t.line, t.column) := by
  intro fuel
  induction fuel with
  | zero => intro t hlen _; exact absurd hlen (by omega)
  | succ f ih =>
    intro t hlen hcr
    by_cases hlf : '\n' ∈ t.source
    · obtain ⟨v1, v2, heq⟩ := splitTok_succ_lf f t hlf
      rw [heq]
      have hfi := findIdx_lf_lt hlf
      have hl1 : 0 < t.source.length := List.length_pos.mpr (List.ne_nil_of_mem hlf)
      have hlen2 : (t.source.drop (t.source.findIdx (fun c => c = '\n') + 1)).length < f := by
        rw [List.length_drop]
        omega
      have hcr2 := noLoneCR_drop (t.source.findIdx (fun c => c = '\n') + 1) hcr
      obtain ⟨ihn, ihc, iha⟩ := ih ⟨t.ttype, v2,
        t.source.drop (t.source.findIdx (fun c => c = '\n') + 1), t.line + 1, 1⟩ hlen2 hcr2
      have hadv1 : advPos (t.source.take (t.source.findIdx (fun c => c = '\n') + 1))
          (t.line, t.column) = (t.line + 1, 1) := advPos_take_lf hcr hlf
      refine ⟨?_, ?_, ?_⟩
      · intro u hu
        rcases List.mem_cons.mp hu with h1 | h2
        · rw [h1]
          exact take_lf_nib hcr hlf
        · exact ihn u h2
      · refine ⟨rfl, ?_⟩
        show PosChain (advPos (t.source.take (t.source.findIdx (fun c => c = '\n') + 1))
          (t.line, t.column)) _
        rw [hadv1]
        exact ihc
      · rw [advTokens_cons]
        show advTokens _ (advPos (t.source.take (t.source.findIdx (fun c => c = '\n') + 1))
          (t.line, t.column)) = _
        rw [hadv1]
        have iha2 : advTokens (splitTok f ⟨t.ttype, v2,
            t.source.drop (t.source.findIdx (fun c => c = '\n') + 1), t.line + 1, 1⟩)
            (t.line + 1, 1) =
            advPos (t.source.drop (t.source.findIdx (fun c => c = '\n') + 1))
              (t.line + 1, 1) := iha
        rw [iha2, advPos_split_at_lf (t.line, t.column) hlf, hadv1]
    · rw [splitTok_no_lf hlf]
      refine ⟨?_, ⟨rfl, trivial⟩, rfl⟩
      intro u hu
      rw [List.mem_singleton.mp hu]
      exact nib_of_no_lf hcr hlf

/-- The whole splitting pass keeps positions chaining from the same start
and advances the position identically. -/
theorem lineSplit_chain : ∀ (l : List Token) (p : Nat × Nat), PosChain p l →
    (∀ t ∈ l, noLoneCR t.source) →
    PosChain p (lineSplit l) ∧ advTokens (lineSplit l) p = advTokens l p := by
  intro l
  induction l with
  | nil => intro p _ _; exact ⟨trivial, rfl⟩
  | cons t rest ih =>
    intro p hc hcr
    obtain ⟨h1, h2⟩ := hc
    rw [lineSplit_cons]
    obtain ⟨sn, sc, sa⟩ := splitTok_props (t.source.length + 1) t (by omega)
      (hcr t (List.mem_cons_self t rest))
    rw [← h1] at h2 ⊢
    obtain ⟨ihc, iha⟩ := ih (advPos t.source (t.line, t.column)) h2
      (fun u hu => hcr u (List.mem_cons_of_mem t hu))
    constructor
    · refine posChain_append _ _ _ sc ?_
      rw [sa]
      exact ihc
    · rw [advTokens_append, sa, iha, advTokens_cons]

/-- Along a correctly chained list of break-free tokens, every token's
line is either the starting line or carries a column-1 token on the same
line. -/
theorem chain_cover : ∀ (ts : List Token) (p : Nat × Nat), PosChain p ts →
    (∀ t ∈ ts, noInternalBreakB t.source = true) →
    ∀ t ∈ ts, t.line = p.1 ∨ ∃ t2 ∈ ts, t2.line = t.line ∧ t2.column = 1 := by
  intro ts
  induction ts with
  | nil => intro p _ _ t ht; exact absurd ht (List.not_mem_nil t)
  | cons t0 rest ih =>
    intro p hc hnib t ht
    obtain ⟨h1, h2⟩ := hc
    rcases List.mem_cons.mp ht with he | hm
    · subst he
      exact Or.inl (congrArg Prod.fst h1)
    · have ihres := ih (advPos t0.source p) h2
        (fun u hu => hnib u (List.mem_cons_of_mem t0 hu)) t hm
      rcases ihres with hline | ⟨t2, ht2, he2⟩
      · rcases nib_advPos t0.source (hnib t0 (List.mem_cons_self t0 rest)) p with ⟨_, hq⟩ | hq
        · left
          rw [hline, hq]
        · cases rest with
          | nil => exact absurd hm (List.not_mem_nil t)
          | cons u rest2 =>
            right
            have h3 := h2.1
            rw [hq] at h3
            refine ⟨u, List.mem_cons_of_mem t0 (List.mem_cons_self u rest2), ?_, ?_⟩
            · rw [hline, hq]
              exact congrArg Prod.fst h3
            · exact congrArg Prod.snd h3
      · exact Or.inr ⟨t2, List.mem_cons_of_mem t0 ht2, he2⟩

/-- C7 (amended): on inputs whose line breaks are all LF or CRLF (no lone
CR), a normal `line_split=True` run yields only tokens free of internal
line breaks, with correctly re-derived (line, column) positions chaining
from (1, 1), and every line on which some token starts also has a token
starting at column 1. -/
theorem c7_line_split {cfg : Cfg} {sql term : List Char} {fuel : Nat} {ts : List Token}
    (hcr : noLoneCR sql) (h : parse .base cfg sql term true fuel = some (.ok ts)) :
    (∀ t ∈ ts, noInternalBreakB t.source = true) ∧
    PosChain (1, 1) ts ∧
    (∀ t ∈ ts, ∃ t2 ∈ ts, t2.line = t.line ∧ t2.column = 1) := by
  obtain ⟨sf, ⟨hS, hT⟩, hsrc, hchar, hts⟩ := parse_ok_final h
  have hts2 : ts = lineSplit (sf.tokens ++
      [⟨.eof, .vnone, slice sf.src sf.tokenstart sf.index, sf.tokenline,
        sf.tokencolumn⟩]) := hts
  have hcrsf : noLoneCR sf.src := by
    rw [hsrc]
    exact hcr
  have hcrtoks : ∀ t ∈ sf.tokens ++
      [(⟨.eof, .vnone, slice sf.src sf.tokenstart sf.index, sf.tokenline,
        sf.tokencolumn⟩ : Token)], noLoneCR t.source := by
    intro t ht
    rcases List.mem_append.mp ht with h1 | h2
    · exact hT.2.2.2.1 hcrsf t h1
    · rw [List.mem_singleton.mp h2]
      show noLoneCR (slice sf.src sf.tokenstart sf.index)
      rw [hS.1, slice_self]
      exact noLoneCR_nil
  have hchain0 : PosChain (1, 1) (sf.tokens ++
      [⟨.eof, .vnone, slice sf.src sf.tokenstart sf.index, sf.tokenline,
        sf.tokencolumn⟩]) := by
    refine posChain_append _ _ _ hT.2.2.2.2.1 ?_
    rw [hT.2.2.2.2.2]
    exact ⟨rfl, trivial⟩
  obtain ⟨hchain, _⟩ := lineSplit_chain _ (1, 1) hchain0 hcrtoks
  have hchain2 : PosChain (1, 1) ts := by
    rw [hts2]
    exact hchain
  have hnib : ∀ t ∈ ts, noInternalBreakB t.source = true := by
    intro t ht
    rw [hts2] at ht
    obtain ⟨t0, ht0, hmem⟩ := lineSplit_mem ht
    exact (splitTok_props _ t0 (by omega) (hcrtoks t0 ht0)).1 t hmem
  refine ⟨hnib, hchain2, ?_⟩
  intro t ht
  rcases chain_cover ts (1, 1) hchain2 hnib t ht with h1 | h2
  · cases ts with
    | nil => exact absurd ht (List.not_mem_nil t)
    | cons u rest =>
      refine ⟨u, List.mem_cons_self u rest, ?_, ?_⟩
      · rw [h1]
        exact congrArg Prod.fst hchain2.1
      · exact congrArg Prod.snd hchain2.1
  · exact h2

/-- C7 witness: the theorem applied to the two-line input `a` LF `b`
(which splits the whitespace token at the line break). -/
theorem c7_line_split_witness :
    noLoneCR "a\nb".toList ∧
    parse .base cfg92 "a\nb".toList (";".toList) true 9 = some (.ok
      [⟨.identifier, .vstr ['A'], ['a'], 1, 1⟩,
       ⟨.whitespace, .vnone, ['\n'], 1, 2⟩,
       ⟨.whitespace, .vnone, [], 2, 1⟩,
       ⟨.identifier, .vstr ['B'], ['b'], 2, 1⟩,
       ⟨.eof, .vnone, [], 2, 2⟩]) ∧
    (∀ t ∈ [(⟨.identifier, .vstr ['A'], ['a'], 1, 1⟩ : Token),
       ⟨.whitespace, .vnone, ['\n'], 1, 2⟩,
       ⟨.whitespace, .vnone, [], 2, 1⟩,
       ⟨.identifier, .vstr ['B'], ['b'], 2, 1⟩,
       ⟨.eof, .vnone, [], 2, 2⟩], noInternalBreakB t.source = true) ∧
    PosChain (1, 1)
      [⟨.identifier, .vstr ['A'], ['a'], 1, 1⟩,
       ⟨.whitespace, .vnone, ['\n'], 1, 2⟩,
       ⟨.whitespace, .vnone, [], 2, 1⟩,
       ⟨.identifier, .vstr ['B'], ['b'], 2, 1⟩,
       ⟨.eof, .vnone, [], 2, 2⟩] ∧
    (∀ t ∈ [(⟨.identifier, .vstr ['A'], ['a'], 1, 1⟩ : Token),
       ⟨.whitespace, .vnone, ['\n'], 1, 2⟩,
       ⟨.whitespace, .vnone, [], 2, 1⟩,
       ⟨.identifier, .vstr ['B'], ['b'], 2, 1⟩,
       ⟨.eof, .vnone, [], 2, 2⟩],
      ∃ t2 ∈ [(⟨.identifier, .vstr ['A'], ['a'], 1, 1⟩ : Token),
       ⟨.whitespace, .vnone, ['\n'], 1, 2⟩,
       ⟨.whitespace, .vnone, [], 2, 1⟩,
       ⟨.identifier, .vstr ['B'], ['b'], 2, 1⟩,
       ⟨.eof, .vnone, [], 2, 2⟩], t2.line = t.line ∧ t2.column = 1) :=
  ⟨by decide, by decide,
   (@c7_line_split cfg92 ("a\nb".toList) (";".toList) 9
     [⟨.identifier, .vstr ['A'], ['a'], 1, 1⟩,
      ⟨.whitespace, .vnone, ['\n'], 1, 2⟩,
      ⟨.whitespace, .vnone, [], 2, 1⟩,
      ⟨.identifier, .vstr ['B'], ['b'], 2, 1⟩,
      ⟨.eof, .vnone, [], 2, 2⟩] (by decide) (by decide)).1,
   (@c7_line_split cfg92 ("a\nb".toList) (";".toList) 9
     [⟨.identifier, .vstr ['A'], ['a'], 1, 1⟩,
      ⟨.whitespace, .vnone, ['\n'], 1, 2⟩,
      ⟨.whitespace, .vnone, [], 2, 1⟩,
      ⟨.identifier, .vstr ['B'], ['b'], 2, 1⟩,
      ⟨.eof, .vnone, [], 2, 2⟩] (by decide) (by decide)).2.1,
   (@c7_line_split cfg92 ("a\nb".toList) (";".toList) 9
     [⟨.identifier, .vstr ['A'], ['a'], 1, 1⟩,
      ⟨.whitespace, .vnone, ['\n'], 1, 2⟩,
      ⟨.whitespace, .vnone, [], 2, 1⟩,
      ⟨.identifier, .vstr ['B'], ['b'], 2, 1⟩,
      ⟨.eof, .vnone, [], 2, 2⟩] (by decide) (by decide)).2.2⟩

end DbSuite
